import Mathlib

/-!
Verification of the ip-kit IP-addressing toolkit.

The TypeScript sources are shallowly embedded: bigint address values become
`Nat` (addresses are non-negative and bounded by `2 ^ bits`), signed results
become `Int`, thrown exceptions become `Except Err`, and `null` becomes
`Option`.  Bitwise operations on address values (`&` with a high mask, `|`
with a low mask) are expressed by the equivalent div/mod arithmetic, which
coincides with the bitwise form for values below `2 ^ bits`.
-/

namespace IpKit

/-- The error kinds thrown by the library (src/core/errors.ts), plus the
JavaScript-level RangeError that `BigInt(NaN)` / `Array(-1)` raise. -/
inductive Err where
  | parse
  | outOfRange
  | invariant
  | versionMismatch
  | jsRange
deriving DecidableEq, Repr

/-! ## Numeric core (core/bigint.ts, current revision with validation) -/

/-- `prefixMask(prefix, bits)`: top `p` bits set.  For `p ≤ bits` this equals
`((1n << p) - 1n) << (bits - p)` of the source; the `& max` of the source is a
no-op there. -/
def pmask (p bits : Nat) : Nat := (2 ^ p - 1) * 2 ^ (bits - p)

/-- `networkOf(ip, prefix, bits) = ip & prefixMask(prefix, bits)`: clears the
low `bits - p` bits.  For `ip < 2 ^ bits` the bitwise AND is exactly this
div/mul round-down. -/
def networkOf (ip p bits : Nat) : Nat := ip / 2 ^ (bits - p) * 2 ^ (bits - p)

/-- `broadcastOf(ip, prefix, bits) = ip | hostMask(prefix, bits)`: sets the
low `bits - p` bits.  For `ip < 2 ^ bits` the bitwise OR equals this. -/
def broadcastOf (ip p bits : Nat) : Nat :=
  ip / 2 ^ (bits - p) * 2 ^ (bits - p) + (2 ^ (bits - p) - 1)

/-- `((start + bs - 1n) / bs) * bs` of `maxAlignedBlock`: the least multiple
of `bs` that is `≥ start` (for `bs > 0`). -/
def alignUp (s bs : Nat) : Nat := (s + bs - 1) / bs * bs

/-- An aligned block of size `2 ^ q` placed at `alignUp s (2 ^ q)` still ends
inside `[s, e]`. -/
def fits (s e q : Nat) : Prop := alignUp s (2 ^ q) + 2 ^ q - 1 ≤ e

instance (s e q : Nat) : Decidable (fits s e q) := by unfold fits; infer_instance

/-- The descending search loop of `maxAlignedBlock` (core/bigint.ts): for
`p = maxExp, maxExp-1, …, 0` align `start` up to the next `2 ^ p` boundary
and return the first block that fits in `[start, end]`. -/
def mabGo (s e : Nat) : Nat → Option (Nat × Nat)
  | 0 => if alignUp s 1 + 1 - 1 ≤ e then some (0, alignUp s 1) else none
  | p + 1 =>
    if alignUp s (2 ^ (p + 1)) + 2 ^ (p + 1) - 1 ≤ e then
      some (p + 1, alignUp s (2 ^ (p + 1)))
    else mabGo s e p

/-- `maxAlignedBlock(start, end, bits)` (core/bigint.ts, current revision):
validates the width, returns `null` for an empty interval, otherwise searches
block exponents downward from the largest power of two `≤ size`
(`Nat.log2 size` equals the source's doubling loop).  The returned pair is
`(prefix, blockStart)` with `prefix = bits - p` computed in `Int` exactly as
the source computes it on unbounded numbers. -/
def maxAlignedBlock (s e bits : Nat) : Except Err (Option (Int × Nat)) :=
  if ¬(bits = 32 ∨ bits = 128) then .error .outOfRange
  else if e < s then .ok none
  else .ok ((mabGo s e (Nat.log2 (e + 1 - s))).map
    (fun pb => ((bits : Int) - pb.1, pb.2)))

/-! ### alignUp lemmas -/

theorem alignUp_dvd (s bs : Nat) : bs ∣ alignUp s bs :=
  dvd_mul_left bs ((s + bs - 1) / bs)

theorem le_alignUp (s : Nat) {bs : Nat} (h : 0 < bs) : s ≤ alignUp s bs := by
  have h1 : bs * ((s + bs - 1) / bs) + (s + bs - 1) % bs = s + bs - 1 :=
    Nat.div_add_mod (s + bs - 1) bs
  have h2 : (s + bs - 1) % bs < bs := Nat.mod_lt _ h
  unfold alignUp
  rw [Nat.mul_comm]
  omega

theorem alignUp_le_of_dvd {s bs c : Nat} (h : 0 < bs) (hd : bs ∣ c) (hs : s ≤ c) :
    alignUp s bs ≤ c := by
  obtain ⟨m, rfl⟩ := hd
  unfold alignUp
  have h1 : (s + bs - 1) / bs ≤ m := by
    have h2 : s + bs - 1 ≤ bs * m + (bs - 1) := by omega
    have h3 : (bs * m + (bs - 1)) / bs = m + (bs - 1) / bs := Nat.mul_add_div h m (bs - 1)
    have h4 : (bs - 1) / bs = 0 := Nat.div_eq_of_lt (by omega)
    have h5 : (s + bs - 1) / bs ≤ (bs * m + (bs - 1)) / bs := Nat.div_le_div_right h2
    omega
  calc (s + bs - 1) / bs * bs ≤ m * bs := Nat.mul_le_mul_right bs h1
    _ = bs * m := Nat.mul_comm m bs

theorem alignUp_one (s : Nat) : alignUp s 1 = s := by
  unfold alignUp; omega

/-! ### mabGo lemmas -/

theorem mabGo_isSome {s e : Nat} (p : Nat) (h0 : fits s e 0) :
    ∃ q b, mabGo s e p = some (q, b) := by
  have hc : alignUp s 1 + 1 - 1 ≤ e := by simpa [fits] using h0
  induction p with
  | zero =>
    refine ⟨0, alignUp s 1, ?_⟩
    simp only [mabGo]
    rw [if_pos (by omega)]
  | succ p ih =>
    by_cases h : alignUp s (2 ^ (p + 1)) + 2 ^ (p + 1) - 1 ≤ e
    · exact ⟨p + 1, alignUp s (2 ^ (p + 1)), by simp [mabGo, h]⟩
    · obtain ⟨q, b, hq⟩ := ih
      exact ⟨q, b, by simp [mabGo, h, hq]⟩

theorem mabGo_some_props {s e p q b : Nat} (h : mabGo s e p = some (q, b)) :
    fits s e q ∧ b = alignUp s (2 ^ q) ∧ q ≤ p := by
  induction p with
  | zero =>
    simp only [mabGo] at h
    split at h
    · rename_i hc
      obtain ⟨rfl, rfl⟩ : 0 = q ∧ alignUp s 1 = b := by
        constructor <;> [exact (Option.some_inj.mp h ▸ rfl : (0, alignUp s 1).1 = q);
          exact (Option.some_inj.mp h ▸ rfl : (0, alignUp s 1).2 = b)]
      exact ⟨by simpa [fits] using hc, rfl, Nat.le_refl 0⟩
    · exact absurd h (by simp)
  | succ p ih =>
    simp only [mabGo] at h
    split at h
    · rename_i hc
      obtain ⟨rfl, rfl⟩ : p + 1 = q ∧ alignUp s (2 ^ (p + 1)) = b := by
        constructor <;> [exact (Option.some_inj.mp h ▸ rfl :
            (p + 1, alignUp s (2 ^ (p + 1))).1 = q);
          exact (Option.some_inj.mp h ▸ rfl : (p + 1, alignUp s (2 ^ (p + 1))).2 = b)]
      exact ⟨by simpa [fits] using hc, rfl, Nat.le_refl _⟩
    · obtain ⟨h1, h2, h3⟩ := ih h
      exact ⟨h1, h2, Nat.le_succ_of_le h3⟩

theorem mabGo_max {s e p q b : Nat} (h : mabGo s e p = some (q, b))
    {r : Nat} (hr : r ≤ p) (hf : fits s e r) : r ≤ q := by
  induction p with
  | zero => omega
  | succ p ih =>
    simp only [mabGo] at h
    split at h
    · rename_i hc
      have : p + 1 = q := by
        have := Option.some_inj.mp h
        exact congrArg Prod.fst this
      omega
    · rename_i hc
      rcases Nat.lt_or_ge r (p + 1) with hlt | hge
      · exact ih h (by omega)
      · exfalso
        have : r = p + 1 := by omega
        subst this
        exact hc (by simpa [fits] using hf)

/-- Any aligned block of size `2 ^ q` inside `[s, e]` forces `2 ^ q ≤ size`,
hence `q ≤ log2 size`. -/
theorem exp_le_log2_of_block {s e q c : Nat} (hd : 2 ^ q ∣ c) (hs : s ≤ c)
    (he : c + 2 ^ q - 1 ≤ e) : q ≤ Nat.log2 (e + 1 - s) := by
  have hpow : 0 < 2 ^ q := Nat.pos_pow_of_pos q (by omega)
  have hsize : 2 ^ q ≤ e + 1 - s := by omega
  have hne : e + 1 - s ≠ 0 := by omega
  by_contra hq
  have h1 : Nat.log2 (e + 1 - s) < q := by omega
  have h2 : e + 1 - s < 2 ^ q := (Nat.log2_lt hne).mp h1
  omega

/-- C1.  For a valid width and `start ≤ end`, `maxAlignedBlock` returns the
largest power-of-two aligned block inside `[start, end]` (as `(bits - p,
blockStart)` with block size `2 ^ p`), and it returns `null` exactly when
`end < start`. -/
theorem maxAlignedBlock_spec (bits s e : Nat) (hb : bits = 32 ∨ bits = 128) :
    (maxAlignedBlock s e bits = .ok none ↔ e < s) ∧
    (s ≤ e → ∃ (p b : Nat),
      maxAlignedBlock s e bits = .ok (some ((bits : Int) - (p : Int), b)) ∧
      2 ^ p ∣ b ∧ s ≤ b ∧ b + 2 ^ p - 1 ≤ e ∧
      ∀ (q c : Nat), 2 ^ q ∣ c → s ≤ c → c + 2 ^ q - 1 ≤ e → q ≤ p) := by
  have hbv : ¬¬(bits = 32 ∨ bits = 128) := not_not_intro hb
  have key : s ≤ e → ∃ p b, mabGo s e (Nat.log2 (e + 1 - s)) = some (p, b) ∧
      2 ^ p ∣ b ∧ s ≤ b ∧ b + 2 ^ p - 1 ≤ e ∧
      ∀ q c, 2 ^ q ∣ c → s ≤ c → c + 2 ^ q - 1 ≤ e → q ≤ p := by
    intro hse
    have h0 : fits s e 0 := by unfold fits; rw [pow_zero, alignUp_one]; omega
    obtain ⟨p, b, hgo⟩ := mabGo_isSome (Nat.log2 (e + 1 - s)) h0
    obtain ⟨hfit, rfl, _⟩ := mabGo_some_props hgo
    have hpos : 0 < 2 ^ p := Nat.pos_pow_of_pos p (by omega)
    refine ⟨p, _, hgo, alignUp_dvd s (2 ^ p), le_alignUp s hpos, hfit, ?_⟩
    intro q c hdq hsq heq
    have hlog : q ≤ Nat.log2 (e + 1 - s) := exp_le_log2_of_block hdq hsq heq
    have hposq : 0 < 2 ^ q := Nat.pos_pow_of_pos q (by omega)
    have hfq : fits s e q := by
      unfold fits
      have := alignUp_le_of_dvd hposq hdq hsq
      omega
    exact mabGo_max hgo hlog hfq
  constructor
  · constructor
    · intro h
      by_contra hlt
      have hse : s ≤ e := by omega
      obtain ⟨p, b, hgo, _⟩ := key hse
      unfold maxAlignedBlock at h
      rw [if_neg hbv, if_neg (by omega)] at h
      simp [hgo] at h
    · intro h
      unfold maxAlignedBlock
      rw [if_neg hbv, if_pos h]
  · intro hse
    obtain ⟨p, b, hgo, h1, h2, h3, h4⟩ := key hse
    refine ⟨p, b, ?_, h1, h2, h3, h4⟩
    unfold maxAlignedBlock
    rw [if_neg hbv, if_neg (by omega), hgo]
    rfl

/-- C1 witness: on `[1, 6]` with width 32 the theorem's hypotheses hold and the
block found is `[2, 3]`, i.e. `(prefix 31, start 2)`. -/
theorem maxAlignedBlock_spec_witness :
    (maxAlignedBlock 1 6 32 = .ok (some ((31 : Int), 2))) ∧
    ((1 : Nat) ≤ 6 → ∃ (p b : Nat),
      maxAlignedBlock 1 6 32 = .ok (some ((32 : Int) - (p : Int), b)) ∧
      2 ^ p ∣ b ∧ 1 ≤ b ∧ b + 2 ^ p - 1 ≤ 6 ∧
      ∀ (q c : Nat), 2 ^ q ∣ c → 1 ≤ c → c + 2 ^ q - 1 ≤ 6 → q ≤ p) :=
  ⟨by norm_num [maxAlignedBlock, Nat.log2, mabGo, alignUp],
    (maxAlignedBlock_spec 32 1 6 (Or.inl rfl)).2⟩

/-! ## CIDR.move (src/domain/cidr.ts) -/

/-- `move(n)` (src/domain/cidr.ts): translate the network address by `n`
block-steps.  `CIDR.from` only re-checks `0 ≤ prefix ≤ bits`;
`IPv4.fromBigInt`/`IPv6.fromBigInt` perform no range validation, so the
translated network is accepted unchanged (possibly negative or `≥ 2 ^ bits`).
The result models the constructed CIDR as `(ip value, prefix)`. -/
def cidrMove (bits p ip : Nat) (n : Int) : Except Err (Int × Nat) :=
  if ¬(bits = 32 ∨ bits = 128) ∨ bits < p then .error .outOfRange
  else if p ≤ bits then
    .ok (((networkOf ip p bits : Nat) : Int) + n * 2 ^ (bits - p), p)
  else .error .parse

/-- C9.  For every CIDR (valid width, `p ≤ bits`) and every integer `n`,
`move(n)` succeeds — even when the translated network leaves
`[0, 2 ^ bits - 1]` — and returns the same prefix length with network value
`network + n * 2 ^ (bits - p)`. -/
theorem cidrMove_spec (bits p ip : Nat) (n : Int) (hb : bits = 32 ∨ bits = 128)
    (hp : p ≤ bits) :
    cidrMove bits p ip n =
      .ok (((networkOf ip p bits : Nat) : Int) + n * 2 ^ (bits - p), p) := by
  unfold cidrMove
  rw [if_neg (by push_neg; exact ⟨hb, hp⟩), if_pos hp]

/-- C9 witness: moving `192.168.1.0/24` down by 20 million block-steps lands
far below 0, yet `move` succeeds and returns exactly
`network - 20000000 * 256`. -/
theorem cidrMove_spec_witness :
    cidrMove 32 24 3232235776 (-20000000) =
      .ok (((networkOf 3232235776 24 32 : Nat) : Int) + (-20000000) * 2 ^ (32 - 24), 24) ∧
    ((networkOf 3232235776 24 32 : Nat) : Int) + (-20000000) * 2 ^ (32 - 24) < 0 :=
  ⟨cidrMove_spec 32 24 3232235776 (-20000000) (Or.inl rfl) (by decide), by decide⟩

/-! ## RangeSet (src/domain/rangeset.ts)

A range is the pair `(start, end)` of its two address values; an `IPRange`
satisfies `start ≤ end` by construction.  `overlaps` (src/domain/range.ts) is
`!(this.end < other.start || this.start > other.end)`. -/

/-- The merge scan of `RangeSet.normalize`: `current` is merged into the
accumulated `last` when `current.overlaps(last) || current.start ==
last.end + 1`, the merged end being the max of both ends. -/
def mergeGo (last : Nat × Nat) : List (Nat × Nat) → List (Nat × Nat)
  | [] => [last]
  | cur :: rest =>
    if ¬(cur.2 < last.1 ∨ cur.1 > last.2) ∨ cur.1 = last.2 + 1 then
      mergeGo (last.1, max last.2 cur.2) rest
    else last :: mergeGo cur rest

/-- `RangeSet.normalize`: sort ascending by start (the JS comparator sort),
then merge overlapping or adjacent ranges left to right. -/
def normalizeRS (l : List (Nat × Nat)) : List (Nat × Nat) :=
  match l.insertionSort (fun a b => a.1 ≤ b.1) with
  | [] => []
  | first :: rest => mergeGo first rest

/-- `RangeSet.union`: concatenate both range lists, normalize. -/
def rsUnion (a b : List (Nat × Nat)) : List (Nat × Nat) := normalizeRS (a ++ b)

/-- The per-pair body of `RangeSet.intersect`: an overlapping pair produces
`[max(starts), min(ends)]` when that interval is non-empty. -/
def interPair (ra rb : Nat × Nat) : Option (Nat × Nat) :=
  if ¬(ra.2 < rb.1 ∨ ra.1 > rb.2) then
    if max ra.1 rb.1 ≤ min ra.2 rb.2 then some (max ra.1 rb.1, min ra.2 rb.2)
    else none
  else none

/-- `RangeSet.intersect`: for every overlapping pair emit
`[max(starts), min(ends)]`, then normalize. -/
def rsIntersect (a b : List (Nat × Nat)) : List (Nat × Nat) :=
  normalizeRS (a.flatMap fun ra => b.filterMap (interPair ra))

/-- The per-range body of `RangeSet.subtractSingleRange`: a non-overlapping
range is kept; an overlapping one is replaced by its non-empty left remainder
`[start, otherStart-1]` and right remainder `[otherEnd+1, end]`. -/
def subPieces (o c : Nat × Nat) : List (Nat × Nat) :=
  if ¬(c.2 < o.1 ∨ c.1 > o.2) then
    (if c.1 < o.1 then if c.1 ≤ o.1 - 1 then [(c.1, o.1 - 1)] else [] else []) ++
    (if o.2 < c.2 then if o.2 + 1 ≤ c.2 then [(o.2 + 1, c.2)] else [] else [])
  else [c]

/-- `RangeSet.subtractSingleRange`: split every overlapping accumulated range
around the subtrahend, keeping the non-empty left and right remainders. -/
def subtractSingle (ranges : List (Nat × Nat)) (o : Nat × Nat) : List (Nat × Nat) :=
  ranges.flatMap (subPieces o)

/-- `RangeSet.subtract`: fold each range of `other` over the accumulated
result, then normalize. -/
def rsSubtract (a b : List (Nat × Nat)) : List (Nat × Nat) :=
  normalizeRS (b.foldl subtractSingle a)

/-- `RangeSet.fromRanges`: normalize the given ranges. -/
def rsFromRanges (l : List (Nat × Nat)) : List (Nat × Nat) := normalizeRS l

/-- `CIDR.toRange()`: `[firstHost(includeEdges=true), lastHost(includeEdges=
true)] = [network, broadcast]`.  A CIDR is the pair `(prefix, ip value)`. -/
def cidrToRange (bits : Nat) (c : Nat × Nat) : Nat × Nat :=
  (networkOf c.2 c.1 bits, broadcastOf c.2 c.1 bits)

/-- `RangeSet.fromCIDRs`: convert every CIDR to its range, normalize. -/
def rsFromCIDRs (bits : Nat) (cidrs : List (Nat × Nat)) : List (Nat × Nat) :=
  normalizeRS (cidrs.map (cidrToRange bits))

/-- Every range of the list is well-formed (`start ≤ end`). -/
def ValidRanges (l : List (Nat × Nat)) : Prop := ∀ r ∈ l, r.1 ≤ r.2

/-- The canonical-form invariant of a RangeSet: well-formed ranges, sorted
ascending by start, mutually disjoint, and no two numerically adjacent —
equivalently, consecutive ranges satisfy `previous.end + 1 < next.start`. -/
def Canonical (l : List (Nat × Nat)) : Prop :=
  ValidRanges l ∧ l.Chain' (fun a b => a.2 + 1 < b.1)

/-- Address `x` belongs to the set described by the range list. -/
def memRS (l : List (Nat × Nat)) (x : Nat) : Prop := ∃ r ∈ l, r.1 ≤ x ∧ x ≤ r.2

instance (l : List (Nat × Nat)) : Decidable (ValidRanges l) :=
  inferInstanceAs (Decidable (∀ r ∈ l, r.1 ≤ r.2))

instance (l : List (Nat × Nat)) : Decidable (Canonical l) :=
  inferInstanceAs
    (Decidable (ValidRanges l ∧ l.Chain' (fun a b : Nat × Nat => a.2 + 1 < b.1)))

instance (l : List (Nat × Nat)) (x : Nat) : Decidable (memRS l x) :=
  inferInstanceAs (Decidable (∃ r ∈ l, r.1 ≤ x ∧ x ≤ r.2))

theorem memRS_nil (x : Nat) : ¬ memRS [] x := by simp [memRS]

theorem memRS_cons {r : Nat × Nat} {l : List (Nat × Nat)} {x : Nat} :
    memRS (r :: l) x ↔ (r.1 ≤ x ∧ x ≤ r.2) ∨ memRS l x := by
  simp [memRS]

theorem memRS_append {a b : List (Nat × Nat)} {x : Nat} :
    memRS (a ++ b) x ↔ memRS a x ∨ memRS b x := by
  simp [memRS, or_and_right, exists_or]

theorem memRS_of_perm {a b : List (Nat × Nat)} (h : a.Perm b) (x : Nat) :
    memRS a x ↔ memRS b x := by
  unfold memRS
  constructor
  · rintro ⟨r, hr, hx⟩
    exact ⟨r, h.mem_iff.mp hr, hx⟩
  · rintro ⟨r, hr, hx⟩
    exact ⟨r, h.mem_iff.mpr hr, hx⟩

theorem mergeGo_spec : ∀ (rest : List (Nat × Nat)) (last : Nat × Nat),
    ValidRanges rest → last.1 ≤ last.2 → (∀ r ∈ rest, last.1 ≤ r.1) →
    rest.Pairwise (fun a b => a.1 ≤ b.1) →
    ∃ e t, mergeGo last rest = (last.1, e) :: t ∧ last.2 ≤ e ∧
      Canonical (mergeGo last rest) ∧
      (∀ x, memRS (mergeGo last rest) x ↔ (last.1 ≤ x ∧ x ≤ last.2) ∨ memRS rest x) := by
  intro rest
  induction rest with
  | nil =>
    intro last _ hl _ _
    refine ⟨last.2, [], rfl, Nat.le_refl _, ⟨?_, ?_⟩, ?_⟩
    · intro r hr
      simp only [mergeGo, List.mem_singleton] at hr
      rw [hr]
      exact hl
    · simp [mergeGo]
    · intro x
      simp [mergeGo, memRS]
  | cons cur rest ih =>
    intro last hv hl hstart hsorted
    have hcur : last.1 ≤ cur.1 := hstart cur (by simp)
    have hcv : cur.1 ≤ cur.2 := hv cur (by simp)
    have hvr : ValidRanges rest := fun r hr => hv r (by simp [hr])
    have hpw := (List.pairwise_cons.mp hsorted).1
    have hsr := (List.pairwise_cons.mp hsorted).2
    by_cases hcond : ¬(cur.2 < last.1 ∨ cur.1 > last.2) ∨ cur.1 = last.2 + 1
    · -- merge: absorbed into (last.1, max last.2 cur.2)
      have hadj : cur.1 ≤ last.2 + 1 := by
        rcases hcond with h | h
        · push_neg at h; omega
        · omega
      have heq : mergeGo last (cur :: rest) = mergeGo (last.1, max last.2 cur.2) rest := by
        simp only [mergeGo, if_pos hcond]
      obtain ⟨e, t, h1, h2, h3, h4⟩ :=
        ih (last.1, max last.2 cur.2) hvr (by simp; omega)
          (fun r hr => Nat.le_trans hcur (hpw r hr)) hsr
      have hmax : max last.2 cur.2 ≤ e := h2
      refine ⟨e, t, by rw [heq]; exact h1, by omega, by rw [heq]; exact h3, ?_⟩
      intro x
      rw [heq, h4 x, memRS_cons]
      have hiff : ((last.1, max last.2 cur.2).1 ≤ x ∧ x ≤ (last.1, max last.2 cur.2).2) ↔
          (last.1 ≤ x ∧ x ≤ last.2) ∨ (cur.1 ≤ x ∧ x ≤ cur.2) := by
        simp only []
        omega
      rw [hiff]
      tauto
    · -- push: gap of at least one address before cur
      have hgap : last.2 + 1 < cur.1 := by
        push_neg at hcond
        omega
      have heq : mergeGo last (cur :: rest) = last :: mergeGo cur rest := by
        simp only [mergeGo, if_neg hcond]
      obtain ⟨e, t, h1, h2, h3, h4⟩ := ih cur hvr hcv hpw hsr
      refine ⟨last.2, mergeGo cur rest, by rw [heq], Nat.le_refl _, ⟨?_, ?_⟩, ?_⟩
      · rw [heq]
        intro r hr
        rcases List.mem_cons.mp hr with rfl | hr
        · exact hl
        · exact h3.1 r hr
      · rw [heq, h1]
        refine List.chain'_cons.mpr ⟨by simpa using hgap, ?_⟩
        rw [← h1]
        exact h3.2
      · intro x
        rw [heq, memRS_cons, h4 x, memRS_cons]

instance : IsTotal (Nat × Nat) (fun a b => a.1 ≤ b.1) :=
  ⟨fun a b => Nat.le_total a.1 b.1⟩

instance : IsTrans (Nat × Nat) (fun a b => a.1 ≤ b.1) :=
  ⟨fun _ _ _ => Nat.le_trans⟩

theorem normalizeRS_spec (l : List (Nat × Nat)) (hv : ValidRanges l) :
    Canonical (normalizeRS l) ∧ ∀ x, (memRS (normalizeRS l) x ↔ memRS l x) := by
  have hperm := List.perm_insertionSort (fun a b : Nat × Nat => a.1 ≤ b.1) l
  have hsorted := List.sorted_insertionSort (fun a b : Nat × Nat => a.1 ≤ b.1) l
  have hvs : ValidRanges (l.insertionSort fun a b => a.1 ≤ b.1) :=
    fun r hr => hv r (hperm.mem_iff.mp hr)
  rcases hsl : l.insertionSort (fun a b => a.1 ≤ b.1) with _ | ⟨first, rest⟩
  · rw [hsl] at hperm
    have : l = [] := hperm.symm.eq_nil
    subst this
    constructor
    · exact ⟨fun r hr => absurd hr (List.not_mem_nil r), List.chain'_nil⟩
    · intro x; rfl
  · rw [hsl] at hperm hsorted hvs
    have heq : normalizeRS l = mergeGo first rest := by
      unfold normalizeRS
      rw [hsl]
    obtain ⟨e, t, _, _, h3, h4⟩ := mergeGo_spec rest first
      (fun r hr => hvs r (by simp [hr]))
      (hvs first (by simp))
      (fun r hr => (List.pairwise_cons.mp hsorted).1 r hr)
      (List.pairwise_cons.mp hsorted).2
    rw [heq]
    refine ⟨h3, fun x => ?_⟩
    rw [h4 x, ← memRS_cons]
    exact memRS_of_perm hperm x

theorem canonical_nil : Canonical ([] : List (Nat × Nat)) :=
  ⟨fun r hr => absurd hr (List.not_mem_nil r), List.chain'_nil⟩

theorem canonical_tail {a : Nat × Nat} {t : List (Nat × Nat)}
    (h : Canonical (a :: t)) : Canonical t :=
  ⟨fun r hr => h.1 r (by simp [hr]), h.2.tail⟩

theorem canonical_tail_lb {b : Nat × Nat} {t : List (Nat × Nat)}
    (h : Canonical (b :: t)) : ∀ r ∈ t, b.2 + 1 < r.1 := by
  induction t generalizing b with
  | nil => intro r hr; cases hr
  | cons c t2 ih =>
    intro r hr
    have hbc : b.2 + 1 < c.1 := (List.chain'_cons.mp h.2).1
    have hcv : c.1 ≤ c.2 := h.1 c (by simp)
    rcases List.mem_cons.mp hr with rfl | hr
    · exact hbc
    · have := ih (canonical_tail h) r hr
      omega

theorem memRS_head_lb {a : Nat × Nat} {t : List (Nat × Nat)} {x : Nat}
    (h : Canonical (a :: t)) (hm : memRS (a :: t) x) : a.1 ≤ x := by
  obtain ⟨r, hr, hx1, hx2⟩ := hm
  rcases List.mem_cons.mp hr with rfl | hr
  · exact hx1
  · have h1 := canonical_tail_lb h r hr
    have h2 := h.1 a (by simp)
    omega

/-- Two canonical range lists describing the same set of addresses are
syntactically equal. -/
theorem canonical_unique : ∀ (l1 l2 : List (Nat × Nat)), Canonical l1 → Canonical l2 →
    (∀ x, memRS l1 x ↔ memRS l2 x) → l1 = l2 := by
  intro l1
  induction l1 with
  | nil =>
    intro l2 _ h2 hsem
    cases l2 with
    | nil => rfl
    | cons b t2 =>
      exfalso
      have hm : memRS (b :: t2) b.1 := ⟨b, by simp, Nat.le_refl _, h2.1 b (by simp)⟩
      exact memRS_nil b.1 ((hsem b.1).mpr hm)
  | cons a t1 ih =>
    intro l2 h1 h2 hsem
    cases l2 with
    | nil =>
      exfalso
      have hm : memRS (a :: t1) a.1 := ⟨a, by simp, Nat.le_refl _, h1.1 a (by simp)⟩
      exact memRS_nil a.1 ((hsem a.1).mp hm)
    | cons b t2 =>
      have hav : a.1 ≤ a.2 := h1.1 a (by simp)
      have hbv : b.1 ≤ b.2 := h2.1 b (by simp)
      have hma : memRS (a :: t1) a.1 := ⟨a, by simp, Nat.le_refl _, hav⟩
      have hmb : memRS (b :: t2) b.1 := ⟨b, by simp, Nat.le_refl _, hbv⟩
      have hab : a.1 = b.1 :=
        Nat.le_antisymm (memRS_head_lb h1 ((hsem b.1).mpr hmb))
          (memRS_head_lb h2 ((hsem a.1).mp hma))
      have hend : a.2 = b.2 := by
        by_contra hne
        rcases Nat.lt_or_ge a.2 b.2 with hlt | hge
        · have hm2 : memRS (b :: t2) (a.2 + 1) := ⟨b, by simp, by omega, by omega⟩
          obtain ⟨r, hr, hx1, hx2⟩ := (hsem (a.2 + 1)).mpr hm2
          rcases List.mem_cons.mp hr with rfl | hr
          · omega
          · have := canonical_tail_lb h1 r hr
            omega
        · have hlt2 : b.2 < a.2 := by omega
          have hm2 : memRS (a :: t1) (b.2 + 1) := ⟨a, by simp, by omega, by omega⟩
          obtain ⟨r, hr, hx1, hx2⟩ := (hsem (b.2 + 1)).mp hm2
          rcases List.mem_cons.mp hr with rfl | hr
          · omega
          · have := canonical_tail_lb h2 r hr
            omega
      have habp : a = b := Prod.ext hab hend
      subst habp
      have hsem2 : ∀ x, memRS t1 x ↔ memRS t2 x := by
        intro x
        constructor
        · intro hx
          obtain ⟨r, hr, hx1, hx2⟩ := hx
          have hgt : a.2 + 1 < x + 1 := by
            have := canonical_tail_lb h1 r hr
            omega
          obtain ⟨s, hs, hs1, hs2⟩ := (hsem x).mp ⟨r, by simp [hr], hx1, hx2⟩
          rcases List.mem_cons.mp hs with rfl | hs
          · omega
          · exact ⟨s, hs, hs1, hs2⟩
        · intro hx
          obtain ⟨r, hr, hx1, hx2⟩ := hx
          have hgt : a.2 + 1 < x + 1 := by
            have := canonical_tail_lb h2 r hr
            omega
          obtain ⟨s, hs, hs1, hs2⟩ := (hsem x).mpr ⟨r, by simp [hr], hx1, hx2⟩
          rcases List.mem_cons.mp hs with rfl | hs
          · omega
          · exact ⟨s, hs, hs1, hs2⟩
      rw [ih t2 (canonical_tail h1) (canonical_tail h2) hsem2]

/-! ### Validity and semantics of the RangeSet operations -/

theorem memRS_flatMap {l : List (Nat × Nat)} {f : Nat × Nat → List (Nat × Nat)} {x : Nat} :
    memRS (l.flatMap f) x ↔ ∃ c ∈ l, memRS (f c) x := by
  unfold memRS
  constructor
  · rintro ⟨r, hr, hx⟩
    obtain ⟨c, hc, hrf⟩ := List.mem_flatMap.mp hr
    exact ⟨c, hc, r, hrf, hx⟩
  · rintro ⟨c, hc, r, hrf, hx⟩
    exact ⟨r, List.mem_flatMap.mpr ⟨c, hc, hrf⟩, hx⟩

theorem memRS_nil_iff (x : Nat) : memRS [] x ↔ False := by simp [memRS]

theorem subPieces_valid (o c : Nat × Nat) (hcv : c.1 ≤ c.2) :
    ValidRanges (subPieces o c) := by
  intro r hr
  unfold subPieces at hr
  split_ifs at hr <;>
    simp only [List.mem_append, List.mem_singleton, List.not_mem_nil, or_false,
      false_or] at hr <;>
    (try rcases hr with rfl | rfl) <;>
    omega

theorem subPieces_sem (o c : Nat × Nat) (hcv : c.1 ≤ c.2) (x : Nat) :
    memRS (subPieces o c) x ↔ (c.1 ≤ x ∧ x ≤ c.2) ∧ ¬(o.1 ≤ x ∧ x ≤ o.2) := by
  unfold subPieces
  split_ifs <;>
    simp [memRS_append, memRS_cons, memRS_nil_iff] <;>
    omega

theorem subtractSingle_valid {ranges : List (Nat × Nat)} (o : Nat × Nat)
    (hv : ValidRanges ranges) : ValidRanges (subtractSingle ranges o) := by
  intro r hr
  obtain ⟨c, hc, hrf⟩ := List.mem_flatMap.mp hr
  exact subPieces_valid o c (hv c hc) r hrf

theorem subtractSingle_sem {ranges : List (Nat × Nat)} (o : Nat × Nat)
    (hv : ValidRanges ranges) (x : Nat) :
    memRS (subtractSingle ranges o) x ↔ memRS ranges x ∧ ¬(o.1 ≤ x ∧ x ≤ o.2) := by
  unfold subtractSingle
  rw [memRS_flatMap]
  constructor
  · rintro ⟨c, hc, hm⟩
    have h := (subPieces_sem o c (hv c hc) x).mp hm
    exact ⟨⟨c, hc, h.1.1, h.1.2⟩, h.2⟩
  · rintro ⟨⟨c, hc, hx1, hx2⟩, hno⟩
    exact ⟨c, hc, (subPieces_sem o c (hv c hc) x).mpr ⟨⟨hx1, hx2⟩, hno⟩⟩

theorem subtractFold_valid : ∀ (B A : List (Nat × Nat)), ValidRanges A →
    ValidRanges (B.foldl subtractSingle A) := by
  intro B
  induction B with
  | nil => intro A hA; exact hA
  | cons o B ih =>
    intro A hA
    exact ih _ (subtractSingle_valid o hA)

theorem subtractFold_sem : ∀ (B A : List (Nat × Nat)), ValidRanges A → ∀ x,
    memRS (B.foldl subtractSingle A) x ↔
      memRS A x ∧ ∀ o ∈ B, ¬(o.1 ≤ x ∧ x ≤ o.2) := by
  intro B
  induction B with
  | nil =>
    intro A hA x
    simp [List.foldl]
  | cons o B ih =>
    intro A hA x
    rw [List.foldl_cons, ih _ (subtractSingle_valid o hA) x, subtractSingle_sem o hA x]
    constructor
    · rintro ⟨⟨h1, h2⟩, h3⟩
      refine ⟨h1, ?_⟩
      intro o2 ho2
      rcases List.mem_cons.mp ho2 with rfl | ho2
      · exact h2
      · exact h3 o2 ho2
    · rintro ⟨h1, h2⟩
      exact ⟨⟨h1, h2 o (by simp)⟩, fun o2 ho2 => h2 o2 (by simp [ho2])⟩

theorem interPair_valid {ra rb r : Nat × Nat} (h : interPair ra rb = some r) :
    r.1 ≤ r.2 := by
  unfold interPair at h
  split_ifs at h with h1 h2
  obtain rfl : (max ra.1 rb.1, min ra.2 rb.2) = r := Option.some_inj.mp h
  simpa using h2

theorem interPair_sem (ra rb : Nat × Nat) (x : Nat) :
    (∃ r, interPair ra rb = some r ∧ r.1 ≤ x ∧ x ≤ r.2) ↔
      (ra.1 ≤ x ∧ x ≤ ra.2) ∧ (rb.1 ≤ x ∧ x ≤ rb.2) := by
  unfold interPair
  split_ifs <;> simp <;> omega

theorem interList_valid (a b : List (Nat × Nat)) :
    ValidRanges (a.flatMap fun ra => b.filterMap (interPair ra)) := by
  intro r hr
  obtain ⟨ra, _, hrf⟩ := List.mem_flatMap.mp hr
  obtain ⟨rb, _, hpair⟩ := List.mem_filterMap.mp hrf
  exact interPair_valid hpair

theorem interList_sem (a b : List (Nat × Nat)) (x : Nat) :
    memRS (a.flatMap fun ra => b.filterMap (interPair ra)) x ↔ memRS a x ∧ memRS b x := by
  rw [memRS_flatMap]
  constructor
  · rintro ⟨ra, hra, r, hr, hx1, hx2⟩
    obtain ⟨rb, hrb, hpair⟩ := List.mem_filterMap.mp hr
    have h := (interPair_sem ra rb x).mp ⟨r, hpair, hx1, hx2⟩
    exact ⟨⟨ra, hra, h.1.1, h.1.2⟩, ⟨rb, hrb, h.2.1, h.2.2⟩⟩
  · rintro ⟨⟨ra, hra, ha1, ha2⟩, ⟨rb, hrb, hb1, hb2⟩⟩
    obtain ⟨r, hpair, hx1, hx2⟩ := (interPair_sem ra rb x).mpr ⟨⟨ha1, ha2⟩, ⟨hb1, hb2⟩⟩
    exact ⟨ra, hra, r, List.mem_filterMap.mpr ⟨rb, hrb, hpair⟩, hx1, hx2⟩

theorem append_valid {a b : List (Nat × Nat)} (hA : ValidRanges a) (hB : ValidRanges b) :
    ValidRanges (a ++ b) := by
  intro r hr
  rcases List.mem_append.mp hr with h | h
  · exact hA r h
  · exact hB r h

theorem networkOf_le_broadcastOf (ip p bits : Nat) :
    networkOf ip p bits ≤ broadcastOf ip p bits :=
  Nat.le_add_right _ _

/-! ### Operation-level specifications -/

theorem rsUnion_spec (A B : List (Nat × Nat)) (hA : ValidRanges A) (hB : ValidRanges B) :
    Canonical (rsUnion A B) ∧ ∀ x, (memRS (rsUnion A B) x ↔ memRS A x ∨ memRS B x) := by
  obtain ⟨h1, h2⟩ := normalizeRS_spec (A ++ B) (append_valid hA hB)
  exact ⟨h1, fun x => by rw [rsUnion, h2 x, memRS_append]⟩

theorem rsIntersect_spec (A B : List (Nat × Nat)) :
    Canonical (rsIntersect A B) ∧ ∀ x, (memRS (rsIntersect A B) x ↔ memRS A x ∧ memRS B x) := by
  obtain ⟨h1, h2⟩ := normalizeRS_spec _ (interList_valid A B)
  exact ⟨h1, fun x => by rw [rsIntersect, h2 x, interList_sem]⟩

theorem memRS_not_iff (B : List (Nat × Nat)) (x : Nat) :
    (∀ o ∈ B, ¬(o.1 ≤ x ∧ x ≤ o.2)) ↔ ¬ memRS B x := by
  unfold memRS
  constructor
  · rintro h ⟨o, ho, h1, h2⟩
    exact h o ho ⟨h1, h2⟩
  · intro h o ho hc
    exact h ⟨o, ho, hc.1, hc.2⟩

theorem rsSubtract_spec (A B : List (Nat × Nat)) (hA : ValidRanges A) :
    Canonical (rsSubtract A B) ∧
      ∀ x, (memRS (rsSubtract A B) x ↔ memRS A x ∧ ¬ memRS B x) := by
  obtain ⟨h1, h2⟩ := normalizeRS_spec _ (subtractFold_valid B A hA)
  refine ⟨h1, fun x => ?_⟩
  rw [rsSubtract, h2 x, subtractFold_sem B A hA x, memRS_not_iff]

theorem rsFromRanges_spec (A : List (Nat × Nat)) (hA : ValidRanges A) :
    Canonical (rsFromRanges A) ∧ ∀ x, (memRS (rsFromRanges A) x ↔ memRS A x) :=
  normalizeRS_spec A hA

theorem rsFromCIDRs_canonical (bits : Nat) (cidrs : List (Nat × Nat)) :
    Canonical (rsFromCIDRs bits cidrs) := by
  refine (normalizeRS_spec _ ?_).1
  intro r hr
  obtain ⟨c, _, rfl⟩ := List.mem_map.mp hr
  exact networkOf_le_broadcastOf c.2 c.1 bits

/-- C7.  Every RangeSet produced by a constructor (`fromCIDRs`, `fromRanges`)
or an operation (`union`, `intersect`, `subtract`) is in canonical form:
ranges are well-formed, sorted ascending by start, mutually disjoint, and no
two are numerically adjacent (consecutive ranges satisfy
`previous.end + 1 < next.start`). -/
theorem rangeset_canonical_invariant (A B cidrs : List (Nat × Nat)) (bits : Nat)
    (hA : ValidRanges A) (hB : ValidRanges B) :
    Canonical (rsFromRanges A) ∧ Canonical (rsFromCIDRs bits cidrs) ∧
    Canonical (rsUnion A B) ∧ Canonical (rsIntersect A B) ∧
    Canonical (rsSubtract A B) :=
  ⟨(rsFromRanges_spec A hA).1, rsFromCIDRs_canonical bits cidrs,
    (rsUnion_spec A B hA hB).1, (rsIntersect_spec A B).1,
    (rsSubtract_spec A B hA).1⟩

/-- C7 witness: overlapping, adjacent and out-of-order input ranges at width
32 are normalized by every producer. -/
theorem rangeset_canonical_invariant_witness :
    Canonical (rsFromRanges [(10, 12), (0, 5), (6, 8)]) ∧
    Canonical (rsFromCIDRs 32 [(24, 3232235776), (30, 3232235520)]) ∧
    Canonical (rsUnion [(10, 12), (0, 5), (6, 8)] [(3, 10), (40, 50)]) ∧
    Canonical (rsIntersect [(10, 12), (0, 5), (6, 8)] [(3, 10), (40, 50)]) ∧
    Canonical (rsSubtract [(10, 12), (0, 5), (6, 8)] [(3, 10), (40, 50)]) :=
  rangeset_canonical_invariant [(10, 12), (0, 5), (6, 8)] [(3, 10), (40, 50)]
    [(24, 3232235776), (30, 3232235520)] 32 (by decide) (by decide)

/-- C8.  For RangeSets `A`, `B` (canonical, as every constructed RangeSet is):
`union` is commutative and idempotent, and `(A.subtract(B)).intersect(B)` is
empty. -/
theorem rangeset_algebra (A B : List (Nat × Nat)) (hA : Canonical A) (hB : Canonical B) :
    rsUnion A B = rsUnion B A ∧ rsUnion A A = A ∧
    rsIntersect (rsSubtract A B) B = [] := by
  have hAv : ValidRanges A := hA.1
  have hBv : ValidRanges B := hB.1
  refine ⟨?_, ?_, ?_⟩
  · apply canonical_unique _ _ (rsUnion_spec A B hAv hBv).1 (rsUnion_spec B A hBv hAv).1
    intro x
    rw [(rsUnion_spec A B hAv hBv).2 x, (rsUnion_spec B A hBv hAv).2 x, or_comm]
  · apply canonical_unique _ _ (rsUnion_spec A A hAv hAv).1 hA
    intro x
    rw [(rsUnion_spec A A hAv hAv).2 x, or_self]
  · apply canonical_unique _ _ (rsIntersect_spec (rsSubtract A B) B).1 canonical_nil
    intro x
    rw [(rsIntersect_spec (rsSubtract A B) B).2 x,
      (rsSubtract_spec A B hAv).2 x]
    simp [memRS_nil_iff]

/-- C8 witness: concrete canonical sets. -/
theorem rangeset_algebra_witness :
    rsUnion [(0, 5), (10, 12)] [(3, 10)] = rsUnion [(3, 10)] [(0, 5), (10, 12)] ∧
    rsUnion [(0, 5), (10, 12)] [(0, 5), (10, 12)] = [(0, 5), (10, 12)] ∧
    rsIntersect (rsSubtract [(0, 5), (10, 12)] [(3, 10)]) [(3, 10)] = [] :=
  rangeset_algebra [(0, 5), (10, 12)] [(3, 10)] ⟨by decide, by simp⟩ ⟨by decide, by simp⟩

/-! ## Allocator (src/domain/allocator.ts, current revision) -/

/-- `CIDR.contains(ip)`: `(ip & prefixMask) == network`, in div/mul form. -/
def cidrContains (bits p net x : Nat) : Prop :=
  x / 2 ^ (bits - p) * 2 ^ (bits - p) = networkOf net p bits

instance (bits p net x : Nat) : Decidable (cidrContains bits p net x) :=
  inferInstanceAs (Decidable (_ = _))

/-- `CIDR.firstHost()` with default options: `includeEdges` defaults to
`version === 6 || prefix >= 31`, giving the network itself with edges
included and `network + 1` otherwise. -/
def firstHostD (bits p net : Nat) : Nat :=
  if bits = 128 ∨ 31 ≤ p then networkOf net p bits else networkOf net p bits + 1

/-- `Allocator.getFreeRanges()`:
`RangeSet.fromRanges([parent.toRange()]).subtract(taken)`. -/
def freeRanges (bits p net : Nat) (taken : List (Nat × Nat)) : List (Nat × Nat) :=
  rsSubtract (rsFromRanges [cidrToRange bits (p, net)]) taken

/-- The scan of `Allocator.findNextAvailable`: walk the free ranges in order,
skip those ending before `from`, and inside the first eligible range return
`start` if `start ≥ from`, else `from + 1`. -/
def findNextGo (f : Nat) : List (Nat × Nat) → Option Nat
  | [] => none
  | r :: rest =>
    if r.2 < f then findNextGo f rest
    else
      let cand := if r.1 ≥ f then r.1 else f + 1
      if cand ≤ r.2 then some cand else findNextGo f rest

/-- `Allocator.nextAvailable(from?)`: `startIp` is `from` or
`parent.firstHost()`; if `startIp` is taken, scan the free ranges; otherwise
return `startIp` when the parent contains it and `null` when it does not. -/
def nextAvailable (bits p net : Nat) (taken : List (Nat × Nat))
    (fromOpt : Option Nat) : Option Nat :=
  let startIp := fromOpt.getD (firstHostD bits p net)
  if memRS taken startIp then findNextGo startIp (freeRanges bits p net taken)
  else if cidrContains bits p net startIp then some startIp
  else none

theorem findNextGo_spec (f : Nat) : ∀ (l : List (Nat × Nat)), Canonical l →
    ¬ memRS l f →
    (∃ a, findNextGo f l = some a ∧ memRS l a ∧ f ≤ a ∧
      ∀ y, memRS l y → f ≤ y → a ≤ y) ∨
    (findNextGo f l = none ∧ ∀ y, memRS l y → y < f) := by
  intro l
  induction l with
  | nil =>
    intro _ _
    right
    exact ⟨rfl, fun y hy => absurd hy (memRS_nil y)⟩
  | cons r rest ih =>
    intro hc hf
    have hrv : r.1 ≤ r.2 := hc.1 r (by simp)
    by_cases hskip : r.2 < f
    · have heq : findNextGo f (r :: rest) = findNextGo f rest := by
        simp only [findNextGo, if_pos hskip]
      have hfr : ¬ memRS rest f := fun hm => hf (memRS_cons.mpr (Or.inr hm))
      rcases ih (canonical_tail hc) hfr with ⟨a, h1, h2, h3, h4⟩ | ⟨h1, h2⟩
      · left
        refine ⟨a, by rw [heq]; exact h1, memRS_cons.mpr (Or.inr h2), h3, ?_⟩
        intro y hy hfy
        rcases memRS_cons.mp hy with hy | hy
        · omega
        · exact h4 y hy hfy
      · right
        refine ⟨by rw [heq]; exact h1, ?_⟩
        intro y hy
        rcases memRS_cons.mp hy with hy | hy
        · omega
        · exact h2 y hy
    · have hstart : f ≤ r.1 := by
        by_contra hlt
        exact hf (memRS_cons.mpr (Or.inl ⟨by omega, by omega⟩))
      have heq : findNextGo f (r :: rest) = some r.1 := by
        simp only [findNextGo, if_neg hskip]
        rw [if_pos (by omega : r.1 ≥ f), if_pos hrv]
      left
      refine ⟨r.1, heq, memRS_cons.mpr (Or.inl ⟨Nat.le_refl _, hrv⟩), hstart, ?_⟩
      intro y hy _
      rcases memRS_cons.mp hy with hy | hy
      · omega
      · obtain ⟨s, hs, hs1, hs2⟩ := hy
        have := canonical_tail_lb hc s hs
        omega

/-- C6 as stated is false: with parent `10.0.0.0/24`, nothing taken, and
`from = 0.0.0.1` (below the parent, not taken), `nextAvailable` returns
`null` although every address of the parent is free and `≥ from`.
`10.0.0.0 = 167772160`. -/
theorem nextAvailable_claim_counterexample :
    nextAvailable 32 24 167772160 [] (some 1) = none ∧
    memRS (freeRanges 32 24 167772160 []) 167772160 ∧
    ¬ memRS [] (167772160 : Nat) ∧ (1 : Nat) ≤ 167772160 := by
  refine ⟨by decide, by decide, by decide, by decide⟩

/-- C6 amended.  `nextAvailable(from?)` behaves as follows, with
`start = from` (or `parent.firstHost()` when omitted) and the free set
`fromRanges([parent.toRange()]).subtract(taken)`: an address is free iff it
lies in the parent's range and is not taken; when `start` is taken the result
is the smallest free address `≥ start` (`null` if none remains); when
`start` is untaken the result is `start` itself if the parent contains it and
`null` otherwise — even when free addresses `≥ start` exist. -/
theorem nextAvailable_amended (bits p net : Nat) (taken : List (Nat × Nat)) (f : Nat) :
    (nextAvailable bits p net taken none =
      nextAvailable bits p net taken (some (firstHostD bits p net))) ∧
    (∀ y, memRS (freeRanges bits p net taken) y ↔
      (networkOf net p bits ≤ y ∧ y ≤ broadcastOf net p bits ∧ ¬ memRS taken y)) ∧
    (¬ memRS taken f → cidrContains bits p net f →
      nextAvailable bits p net taken (some f) = some f) ∧
    (¬ memRS taken f → ¬ cidrContains bits p net f →
      nextAvailable bits p net taken (some f) = none) ∧
    (memRS taken f →
      (∃ a, nextAvailable bits p net taken (some f) = some a ∧
        memRS (freeRanges bits p net taken) a ∧ f ≤ a ∧
        ∀ y, memRS (freeRanges bits p net taken) y → f ≤ y → a ≤ y) ∨
      (nextAvailable bits p net taken (some f) = none ∧
        ∀ y, memRS (freeRanges bits p net taken) y → y < f)) := by
  have hprv : ValidRanges [cidrToRange bits (p, net)] := by
    intro r hr
    rw [List.mem_singleton.mp hr]
    exact networkOf_le_broadcastOf net p bits
  have hfr := rsFromRanges_spec [cidrToRange bits (p, net)] hprv
  have hsub := rsSubtract_spec (rsFromRanges [cidrToRange bits (p, net)]) taken hfr.1.1
  have hsem : ∀ y, memRS (freeRanges bits p net taken) y ↔
      (networkOf net p bits ≤ y ∧ y ≤ broadcastOf net p bits ∧ ¬ memRS taken y) := by
    intro y
    rw [freeRanges, hsub.2 y, hfr.2 y]
    unfold memRS cidrToRange
    simp only [List.mem_singleton]
    constructor
    · rintro ⟨⟨r, rfl, h1, h2⟩, h3⟩
      exact ⟨h1, h2, h3⟩
    · rintro ⟨h1, h2, h3⟩
      exact ⟨⟨_, rfl, h1, h2⟩, h3⟩
  refine ⟨rfl, hsem, ?_, ?_, ?_⟩
  · intro h1 h2
    unfold nextAvailable
    simp only [Option.getD]
    rw [if_neg h1, if_pos h2]
  · intro h1 h2
    unfold nextAvailable
    simp only [Option.getD]
    rw [if_neg h1, if_neg h2]
  · intro h1
    have hff : ¬ memRS (freeRanges bits p net taken) f := by
      rw [hsem f]
      rintro ⟨_, _, h⟩
      exact h h1
    have heq : nextAvailable bits p net taken (some f) =
        findNextGo f (freeRanges bits p net taken) := by
      unfold nextAvailable
      simp only [Option.getD]
      rw [if_pos h1]
    rcases findNextGo_spec f (freeRanges bits p net taken) (by rw [freeRanges]; exact hsub.1)
        hff with ⟨a, k1, k2, k3, k4⟩ | ⟨k1, k2⟩
    · left
      exact ⟨a, by rw [heq]; exact k1, k2, k3, k4⟩
    · right
      exact ⟨by rw [heq]; exact k1, k2⟩

/-- C6 amended witness: parent `10.0.0.0/24` with `10.0.0.1` taken; asking
from the taken `10.0.0.1` the hypotheses hold concretely. -/
theorem nextAvailable_amended_witness :
    (nextAvailable 32 24 167772160 [(167772161, 167772161)] none =
      nextAvailable 32 24 167772160 [(167772161, 167772161)]
        (some (firstHostD 32 24 167772160))) ∧
    (∀ y, memRS (freeRanges 32 24 167772160 [(167772161, 167772161)]) y ↔
      (networkOf 167772160 24 32 ≤ y ∧ y ≤ broadcastOf 167772160 24 32 ∧
        ¬ memRS [(167772161, 167772161)] y)) ∧
    (¬ memRS [(167772161, 167772161)] (167772161 : Nat) →
      cidrContains 32 24 167772160 167772161 →
      nextAvailable 32 24 167772160 [(167772161, 167772161)] (some 167772161) =
        some 167772161) ∧
    (¬ memRS [(167772161, 167772161)] (167772161 : Nat) →
      ¬ cidrContains 32 24 167772160 167772161 →
      nextAvailable 32 24 167772160 [(167772161, 167772161)] (some 167772161) = none) ∧
    (memRS [(167772161, 167772161)] (167772161 : Nat) →
      (∃ a, nextAvailable 32 24 167772160 [(167772161, 167772161)] (some 167772161) =
          some a ∧
        memRS (freeRanges 32 24 167772160 [(167772161, 167772161)]) a ∧ 167772161 ≤ a ∧
        ∀ y, memRS (freeRanges 32 24 167772160 [(167772161, 167772161)]) y →
          167772161 ≤ y → a ≤ y) ∨
      (nextAvailable 32 24 167772160 [(167772161, 167772161)] (some 167772161) = none ∧
        ∀ y, memRS (freeRanges 32 24 167772160 [(167772161, 167772161)]) y →
          y < 167772161)) :=
  nextAvailable_amended 32 24 167772160 [(167772161, 167772161)] 167772161

/-! ## IPRange.toCIDRs (src/domain/range.ts) -/

/-- The trailing-zero count of `toCIDRs` (src/domain/range.ts): count low zero
bits of `cur`, capped at `bits`; `cur = 0` yields the cap itself. -/
def tzCap : Nat → Nat → Nat
  | 0, _ => 0
  | cap + 1, n => if n % 2 = 0 then tzCap cap (n / 2) + 1 else 0

/-- The shrink loop of `toCIDRs`: halve the block size (decrement the
alignment exponent) while it exceeds the remaining range size. -/
def shrinkAlign : Nat → Nat → Nat
  | 0, _ => 0
  | a + 1, rem => if 2 ^ (a + 1) > rem then shrinkAlign a rem else a + 1

/-- The greedy alignment exponent chosen by `toCIDRs` at address `cur` for a
range ending at `e`. -/
def greedyExp (bits e cur : Nat) : Nat :=
  shrinkAlign (tzCap bits cur) (e + 1 - cur)

/-- The loop of `IPRange.toCIDRs`: emit `(prefix, cur)` with
`prefix = bits - maxAlign` and advance `cur` by the block size. -/
def toCIDRsGo (e bits cur : Nat) : List (Nat × Nat) :=
  if h : cur ≤ e then
    (bits - greedyExp bits e cur, cur) :: toCIDRsGo e bits (cur + 2 ^ greedyExp bits e cur)
  else []
termination_by e + 1 - cur
decreasing_by
  have h1 : 1 ≤ 2 ^ greedyExp bits e cur := Nat.one_le_two_pow
  omega

/-- `IPRange.toCIDRs()` for the range `[s, e]` at width `bits`; each element
is the CIDR `(prefix, network)`. -/
def rangeToCIDRs (bits s e : Nat) : List (Nat × Nat) := toCIDRsGo e bits s

/-- A well-formed CIDR block at width `bits`: valid prefix length and network
aligned to the block size. -/
def IsCIDRBlock (bits : Nat) (b : Nat × Nat) : Prop :=
  b.1 ≤ bits ∧ 2 ^ (bits - b.1) ∣ b.2

/-- `S` covers exactly the addresses of `[s, e]`: a point is in `[s, e]` iff
some block of `S` contains it. -/
def CoversExactly (bits : Nat) (S : List (Nat × Nat)) (s e : Nat) : Prop :=
  ∀ x, (s ≤ x ∧ x ≤ e) ↔ ∃ b ∈ S, b.2 ≤ x ∧ x ≤ b.2 + 2 ^ (bits - b.1) - 1

/-! ### tzCap and shrinkAlign lemmas -/

theorem tzCap_dvd : ∀ (cap n : Nat), 2 ^ tzCap cap n ∣ n := by
  intro cap
  induction cap with
  | zero => intro n; simp [tzCap]
  | succ cap ih =>
    intro n
    by_cases h : n % 2 = 0
    · have h3 : 2 ^ tzCap cap (n / 2) * 2 ∣ n / 2 * 2 := mul_dvd_mul_right (ih (n / 2)) 2
      have h4 : n / 2 * 2 = n := by omega
      rw [tzCap, if_pos h, pow_succ]
      rw [h4] at h3
      exact h3
    · simp [tzCap, h]

theorem tzCap_le (cap n : Nat) : tzCap cap n ≤ cap := by
  induction cap generalizing n with
  | zero => simp [tzCap]
  | succ cap ih =>
    by_cases h : n % 2 = 0
    · rw [tzCap, if_pos h]
      exact Nat.succ_le_succ (ih (n / 2))
    · rw [tzCap, if_neg h]
      omega

theorem le_tzCap : ∀ (cap n a : Nat), a ≤ cap → 2 ^ a ∣ n → a ≤ tzCap cap n := by
  intro cap
  induction cap with
  | zero => intro n a h _; simpa [tzCap] using h
  | succ cap ih =>
    intro n a ha hd
    cases a with
    | zero => exact Nat.zero_le _
    | succ a =>
      have h2 : 2 ∣ n := dvd_trans (dvd_pow_self 2 (Nat.succ_ne_zero a)) hd
      have hmod : n % 2 = 0 := by omega
      rw [tzCap, if_pos hmod]
      have hd2 : 2 ^ a ∣ n / 2 := by
        obtain ⟨m, hm⟩ := hd
        refine ⟨m, ?_⟩
        rw [hm, pow_succ, show 2 ^ a * 2 * m = 2 * (2 ^ a * m) by ring]
        exact Nat.mul_div_cancel_left _ (by omega)
      exact Nat.succ_le_succ (ih (n / 2) a (by omega) hd2)

theorem shrinkAlign_le (a rem : Nat) : shrinkAlign a rem ≤ a := by
  induction a with
  | zero => simp [shrinkAlign]
  | succ a ih =>
    rw [shrinkAlign]
    split_ifs
    · omega
    · omega

theorem shrinkAlign_fits : ∀ (a rem : Nat), 1 ≤ rem → 2 ^ shrinkAlign a rem ≤ rem := by
  intro a
  induction a with
  | zero => intro rem h; simpa [shrinkAlign] using h
  | succ a ih =>
    intro rem h
    rw [shrinkAlign]
    split_ifs with hgt
    · exact ih rem h
    · omega

theorem le_shrinkAlign : ∀ (a rem b : Nat), b ≤ a → 2 ^ b ≤ rem → b ≤ shrinkAlign a rem := by
  intro a
  induction a with
  | zero => intro rem b h _; omega
  | succ a ih =>
    intro rem b hb hle
    rw [shrinkAlign]
    split_ifs with hgt
    · have hba : b ≤ a := by
        rcases Nat.lt_or_ge b (a + 1) with h | h
        · omega
        · exfalso; have : b = a + 1 := by omega
          subst this; omega
      exact ih rem b hba hle
    · omega

/-! ### The greedy exponent at a position -/

theorem greedyExp_dvd (bits e cur : Nat) : 2 ^ greedyExp bits e cur ∣ cur :=
  dvd_trans (pow_dvd_pow 2 (shrinkAlign_le _ _)) (tzCap_dvd bits cur)

theorem greedyExp_le_bits (bits e cur : Nat) : greedyExp bits e cur ≤ bits :=
  Nat.le_trans (shrinkAlign_le _ _) (tzCap_le bits cur)

theorem greedyExp_fits (bits e cur : Nat) (h : cur ≤ e) :
    2 ^ greedyExp bits e cur ≤ e + 1 - cur :=
  shrinkAlign_fits _ _ (by omega)

theorem le_greedyExp (bits e cur : Nat) {j : Nat} (hj : j ≤ bits)
    (hdvd : 2 ^ j ∣ cur) (hfit : 2 ^ j ≤ e + 1 - cur) : j ≤ greedyExp bits e cur :=
  le_shrinkAlign _ _ _ (le_tzCap bits cur j hj hdvd) hfit

/-- Exact value: when `cur` has exactly `j` trailing zero bits (`j ≤ cap`),
`tzCap` returns `j`. -/
theorem tzCap_eq_of {cap n j : Nat} (hd : 2 ^ j ∣ n)
    (hnd : ¬ 2 ^ (j + 1) ∣ n) (hj : j ≤ cap) : tzCap cap n = j := by
  have h1 : j ≤ tzCap cap n := le_tzCap cap n j hj hd
  by_contra hne
  have h2 : j + 1 ≤ tzCap cap n := by omega
  exact hnd (dvd_trans (pow_dvd_pow 2 h2) (tzCap_dvd cap n))

theorem shrinkAlign_eq_of {a rem : Nat} (h : 2 ^ a ≤ rem) : shrinkAlign a rem = a :=
  Nat.le_antisymm (shrinkAlign_le a rem) (le_shrinkAlign a rem a (Nat.le_refl a) h)

/-! ### Shape, order and exact-cover properties of toCIDRs -/

theorem toCIDRsGo_empty {bits e cur : Nat} (h : ¬ cur ≤ e) : toCIDRsGo e bits cur = [] := by
  rw [toCIDRsGo, dif_neg h]

theorem toCIDRsGo_step {bits e cur : Nat} (h : cur ≤ e) :
    toCIDRsGo e bits cur =
      (bits - greedyExp bits e cur, cur) ::
        toCIDRsGo e bits (cur + 2 ^ greedyExp bits e cur) := by
  rw [toCIDRsGo, dif_pos h]

theorem toCIDRsGo_master (bits e : Nat) : ∀ (n cur : Nat), e + 1 - cur ≤ n →
    (∀ b ∈ toCIDRsGo e bits cur, b.1 ≤ bits ∧ 2 ^ (bits - b.1) ∣ b.2 ∧ cur ≤ b.2 ∧
      b.2 + 2 ^ (bits - b.1) - 1 ≤ e) ∧
    (toCIDRsGo e bits cur).Pairwise
      (fun b1 b2 : Nat × Nat => b1.2 + 2 ^ (bits - b1.1) ≤ b2.2) ∧
    (∀ x, (cur ≤ x ∧ x ≤ e) ↔
      ∃ b ∈ toCIDRsGo e bits cur, b.2 ≤ x ∧ x ≤ b.2 + 2 ^ (bits - b.1) - 1) := by
  intro n
  induction n with
  | zero =>
    intro cur hn
    have hgt : ¬ cur ≤ e := by omega
    rw [toCIDRsGo_empty hgt]
    refine ⟨by simp, by simp, fun x => ?_⟩
    simp only [List.not_mem_nil, false_and, exists_false, iff_false]
    omega
  | succ n ihn =>
    intro cur hn
    by_cases h : cur ≤ e
    · have hdvd := greedyExp_dvd bits e cur
      have hlebits := greedyExp_le_bits bits e cur
      have hfit := greedyExp_fits bits e cur h
      have hpow : 1 ≤ 2 ^ greedyExp bits e cur := Nat.one_le_two_pow
      have hkey : bits - (bits - greedyExp bits e cur) = greedyExp bits e cur := by omega
      obtain ⟨ih1, ih2, ih3⟩ := ihn (cur + 2 ^ greedyExp bits e cur) (by omega)
      rw [toCIDRsGo_step h]
      refine ⟨?_, ?_, ?_⟩
      · intro b hb
        rcases List.mem_cons.mp hb with rfl | hb
        · refine ⟨by omega, ?_, Nat.le_refl _, ?_⟩
          · simpa [hkey] using hdvd
          · simp only [hkey]
            omega
        · obtain ⟨k1, k2, k3, k4⟩ := ih1 b hb
          exact ⟨k1, k2, by omega, k4⟩
      · refine List.pairwise_cons.mpr ⟨?_, ih2⟩
        intro b hb
        obtain ⟨_, _, k3, _⟩ := ih1 b hb
        simp only [hkey]
        omega
      · intro x
        constructor
        · rintro ⟨hx1, hx2⟩
          by_cases hhead : x ≤ cur + 2 ^ greedyExp bits e cur - 1
          · refine ⟨(bits - greedyExp bits e cur, cur), by simp, hx1, ?_⟩
            simpa [hkey] using hhead
          · obtain ⟨b, hb, k1, k2⟩ := (ih3 x).mp ⟨by omega, hx2⟩
            exact ⟨b, by simp [hb], k1, k2⟩
        · rintro ⟨b, hb, k1, k2⟩
          rcases List.mem_cons.mp hb with rfl | hb
          · simp only [hkey] at k2
            constructor
            · exact k1
            · omega
          · have := (ih3 x).mpr ⟨b, hb, k1, k2⟩
            exact ⟨by omega, this.2⟩
    · rw [toCIDRsGo_empty h]
      refine ⟨by simp, by simp, fun x => ?_⟩
      simp only [List.not_mem_nil, false_and, exists_false, iff_false]
      omega

/-! ### Minimality of the greedy cover -/

/-- The largest block exponent among blocks of `S` that start exactly at
`s` (0 when there is none). -/
def maxExpAt (bits : Nat) (S : List (Nat × Nat)) (s : Nat) : Nat :=
  S.foldr (fun b m => if b.2 = s then max (bits - b.1) m else m) 0

theorem maxExpAt_ub (bits : Nat) : ∀ (S : List (Nat × Nat)) (s : Nat),
    ∀ b ∈ S, b.2 = s → bits - b.1 ≤ maxExpAt bits S s := by
  intro S
  induction S with
  | nil => intro s b hb; cases hb
  | cons c S ih =>
    intro s b hb hbs
    rcases List.mem_cons.mp hb with rfl | hb
    · simp only [maxExpAt, List.foldr_cons, if_pos hbs]
      exact Nat.le_max_left _ _
    · have := ih s b hb hbs
      simp only [maxExpAt, List.foldr_cons]
      split_ifs
      · exact Nat.le_trans this (Nat.le_max_right _ _)
      · exact this

theorem maxExpAt_none (bits : Nat) : ∀ (S : List (Nat × Nat)) (s : Nat),
    (∀ b ∈ S, b.2 ≠ s) → maxExpAt bits S s = 0 := by
  intro S
  induction S with
  | nil => intro s _; rfl
  | cons c S ih =>
    intro s h
    simp only [maxExpAt, List.foldr_cons, if_neg (h c (by simp))]
    exact ih s (fun b hb => h b (by simp [hb]))

theorem maxExpAt_attained (bits : Nat) : ∀ (S : List (Nat × Nat)) (s : Nat),
    (∃ b ∈ S, b.2 = s) → ∃ b ∈ S, b.2 = s ∧ bits - b.1 = maxExpAt bits S s := by
  intro S
  induction S with
  | nil => rintro s ⟨b, hb, _⟩; cases hb
  | cons c S ih =>
    rintro s ⟨b, hb, hbs⟩
    by_cases hcs : c.2 = s
    · by_cases hS : ∃ b ∈ S, b.2 = s
      · obtain ⟨d, hd, hds, hde⟩ := ih s hS
        rcases Nat.le_total (maxExpAt bits S s) (bits - c.1) with hle | hge
        · refine ⟨c, by simp, hcs, ?_⟩
          simp only [maxExpAt, List.foldr_cons, if_pos hcs]
          exact (Nat.max_eq_left hle).symm
        · refine ⟨d, by simp [hd], hds, ?_⟩
          simp only [maxExpAt, List.foldr_cons, if_pos hcs]
          rw [hde]
          exact (Nat.max_eq_right hge).symm
      · have hz : maxExpAt bits S s = 0 := by
          apply maxExpAt_none
          intro b2 hb2 hb2s
          exact hS ⟨b2, hb2, hb2s⟩
        refine ⟨c, by simp, hcs, ?_⟩
        simp only [maxExpAt] at hz ⊢
        simp only [List.foldr_cons, if_pos hcs, hz]
        omega
    · have hbS : b ∈ S := by
        rcases List.mem_cons.mp hb with rfl | h
        · exact absurd hbs hcs
        · exact h
      obtain ⟨d, hd, hds, hde⟩ := ih s ⟨b, hbS, hbs⟩
      refine ⟨d, by simp [hd], hds, ?_⟩
      simp only [maxExpAt, List.foldr_cons, if_neg hcs]
      exact hde

theorem filter_length_split {α : Type} (p : α → Bool) : ∀ (l : List α),
    (l.filter p).length + (l.filter (fun x => ! p x)).length = l.length := by
  intro l
  induction l with
  | nil => rfl
  | cons a l ih =>
    by_cases h : p a
    · simp [List.filter_cons, h, ih]
      omega
    · simp [List.filter_cons, h, ih]
      omega

/-- Stepping: starting the greedy loop at `s + 2 ^ j` for `j ≤ g` (where the
`2 ^ g` block at `s` is aligned and fits) costs `g - j` extra blocks compared
to starting at `s + 2 ^ g`. -/
theorem toCIDRsGo_stepping (bits s e g : Nat) (hg : 2 ^ g ∣ s) (hgb : g ≤ bits)
    (hfit : s + 2 ^ g - 1 ≤ e) :
    ∀ d j, j + d = g →
      (toCIDRsGo e bits (s + 2 ^ j)).length =
        d + (toCIDRsGo e bits (s + 2 ^ g)).length := by
  intro d
  induction d with
  | zero =>
    intro j hj
    have : j = g := by omega
    subst this
    omega
  | succ d ihd =>
    intro j hj
    have hjg : j < g := by omega
    have hpj : (2 : Nat) ^ j < 2 ^ g := Nat.pow_lt_pow_right (by omega) hjg
    have hpj1 : (2 : Nat) ^ (j + 1) ≤ 2 ^ g := Nat.pow_le_pow_right (by omega) (by omega)
    have hpow : 1 ≤ (2 : Nat) ^ j := Nat.one_le_two_pow
    have hps : (2 : Nat) ^ (j + 1) = 2 ^ j * 2 := pow_succ 2 j
    have hcur : s + 2 ^ j ≤ e := by omega
    have hdj : 2 ^ j ∣ s + 2 ^ j :=
      dvd_add (dvd_trans (pow_dvd_pow 2 (by omega)) hg) dvd_rfl
    have hndj : ¬ 2 ^ (j + 1) ∣ s + 2 ^ j := by
      intro hc
      have h1 : 2 ^ (j + 1) ∣ s := dvd_trans (pow_dvd_pow 2 (by omega)) hg
      have h2 : 2 ^ (j + 1) ∣ 2 ^ j := (Nat.dvd_add_right h1).mp hc
      have := Nat.le_of_dvd (by omega) h2
      omega
    have htz : tzCap bits (s + 2 ^ j) = j := tzCap_eq_of hdj hndj (by omega)
    have hshr : greedyExp bits e (s + 2 ^ j) = j := by
      unfold greedyExp
      rw [htz]
      exact shrinkAlign_eq_of (by omega)
    have hstep := @toCIDRsGo_step bits e (s + 2 ^ j) hcur
    rw [hshr] at hstep
    rw [hstep, List.length_cons]
    have hnext : s + 2 ^ j + 2 ^ j = s + 2 ^ (j + 1) := by omega
    rw [hnext, ihd (j + 1) (by omega)]
    omega

theorem toCIDRs_minimal_aux (bits : Nat) : ∀ (n : Nat), ∀ (s e : Nat), e + 1 - s ≤ n →
    s ≤ e → ∀ S : List (Nat × Nat), (∀ b ∈ S, IsCIDRBlock bits b) →
    CoversExactly bits S s e → (toCIDRsGo e bits s).length ≤ S.length := by
  intro n
  induction n with
  | zero => intro s e h1 h2 S _ _; omega
  | succ n ihn =>
    intro s e hn hse S hblocks hcover
    -- every block of S sits inside [s, e]; a block containing s starts at s
    have hin : ∀ b ∈ S, s ≤ b.2 ∧ b.2 + 2 ^ (bits - b.1) - 1 ≤ e := by
      intro b hb
      have hb2 : 1 ≤ 2 ^ (bits - b.1) := Nat.one_le_two_pow
      have h1 := (hcover b.2).mpr ⟨b, hb, Nat.le_refl _, by omega⟩
      have h2 := (hcover (b.2 + 2 ^ (bits - b.1) - 1)).mpr ⟨b, hb, by omega, Nat.le_refl _⟩
      exact ⟨h1.1, h2.2⟩
    obtain ⟨B, hBmem, hB1, hB2⟩ := (hcover s).mp ⟨Nat.le_refl s, hse⟩
    have hBs : B.2 = s := Nat.le_antisymm hB1 (hin B hBmem).1
    obtain ⟨B0, hB0mem, hB0s, hB0e⟩ :=
      maxExpAt_attained bits S s ⟨B, hBmem, hBs⟩
    set j0 := maxExpAt bits S s with hj0def
    have hj0bits : j0 ≤ bits := by omega
    have hj0dvd : 2 ^ j0 ∣ s := by
      rw [← hB0e, ← hB0s]
      exact (hblocks B0 hB0mem).2
    have hj0pow : 1 ≤ 2 ^ j0 := Nat.one_le_two_pow
    have hj0fit : s + 2 ^ j0 - 1 ≤ e := by
      have := (hin B0 hB0mem).2
      rw [hB0s, hB0e] at this
      exact this
    have hstraddle : ∀ b ∈ S, b.2 < s + 2 ^ j0 →
        b.2 + 2 ^ (bits - b.1) ≤ s + 2 ^ j0 := by
      intro b hb hlt
      have hbs : s ≤ b.2 := (hin b hb).1
      have hbd := (hblocks b hb).2
      have hk_le : bits - b.1 ≤ j0 := by
        by_contra hc
        push_neg at hc
        have h1 : 2 ^ j0 ∣ b.2 := dvd_trans (pow_dvd_pow 2 (Nat.le_of_lt hc)) hbd
        have h2 : 2 ^ j0 ∣ b.2 - s := Nat.dvd_sub' h1 hj0dvd
        have h3 : b.2 - s < 2 ^ j0 := by omega
        have h4 : b.2 - s = 0 := Nat.eq_zero_of_dvd_of_lt h2 h3
        have h5 : b.2 = s := by omega
        have h6 := maxExpAt_ub bits S s b hb h5
        omega
      have hdvd_t : 2 ^ (bits - b.1) ∣ s + 2 ^ j0 :=
        dvd_add (dvd_trans (pow_dvd_pow 2 hk_le) hj0dvd) (pow_dvd_pow 2 hk_le)
      by_contra hc
      push_neg at hc
      have hd : 2 ^ (bits - b.1) ∣ s + 2 ^ j0 - b.2 := Nat.dvd_sub' hdvd_t hbd
      have hpos : 0 < s + 2 ^ j0 - b.2 := by omega
      have := Nat.le_of_dvd hpos hd
      omega
    -- split S at the boundary s + 2 ^ j0
    have hlen := filter_length_split (fun b : Nat × Nat => b.2 < s + 2 ^ j0) S
    have hB0L : B0 ∈ S.filter (fun b : Nat × Nat => b.2 < s + 2 ^ j0) := by
      rw [List.mem_filter]
      refine ⟨hB0mem, ?_⟩
      simp only [decide_eq_true_eq]
      omega
    have hSL1 : 1 ≤ (S.filter (fun b : Nat × Nat => b.2 < s + 2 ^ j0)).length :=
      List.length_pos_of_mem hB0L
    -- greedy exponent at s is at least j0
    by_cases hcase : e < s + 2 ^ j0
    · -- the j0 block is the whole range
      have ht : s + 2 ^ j0 = e + 1 := by omega
      have hg1 : j0 ≤ greedyExp bits e s := le_greedyExp bits e s hj0bits hj0dvd (by omega)
      have hg2 : greedyExp bits e s ≤ j0 := by
        have h1 := greedyExp_fits bits e s hse
        have h2 : (2 : Nat) ^ greedyExp bits e s ≤ 2 ^ j0 := by omega
        exact (Nat.pow_le_pow_iff_right (by omega)).mp h2
      have hg : greedyExp bits e s = j0 := by omega
      rw [toCIDRsGo_step hse, List.length_cons, hg, ht, toCIDRsGo_empty (by omega)]
      simpa using hSL1.trans (by omega)
    · -- recurse on [s + 2 ^ j0, e] covered exactly by the right part
      have hts : s + 2 ^ j0 ≤ e := by omega
      have hSRcover : CoversExactly bits
          (S.filter (fun b : Nat × Nat => ! decide (b.2 < s + 2 ^ j0)))
          (s + 2 ^ j0) e := by
        intro x
        constructor
        · rintro ⟨hx1, hx2⟩
          obtain ⟨b, hb, hc1, hc2⟩ := (hcover x).mp ⟨by omega, hx2⟩
          refine ⟨b, ?_, hc1, hc2⟩
          rw [List.mem_filter]
          refine ⟨hb, ?_⟩
          simp only [Bool.not_eq_true', decide_eq_false_iff_not]
          intro hlt
          have := hstraddle b hb hlt
          omega
        · rintro ⟨b, hb, hc1, hc2⟩
          have hbS : b ∈ S := (List.mem_filter.mp hb).1
          have hnot : ¬ (b.2 < s + 2 ^ j0) := by
            have := (List.mem_filter.mp hb).2
            simpa using this
          have := (hcover x).mpr ⟨b, hbS, hc1, hc2⟩
          exact ⟨by omega, this.2⟩
      have hSRblocks : ∀ b ∈ S.filter (fun b : Nat × Nat => ! decide (b.2 < s + 2 ^ j0)),
          IsCIDRBlock bits b :=
        fun b hb => hblocks b (List.mem_filter.mp hb).1
      have hIH := ihn (s + 2 ^ j0) e (by omega) hts _ hSRblocks hSRcover
      have hg1 : j0 ≤ greedyExp bits e s := le_greedyExp bits e s hj0bits hj0dvd (by omega)
      have hstepv := toCIDRsGo_stepping bits s e (greedyExp bits e s)
        (greedyExp_dvd bits e s) (greedyExp_le_bits bits e s)
        (by have := greedyExp_fits bits e s hse; omega)
        (greedyExp bits e s - j0) j0 (by omega)
      have hfirst : (toCIDRsGo e bits s).length =
          1 + (toCIDRsGo e bits (s + 2 ^ greedyExp bits e s)).length := by
        rw [toCIDRsGo_step hse, List.length_cons]
        omega
      omega

/-- C2.  For every IPRange `[s, e]` with `s ≤ e`, `toCIDRs()` returns
well-formed aligned blocks lying inside `[s, e]`, pairwise disjoint and in
ascending address order (each block ends before the next starts), covering
exactly the addresses of `[s, e]`, with minimal cardinality among all CIDR
sets exactly covering the range. -/
theorem range_toCIDRs_spec (bits s e : Nat) (hse : s ≤ e) :
    (∀ b ∈ rangeToCIDRs bits s e, IsCIDRBlock bits b ∧ s ≤ b.2 ∧
      b.2 + 2 ^ (bits - b.1) - 1 ≤ e) ∧
    (rangeToCIDRs bits s e).Pairwise
      (fun b1 b2 : Nat × Nat => b1.2 + 2 ^ (bits - b1.1) ≤ b2.2) ∧
    CoversExactly bits (rangeToCIDRs bits s e) s e ∧
    (∀ S : List (Nat × Nat), (∀ b ∈ S, IsCIDRBlock bits b) → CoversExactly bits S s e →
      (rangeToCIDRs bits s e).length ≤ S.length) := by
  obtain ⟨h1, h2, h3⟩ := toCIDRsGo_master bits e (e + 1 - s) s (Nat.le_refl _)
  refine ⟨?_, h2, h3, ?_⟩
  · intro b hb
    obtain ⟨k1, k2, k3, k4⟩ := h1 b hb
    exact ⟨⟨k1, k2⟩, k3, k4⟩
  · intro S hS hc
    exact toCIDRs_minimal_aux bits (e + 1 - s) s e (Nat.le_refl _) hse S hS hc

/-- C2 witness: the range `[3, 9]` at width 8 decomposes greedily, and the
theorem applies at these concrete inputs. -/
theorem range_toCIDRs_spec_witness :
    (∀ b ∈ rangeToCIDRs 8 3 9, IsCIDRBlock 8 b ∧ 3 ≤ b.2 ∧
      b.2 + 2 ^ (8 - b.1) - 1 ≤ 9) ∧
    (rangeToCIDRs 8 3 9).Pairwise
      (fun b1 b2 : Nat × Nat => b1.2 + 2 ^ (8 - b1.1) ≤ b2.2) ∧
    CoversExactly 8 (rangeToCIDRs 8 3 9) 3 9 ∧
    (∀ S : List (Nat × Nat), (∀ b ∈ S, IsCIDRBlock 8 b) → CoversExactly 8 S 3 9 →
      (rangeToCIDRs 8 3 9).length ≤ S.length) :=
  range_toCIDRs_spec 8 3 9 (by decide)

/-! ## RadixTrie (src/domain/trie.ts)

A trie node carries a child per bit, an optional value, and — set whenever a
CIDR is stored there — the stored prefix length (`storedPfx`) and network.
The JS `Map<number, TrieNode>` children are the two optional subtrees. -/

inductive TNode (T : Type) : Type where
  | node (child0 child1 : Option (TNode T)) (value : Option T)
      (storedPfx network : Option Nat) : TNode T

def TNode.value : TNode T → Option T
  | .node _ _ v _ _ => v

def TNode.storedPfx : TNode T → Option Nat
  | .node _ _ _ sp _ => sp

def TNode.network : TNode T → Option Nat
  | .node _ _ _ _ net => net

def TNode.child : TNode T → Bool → Option (TNode T)
  | .node c0 _ _ _ _, false => c0
  | .node _ c1 _ _ _, true => c1

/-- A fresh node as created while walking (`{children: new Map(), …}`). -/
def emptyNode : TNode T := .node none none none none none

/-- Bit `i` (MSB-first) of the `bits`-wide value `v`:
`(v >> (bits - 1 - i)) & 1`. -/
def bitAt (bits v i : Nat) : Bool := v / 2 ^ (bits - 1 - i) % 2 = 1

/-- The first `p` bits of `v`, MSB-first — the walk path of `insert`,
`remove` and `longestMatch`. -/
def bitPath (bits v p : Nat) : List Bool := (List.range p).map (bitAt bits v)

/-- The walk of `RadixTrie.insert` along a bit path: create missing children,
then set `value`, `storedPrefix` and `network` at the terminal node
(unconditionally, even when `value` is `undefined`). -/
def insertPath (vo : Option T) (sp net : Nat) : TNode T → List Bool → TNode T
  | .node c0 c1 _ _ _, [] => .node c0 c1 vo (some sp) (some net)
  | .node c0 c1 v0 sp0 net0, b :: rest =>
    match b with
    | false => .node (some (insertPath vo sp net (c0.getD emptyNode) rest)) c1 v0 sp0 net0
    | true => .node c0 (some (insertPath vo sp net (c1.getD emptyNode) rest)) v0 sp0 net0

/-- `RadixTrie.insert(cidr, value?)`: walk `prefix` bits of
`cidr.network()` and store the entry at the terminal node. -/
def trieInsert (bits : Nat) (t : TNode T) (p ip : Nat) (vo : Option T) : TNode T :=
  insertPath vo p (networkOf ip p bits) t (bitPath bits (networkOf ip p bits) p)

/-- Fold `insert` over a list of `(prefix, ip, value)` entries. -/
def buildTrie (bits : Nat) (entries : List (Nat × Nat × T)) : TNode T :=
  entries.foldl (fun t ent => trieInsert bits t ent.1 ent.2.1 (some ent.2.2)) emptyNode

/-- The walk of `RadixTrie.longestMatch`: at every node visited remember it
as best when it carries a value; stop at a missing child or when the bits run
out; the terminal node is checked too. -/
def lmGo : TNode T → List Bool → Option (TNode T) → Option (TNode T)
  | t, [], best => if t.value.isSome then some t else best
  | t, b :: rest, best =>
    let best2 := if t.value.isSome then some t else best
    match t.child b with
    | none => best2
    | some c => lmGo c rest best2

/-- `reconstructCIDR` on a valued node: the CIDR is rebuilt from the stored
prefix length and stored network (the `node.network !== undefined` branch of
the source; the legacy fallback is unreachable for tries built by `insert`,
which always stores all three fields together). -/
def recon (n : TNode T) : Option (Nat × Nat × T) :=
  match n.value, n.storedPfx, n.network with
  | some v, some sp, some net => some (sp, net, v)
  | _, _, _ => none

/-- `RadixTrie.longestMatch(ip)`: walk all `bits` bits of the address and
reconstruct the best node's CIDR from its stored prefix length and stored
network, paired with its stored value — `(storedPrefix, network, value)`. -/
def longestMatch (bits : Nat) (t : TNode T) (addr : Nat) : Option (Nat × Nat × T) :=
  (lmGo t (bitPath bits addr bits) none).bind recon

/-- `RadixTrie.countNodes` (backing `size()`): count nodes whose value is
defined. -/
def countNodes : TNode T → Nat
  | .node c0 c1 v _ _ =>
    (if v.isSome then 1 else 0) +
    (match c0 with | none => 0 | some c => countNodes c) +
    (match c1 with | none => 0 | some c => countNodes c)

/-- `RadixTrie.collectCIDRs` (backing `getCIDRs()`): collect
`(storedPrefix, network)` at every node with a defined value, children in
order. -/
def collectCIDRs : TNode T → List (Nat × Nat)
  | .node c0 c1 v sp net =>
    (match v, sp, net with
      | some _, some p, some n => [(p, n)]
      | _, _, _ => []) ++
    (match c0 with | none => [] | some c => collectCIDRs c) ++
    (match c1 with | none => [] | some c => collectCIDRs c)

/-- The node reached by following a bit path. -/
def nodeAt : TNode T → List Bool → Option (TNode T)
  | t, [] => some t
  | t, b :: rest => (t.child b).bind (fun c => nodeAt c rest)

/-- The visible entry stored at a path: present when the node exists and
carries a value together with its stored prefix length and network, as
`(storedPrefix, network, value)`. -/
def entryAt (t : TNode T) (P : List Bool) : Option (Nat × Nat × T) :=
  (nodeAt t P).bind recon

/-- Well-formedness: every node carrying a value also carries its stored
prefix length and network (true of every trie built by `insert`). -/
def WFT : TNode T → Prop
  | .node c0 c1 v sp net =>
    (v.isSome → sp.isSome ∧ net.isSome) ∧
    (match c0 with | none => True | some c => WFT c) ∧
    (match c1 with | none => True | some c => WFT c)

theorem wft_node {c0 c1 : Option (TNode T)} {v : Option T} {sp net : Option Nat} :
    WFT (TNode.node c0 c1 v sp net) ↔
      ((v.isSome → sp.isSome ∧ net.isSome) ∧
       (match c0 with | none => True | some c => WFT c) ∧
       (match c1 with | none => True | some c => WFT c)) := by
  rw [WFT.eq_def]

theorem wft_fields {t : TNode T} (h : WFT t) (hv : t.value.isSome) :
    t.storedPfx.isSome ∧ t.network.isSome := by
  cases t with | node c0 c1 v sp net =>
  exact (wft_node.mp h).1 hv

theorem wft_child {t : TNode T} {b : Bool} {c : TNode T} (h : WFT t)
    (hc : t.child b = some c) : WFT c := by
  cases t with | node c0 c1 v sp net =>
  cases b
  · have h2 := (wft_node.mp h).2.1
    simp only [TNode.child] at hc
    rw [hc] at h2
    exact h2
  · have h2 := (wft_node.mp h).2.2
    simp only [TNode.child] at hc
    rw [hc] at h2
    exact h2

theorem wft_empty : WFT (emptyNode : TNode T) := by
  rw [emptyNode, wft_node]
  refine ⟨?_, trivial, trivial⟩
  intro h
  simp at h

theorem wft_insertPath (vo : Option T) (sp net : Nat) :
    ∀ (P : List Bool) (t : TNode T), WFT t → WFT (insertPath vo sp net t P) := by
  intro P
  induction P with
  | nil =>
    intro t h
    cases t with | node c0 c1 v0 sp0 net0 =>
    rw [wft_node] at h
    show WFT (TNode.node c0 c1 vo (some sp) (some net))
    rw [wft_node]
    exact ⟨fun _ => ⟨rfl, rfl⟩, h.2.1, h.2.2⟩
  | cons b rest ih =>
    intro t h
    cases t with | node c0 c1 v0 sp0 net0 =>
    rw [wft_node] at h
    cases b
    · show WFT (TNode.node (some (insertPath vo sp net (c0.getD emptyNode) rest))
        c1 v0 sp0 net0)
      rw [wft_node]
      refine ⟨h.1, ?_, h.2.2⟩
      show WFT (insertPath vo sp net (c0.getD emptyNode) rest)
      apply ih
      cases c0 with
      | none => exact wft_empty
      | some c => exact h.2.1
    · show WFT (TNode.node c0 (some (insertPath vo sp net (c1.getD emptyNode) rest))
        v0 sp0 net0)
      rw [wft_node]
      refine ⟨h.1, h.2.1, ?_⟩
      show WFT (insertPath vo sp net (c1.getD emptyNode) rest)
      apply ih
      cases c1 with
      | none => exact wft_empty
      | some c => exact h.2.2

theorem nodeAt_cons (t : TNode T) (b : Bool) (rest : List Bool) :
    nodeAt t (b :: rest) = (t.child b).bind (fun c => nodeAt c rest) := rfl

theorem entryAt_cons (t : TNode T) (b : Bool) (rest : List Bool) :
    entryAt t (b :: rest) = (t.child b).bind (fun c => entryAt c rest) := by
  unfold entryAt
  rw [nodeAt_cons]
  cases t.child b with
  | none => rfl
  | some c => rfl

theorem entryAt_emptyNode : ∀ (Q : List Bool), entryAt (emptyNode : TNode T) Q = none := by
  intro Q
  cases Q with
  | nil => rfl
  | cons b rest =>
    rw [entryAt_cons]
    cases b <;> rfl

theorem entryAt_insertPath_self (vo : Option T) (sp net : Nat) :
    ∀ (P : List Bool) (t : TNode T),
      entryAt (insertPath vo sp net t P) P = vo.map (fun v => (sp, net, v)) := by
  intro P
  induction P with
  | nil =>
    intro t
    cases t with | node c0 c1 v0 sp0 net0 =>
    cases vo <;> rfl
  | cons b rest ih =>
    intro t
    cases t with | node c0 c1 v0 sp0 net0 =>
    cases b
    · rw [show insertPath vo sp net (.node c0 c1 v0 sp0 net0) (false :: rest) =
          .node (some (insertPath vo sp net (c0.getD emptyNode) rest)) c1 v0 sp0 net0
          from rfl]
      rw [entryAt_cons]
      exact ih _
    · rw [show insertPath vo sp net (.node c0 c1 v0 sp0 net0) (true :: rest) =
          .node c0 (some (insertPath vo sp net (c1.getD emptyNode) rest)) v0 sp0 net0
          from rfl]
      rw [entryAt_cons]
      exact ih _

theorem entryAt_insertPath_other (vo : Option T) (sp net : Nat) :
    ∀ (P Q : List Bool) (t : TNode T), Q ≠ P →
      entryAt (insertPath vo sp net t P) Q = entryAt t Q := by
  intro P
  induction P with
  | nil =>
    intro Q t hne
    cases t with | node c0 c1 v0 sp0 net0 =>
    cases Q with
    | nil => exact absurd rfl hne
    | cons b rest =>
      rw [entryAt_cons, entryAt_cons]
      cases b <;> rfl
  | cons a P' ih =>
    intro Q t hne
    cases t with | node c0 c1 v0 sp0 net0 =>
    cases Q with
    | nil => cases a <;> rfl
    | cons b Q' =>
      by_cases hab : b = a
      · subst hab
        have hne' : Q' ≠ P' := fun h => hne (by rw [h])
        cases b
        · rw [entryAt_cons, entryAt_cons]
          show (some (insertPath vo sp net (c0.getD emptyNode) P')).bind
              (fun c => entryAt c Q') = c0.bind (fun c => entryAt c Q')
          cases c0 with
          | none =>
            simp only [Option.getD, Option.bind]
            rw [ih Q' emptyNode hne', entryAt_emptyNode]
          | some c =>
            simp only [Option.getD, Option.bind]
            exact ih Q' c hne'
        · rw [entryAt_cons, entryAt_cons]
          show (some (insertPath vo sp net (c1.getD emptyNode) P')).bind
              (fun c => entryAt c Q') = c1.bind (fun c => entryAt c Q')
          cases c1 with
          | none =>
            simp only [Option.getD, Option.bind]
            rw [ih Q' emptyNode hne', entryAt_emptyNode]
          | some c =>
            simp only [Option.getD, Option.bind]
            exact ih Q' c hne'
      · rw [entryAt_cons, entryAt_cons]
        cases a <;> cases b <;> first | rfl | (exact absurd rfl hab)

/-! ### The longestMatch walk as the deepest valued node on the path -/

/-- The deepest node carrying a value on the walk along `path` (the walk
stops at a missing child). -/
def findBest : TNode T → List Bool → Option (TNode T)
  | t, [] => if t.value.isSome then some t else none
  | t, b :: rest =>
    match t.child b with
    | none => if t.value.isSome then some t else none
    | some c =>
      match findBest c rest with
      | some n => some n
      | none => if t.value.isSome then some t else none

theorem value_eq_none_of_not_isSome {t : TNode T} (h : ¬ t.value.isSome = true) :
    t.value = none := by
  cases hv : t.value with
  | none => rfl
  | some v => rw [hv] at h; simp at h

theorem lmGo_eq_findBest : ∀ (path : List Bool) (t : TNode T) (best : Option (TNode T)),
    lmGo t path best =
      match findBest t path with
      | some n => some n
      | none => best := by
  intro path
  induction path with
  | nil =>
    intro t best
    by_cases h : t.value.isSome <;> simp [lmGo, findBest, h]
  | cons b rest ih =>
    intro t best
    cases hc : t.child b with
    | none =>
      by_cases h : t.value.isSome <;> simp [lmGo, findBest, hc, h]
    | some c =>
      cases hfb : findBest c rest with
      | some n =>
        by_cases h : t.value.isSome <;> simp [lmGo, findBest, hc, h, ih, hfb]
      | none =>
        by_cases h : t.value.isSome <;> simp [lmGo, findBest, hc, h, ih, hfb]

theorem findBest_spec : ∀ (path : List Bool) (t : TNode T),
    (findBest t path = none →
      ∀ k n, nodeAt t (path.take k) = some n → n.value = none) ∧
    (∀ n, findBest t path = some n →
      ∃ k, k ≤ path.length ∧ nodeAt t (path.take k) = some n ∧ n.value.isSome ∧
        ∀ j m, k < j → j ≤ path.length → nodeAt t (path.take j) = some m →
          m.value = none) := by
  intro path
  induction path with
  | nil =>
    intro t
    constructor
    · intro hnone k n hk
      simp only [List.take_nil, nodeAt] at hk
      obtain rfl : t = n := Option.some_inj.mp hk
      simp only [findBest] at hnone
      split_ifs at hnone with h
      exact value_eq_none_of_not_isSome h
    · intro n hsome
      simp only [findBest] at hsome
      split_ifs at hsome with h
      obtain rfl : t = n := Option.some_inj.mp hsome
      refine ⟨0, Nat.le_refl _, rfl, h, ?_⟩
      intro j m hj hjl hk
      simp only [List.length_nil] at hjl
      omega
  | cons b rest ih =>
    intro t
    cases hc : t.child b with
    | none =>
      have hnodeAt : ∀ j, nodeAt t ((b :: rest).take (j + 1)) = none := by
        intro j
        rw [List.take_succ_cons, nodeAt_cons, hc]
        rfl
      constructor
      · intro hnone k n hk
        simp only [findBest, hc] at hnone
        cases k with
        | zero =>
          simp only [List.take_zero, nodeAt] at hk
          obtain rfl : t = n := Option.some_inj.mp hk
          split_ifs at hnone with h
          exact value_eq_none_of_not_isSome h
        | succ j =>
          rw [hnodeAt j] at hk
          cases hk
      · intro n hsome
        simp only [findBest, hc] at hsome
        split_ifs at hsome with h
        obtain rfl : t = n := Option.some_inj.mp hsome
        refine ⟨0, Nat.zero_le _, rfl, h, ?_⟩
        intro j m hj hjl hk
        cases j with
        | zero => omega
        | succ j =>
          rw [hnodeAt j] at hk
          cases hk
    | some c =>
      have hnodeAt : ∀ j, nodeAt t ((b :: rest).take (j + 1)) = nodeAt c (rest.take j) := by
        intro j
        rw [List.take_succ_cons, nodeAt_cons, hc]
        rfl
      obtain ⟨ihn, ihs⟩ := ih c
      constructor
      · intro hnone k n hk
        simp only [findBest, hc] at hnone
        cases hfb : findBest c rest with
        | none =>
          rw [hfb] at hnone
          split_ifs at hnone with h
          cases k with
          | zero =>
            simp only [List.take_zero, nodeAt] at hk
            obtain rfl : t = n := Option.some_inj.mp hk
            exact value_eq_none_of_not_isSome h
          | succ j =>
            rw [hnodeAt j] at hk
            exact ihn hfb j n hk
        | some m =>
          rw [hfb] at hnone
          cases hnone
      · intro n hsome
        simp only [findBest, hc] at hsome
        cases hfb : findBest c rest with
        | none =>
          rw [hfb] at hsome
          split_ifs at hsome with h
          obtain rfl : t = n := Option.some_inj.mp hsome
          refine ⟨0, Nat.zero_le _, rfl, h, ?_⟩
          intro j m2 hj hjl hk
          cases j with
          | zero => omega
          | succ j =>
            rw [hnodeAt j] at hk
            exact ihn hfb j m2 hk
        | some m =>
          rw [hfb] at hsome
          obtain rfl : m = n := Option.some_inj.mp hsome
          obtain ⟨k, hk1, hk2, hk3, hk4⟩ := ihs _ hfb
          refine ⟨k + 1, by simp only [List.length_cons]; omega,
            by rw [hnodeAt k]; exact hk2, hk3, ?_⟩
          intro j m2 hj hjl hk
          cases j with
          | zero => omega
          | succ j =>
            rw [hnodeAt j] at hk
            refine hk4 j m2 (by omega) ?_ hk
            simp only [List.length_cons] at hjl
            omega

theorem wft_nodeAt : ∀ (P : List Bool) (t : TNode T), WFT t →
    ∀ n, nodeAt t P = some n → WFT n := by
  intro P
  induction P with
  | nil =>
    intro t hw n hn
    obtain rfl : t = n := Option.some_inj.mp hn
    exact hw
  | cons b rest ih =>
    intro t hw n hn
    rw [nodeAt_cons] at hn
    cases hc : t.child b with
    | none => rw [hc] at hn; cases hn
    | some c =>
      rw [hc] at hn
      exact ih c (wft_child hw hc) n hn

theorem recon_of_none {n : TNode T} (hv : n.value = none) : recon n = none := by
  unfold recon
  rw [hv]

theorem recon_of_some {n : TNode T} {v : T} {sp net : Nat} (hv : n.value = some v)
    (hsp : n.storedPfx = some sp) (hnet : n.network = some net) :
    recon n = some (sp, net, v) := by
  unfold recon
  rw [hv, hsp, hnet]

theorem recon_some_iff {n : TNode T} {p q : Nat} {v : T} :
    recon n = some (p, q, v) ↔
      n.value = some v ∧ n.storedPfx = some p ∧ n.network = some q := by
  unfold recon
  cases hv : n.value with
  | none => simp
  | some v2 =>
    cases hsp : n.storedPfx with
    | none => simp
    | some sp =>
      cases hnet : n.network with
      | none => simp
      | some net =>
        simp only [Option.some.injEq, Prod.mk.injEq]
        tauto

theorem recon_isSome {n : TNode T} (hv : n.value.isSome) (hsp : n.storedPfx.isSome)
    (hnet : n.network.isSome) : ∃ e, recon n = some e := by
  obtain ⟨v, hv2⟩ := Option.isSome_iff_exists.mp hv
  obtain ⟨sp, hsp2⟩ := Option.isSome_iff_exists.mp hsp
  obtain ⟨net, hnet2⟩ := Option.isSome_iff_exists.mp hnet
  exact ⟨(sp, net, v), recon_of_some hv2 hsp2 hnet2⟩

theorem entryAt_none_iff {t : TNode T} {P : List Bool} (hw : WFT t) :
    entryAt t P = none ↔ ∀ n, nodeAt t P = some n → n.value = none := by
  unfold entryAt
  cases hn : nodeAt t P with
  | none => simp
  | some n =>
    have hwn := wft_nodeAt P t hw n hn
    show recon n = none ↔ _
    constructor
    · intro h m hm
      obtain rfl : n = m := Option.some_inj.mp hm
      cases hv : n.value with
      | none => rfl
      | some v =>
        exfalso
        obtain ⟨hsp, hnet⟩ := wft_fields hwn (by simp [hv])
        obtain ⟨e, he⟩ := recon_isSome (by simp [hv]) hsp hnet
        rw [he] at h
        cases h
    · intro h
      exact recon_of_none (h n rfl)

theorem entryAt_some_iff {t : TNode T} {P : List Bool} {p q : Nat} {v : T} :
    entryAt t P = some (p, q, v) ↔ ∃ n, nodeAt t P = some n ∧ n.value = some v ∧
      n.storedPfx = some p ∧ n.network = some q := by
  unfold entryAt
  cases hn : nodeAt t P with
  | none => simp
  | some n =>
    show recon n = some (p, q, v) ↔ _
    rw [recon_some_iff]
    constructor
    · rintro ⟨h1, h2, h3⟩
      exact ⟨n, rfl, h1, h2, h3⟩
    · rintro ⟨m, hm, h1, h2, h3⟩
      obtain rfl : n = m := Option.some_inj.mp hm
      exact ⟨h1, h2, h3⟩

/-- `longestMatch` characterized by the visible entries along the address's
bit path: `none` iff no prefix of the path has an entry; otherwise the entry
of the longest prefix that has one. -/
theorem longestMatch_char (bits : Nat) (t : TNode T) (addr : Nat) (hw : WFT t) :
    (longestMatch bits t addr = none ↔
      ∀ k, entryAt t ((bitPath bits addr bits).take k) = none) ∧
    (∀ p net v, longestMatch bits t addr = some (p, net, v) ↔
      ∃ k, k ≤ bits ∧ entryAt t ((bitPath bits addr bits).take k) = some (p, net, v) ∧
        ∀ j, k < j → j ≤ bits → entryAt t ((bitPath bits addr bits).take j) = none) := by
  have hlen : (bitPath bits addr bits).length = bits := by simp [bitPath]
  have hlm : longestMatch bits t addr =
      (findBest t (bitPath bits addr bits)).bind recon := by
    unfold longestMatch
    rw [lmGo_eq_findBest]
    cases findBest t (bitPath bits addr bits) <;> rfl
  obtain ⟨hfn, hfs⟩ := findBest_spec (bitPath bits addr bits) t
  have hnone : longestMatch bits t addr = none ↔
      ∀ k, entryAt t ((bitPath bits addr bits).take k) = none := by
    constructor
    · intro h k
      rw [hlm] at h
      cases hfb : findBest t (bitPath bits addr bits) with
      | none =>
        rw [entryAt_none_iff hw]
        exact fun n hn => hfn hfb k n hn
      | some n =>
        exfalso
        obtain ⟨k2, hk1, hk2, hk3, _⟩ := hfs n hfb
        have hwn := wft_nodeAt _ t hw n hk2
        obtain ⟨hsp, hnet⟩ := wft_fields hwn hk3
        obtain ⟨v, hv⟩ := Option.isSome_iff_exists.mp hk3
        obtain ⟨sp, hsp2⟩ := Option.isSome_iff_exists.mp hsp
        obtain ⟨net, hnet2⟩ := Option.isSome_iff_exists.mp hnet
        rw [hfb] at h
        have h2 : recon n = none := h
        rw [recon_of_some hv hsp2 hnet2] at h2
        cases h2
    · intro h
      rw [hlm]
      cases hfb : findBest t (bitPath bits addr bits) with
      | none => rfl
      | some n =>
        exfalso
        obtain ⟨k, hk1, hk2, hk3, _⟩ := hfs n hfb
        have := (entryAt_none_iff hw).mp (h k) n hk2
        rw [this] at hk3
        simp at hk3
  refine ⟨hnone, ?_⟩
  intro p net v
  constructor
  · intro h
    rw [hlm] at h
    cases hfb : findBest t (bitPath bits addr bits) with
    | none => rw [hfb] at h; simp at h
    | some n =>
      rw [hfb] at h
      obtain ⟨k, hk1, hk2, hk3, hk4⟩ := hfs n hfb
      have hwn := wft_nodeAt _ t hw n hk2
      obtain ⟨v2, hv⟩ := Option.isSome_iff_exists.mp hk3
      obtain ⟨hsp, hnet⟩ := wft_fields hwn hk3
      obtain ⟨sp, hsp2⟩ := Option.isSome_iff_exists.mp hsp
      obtain ⟨net2, hnet2⟩ := Option.isSome_iff_exists.mp hnet
      have h5 : recon n = some (p, net, v) := h
      rw [recon_of_some hv hsp2 hnet2] at h5
      obtain ⟨h1, h2, h3⟩ : sp = p ∧ net2 = net ∧ v2 = v := by
        have := Option.some_inj.mp h5
        exact ⟨congrArg Prod.fst this,
          congrArg Prod.fst (congrArg Prod.snd this),
          congrArg Prod.snd (congrArg Prod.snd this)⟩
      subst h1; subst h2; subst h3
      refine ⟨k, by omega, ?_, ?_⟩
      · exact entryAt_some_iff.mpr ⟨n, hk2, hv, hsp2, hnet2⟩
      · intro j hj hjb
        rw [entryAt_none_iff hw]
        intro m hm
        exact hk4 j m hj (by omega) hm
  · rintro ⟨k, hk1, hk2, hk3⟩
    cases hlmv : longestMatch bits t addr with
    | none =>
      exfalso
      have := hnone.mp hlmv k
      rw [hk2] at this
      cases this
    | some triple =>
      obtain ⟨p2, net2, v2⟩ := triple
      rw [hlmv] at hlm
      cases hfb : findBest t (bitPath bits addr bits) with
      | none => rw [hfb] at hlm; simp at hlm
      | some n =>
        rw [hfb] at hlm
        obtain ⟨k2, hj1, hj2, hj3, hj4⟩ := hfs n hfb
        have hwn := wft_nodeAt _ t hw n hj2
        obtain ⟨v3, hv⟩ := Option.isSome_iff_exists.mp hj3
        obtain ⟨hsp, hnet⟩ := wft_fields hwn hj3
        obtain ⟨sp, hsp2⟩ := Option.isSome_iff_exists.mp hsp
        obtain ⟨net3, hnet2⟩ := Option.isSome_iff_exists.mp hnet
        have hlm2 : some (p2, net2, v2) = recon n := hlm
        rw [recon_of_some hv hsp2 hnet2] at hlm2
        have hent2 : entryAt t ((bitPath bits addr bits).take k2) =
            some (sp, net3, v3) := entryAt_some_iff.mpr ⟨n, hj2, hv, hsp2, hnet2⟩
        have hkk : k = k2 := by
          by_contra hne
          rcases Nat.lt_or_ge k k2 with hlt | hge
          · have := hk3 k2 hlt (by omega)
            rw [hent2] at this
            cases this
          · have hlt2 : k2 < k := by omega
            obtain ⟨m, hm1, hm2, _, _⟩ := entryAt_some_iff.mp hk2
            have := hj4 k m hlt2 (by omega) hm1
            rw [this] at hm2
            cases hm2
        subst hkk
        rw [hk2] at hent2
        obtain ⟨e1, e2, e3⟩ : p = sp ∧ net = net3 ∧ v = v3 := by
          have := Option.some_inj.mp hent2
          exact ⟨congrArg Prod.fst this,
            congrArg Prod.fst (congrArg Prod.snd this),
            congrArg Prod.snd (congrArg Prod.snd this)⟩
        subst e1; subst e2; subst e3
        exact hlm2

/-! ### Bit paths versus CIDR containment -/

theorem bitAt_eq_iff_div (bits : Nat) : ∀ (p : Nat), p ≤ bits → ∀ v1 v2 : Nat,
    v1 < 2 ^ bits → v2 < 2 ^ bits →
    ((∀ i, i < p → bitAt bits v1 i = bitAt bits v2 i) ↔
      v1 / 2 ^ (bits - p) = v2 / 2 ^ (bits - p)) := by
  intro p
  induction p with
  | zero =>
    intro _ v1 v2 h1 h2
    simp only [Nat.sub_zero]
    rw [Nat.div_eq_of_lt h1, Nat.div_eq_of_lt h2]
    simp
  | succ p ih =>
    intro hp v1 v2 h1 h2
    have hpb : p ≤ bits := by omega
    have e1 : bits - (p + 1) = bits - p - 1 := by omega
    have e2 : bits - 1 - p = bits - p - 1 := by omega
    have hdd : ∀ v : Nat, v / 2 ^ (bits - p) = v / 2 ^ (bits - p - 1) / 2 := by
      intro v
      rw [Nat.div_div_eq_div_mul, ← pow_succ]
      have he : bits - p - 1 + 1 = bits - p := by omega
      rw [he]
    have hbit : ∀ v : Nat, bitAt bits v p = decide (v / 2 ^ (bits - p - 1) % 2 = 1) := by
      intro v
      simp only [bitAt, e2]
    rw [e1]
    constructor
    · intro h
      have hq := (ih hpb v1 v2 h1 h2).mp (fun i hi => h i (by omega))
      have hb := h p (by omega)
      rw [hbit v1, hbit v2] at hb
      have hb2 : (v1 / 2 ^ (bits - p - 1) % 2 = 1) ↔ (v2 / 2 ^ (bits - p - 1) % 2 = 1) := by
        simpa using hb
      rw [hdd v1, hdd v2] at hq
      have m1 : v1 / 2 ^ (bits - p - 1) % 2 < 2 := Nat.mod_lt _ (by omega)
      have m2 : v2 / 2 ^ (bits - p - 1) % 2 < 2 := Nat.mod_lt _ (by omega)
      have d1 := Nat.div_add_mod (v1 / 2 ^ (bits - p - 1)) 2
      have d2 := Nat.div_add_mod (v2 / 2 ^ (bits - p - 1)) 2
      omega
    · intro h
      intro i hi
      rcases Nat.lt_or_ge i p with hip | hip
      · refine (ih hpb v1 v2 h1 h2).mpr ?_ i hip
        rw [hdd v1, hdd v2, h]
      · have hi2 : i = p := by omega
        subst hi2
        rw [hbit v1, hbit v2, h]

theorem networkOf_lt {ip p bits : Nat} (h : ip < 2 ^ bits) : networkOf ip p bits < 2 ^ bits :=
  Nat.lt_of_le_of_lt (Nat.div_mul_le_self ip _) h

theorem networkOf_div (ip p bits : Nat) :
    networkOf ip p bits / 2 ^ (bits - p) = ip / 2 ^ (bits - p) := by
  unfold networkOf
  exact Nat.mul_div_cancel _ (Nat.pos_pow_of_pos _ (by omega))

theorem cidrContains_iff_div {bits p net x : Nat} :
    cidrContains bits p net x ↔ x / 2 ^ (bits - p) = net / 2 ^ (bits - p) := by
  unfold cidrContains networkOf
  have hpos : 0 < 2 ^ (bits - p) := Nat.pos_pow_of_pos _ (by omega)
  constructor
  · intro h
    exact Nat.eq_of_mul_eq_mul_right hpos h
  · intro h
    rw [h]

theorem bitPath_length (bits v p : Nat) : (bitPath bits v p).length = p := by
  simp [bitPath]

theorem bitPath_take (bits v : Nat) (p k : Nat) :
    (bitPath bits v p).take k = bitPath bits v (min k p) := by
  unfold bitPath
  rw [← List.map_take, List.take_range]

theorem bitPath_eq_iff (bits p : Nat) (v1 v2 : Nat) :
    bitPath bits v1 p = bitPath bits v2 p ↔ ∀ i, i < p → bitAt bits v1 i = bitAt bits v2 i := by
  unfold bitPath
  rw [List.map_eq_map_iff]
  constructor
  · intro h i hi
    exact h i (List.mem_range.mpr hi)
  · intro h i hi
    exact h i (List.mem_range.mp hi)

/-- A stored entry's walk path equals the length-`p` prefix of the query
address's full path exactly when the entry's CIDR contains the address. -/
theorem entPath_eq_take_iff {bits p ip addr : Nat} (hp : p ≤ bits)
    (hip : ip < 2 ^ bits) (haddr : addr < 2 ^ bits) :
    bitPath bits (networkOf ip p bits) p = (bitPath bits addr bits).take p ↔
      cidrContains bits p ip addr := by
  rw [bitPath_take, Nat.min_eq_left hp, bitPath_eq_iff,
    bitAt_eq_iff_div bits p hp _ _ (networkOf_lt hip) haddr, networkOf_div,
    cidrContains_iff_div]
  constructor
  · intro h; exact h.symm
  · intro h; exact h.symm

/-! ### Entries of a built trie -/

/-- The walk path used by `insert` for the entry `(prefix, ip, value)`. -/
def entPath (bits : Nat) (ent : Nat × Nat × T) : List Bool :=
  bitPath bits (networkOf ent.2.1 ent.1 bits) ent.1

theorem trieInsert_as_insertPath (bits : Nat) (t : TNode T) (ent : Nat × Nat × T) :
    trieInsert bits t ent.1 ent.2.1 (some ent.2.2) =
      insertPath (some ent.2.2) ent.1 (networkOf ent.2.1 ent.1 bits) t (entPath bits ent) :=
  rfl

theorem fold_entryAt_miss (bits : Nat) : ∀ (entries : List (Nat × Nat × T)) (t : TNode T)
    (Q : List Bool), (∀ ent ∈ entries, entPath bits ent ≠ Q) →
    entryAt (entries.foldl (fun t ent => trieInsert bits t ent.1 ent.2.1 (some ent.2.2)) t) Q
      = entryAt t Q := by
  intro entries
  induction entries with
  | nil => intro t Q _; rfl
  | cons e es ih =>
    intro t Q h
    rw [List.foldl_cons, ih _ Q (fun ent hent => h ent (by simp [hent])),
      trieInsert_as_insertPath,
      entryAt_insertPath_other _ _ _ _ Q t (Ne.symm (h e (by simp)))]

theorem fold_wft (bits : Nat) : ∀ (entries : List (Nat × Nat × T)) (t : TNode T), WFT t →
    WFT (entries.foldl (fun t ent => trieInsert bits t ent.1 ent.2.1 (some ent.2.2)) t) := by
  intro entries
  induction entries with
  | nil => intro t h; exact h
  | cons e es ih =>
    intro t h
    rw [List.foldl_cons]
    exact ih _ (wft_insertPath _ _ _ _ t h)

theorem buildTrie_wft (bits : Nat) (entries : List (Nat × Nat × T)) :
    WFT (buildTrie bits entries) :=
  fold_wft bits entries emptyNode wft_empty

theorem buildTrie_entry_none (bits : Nat) (entries : List (Nat × Nat × T)) (Q : List Bool)
    (h : ∀ ent ∈ entries, entPath bits ent ≠ Q) :
    entryAt (buildTrie bits entries) Q = none := by
  rw [buildTrie, fold_entryAt_miss bits entries emptyNode Q h]
  exact entryAt_emptyNode Q

theorem buildTrie_entry_hit (bits : Nat) (entries : List (Nat × Nat × T))
    (hdist : entries.Pairwise (fun e1 e2 => entPath bits e1 ≠ entPath bits e2))
    (ent : Nat × Nat × T) (hmem : ent ∈ entries) :
    entryAt (buildTrie bits entries) (entPath bits ent) =
      some (ent.1, networkOf ent.2.1 ent.1 bits, ent.2.2) := by
  obtain ⟨E1, E2, rfl⟩ := List.append_of_mem hmem
  have hE2 : ∀ e2 ∈ E2, entPath bits e2 ≠ entPath bits ent := by
    have h1 := (List.pairwise_append.mp hdist).2.1
    have h2 := (List.pairwise_cons.mp h1).1
    intro e2 he2
    exact Ne.symm (h2 e2 he2)
  rw [buildTrie, List.foldl_append, List.foldl_cons,
    fold_entryAt_miss bits E2 _ _ hE2, trieInsert_as_insertPath,
    entryAt_insertPath_self]
  rfl

theorem buildTrie_entry_some (bits : Nat) (entries : List (Nat × Nat × T))
    (hdist : entries.Pairwise (fun e1 e2 => entPath bits e1 ≠ entPath bits e2))
    (Q : List Bool) (p net : Nat) (v : T)
    (h : entryAt (buildTrie bits entries) Q = some (p, net, v)) :
    ∃ ent ∈ entries, entPath bits ent = Q ∧ ent.1 = p ∧
      networkOf ent.2.1 ent.1 bits = net ∧ ent.2.2 = v := by
  by_cases hex : ∃ ent ∈ entries, entPath bits ent = Q
  · obtain ⟨ent, hmem, hQ⟩ := hex
    have := buildTrie_entry_hit bits entries hdist ent hmem
    rw [hQ, h] at this
    obtain ⟨h1, h2, h3⟩ : ent.1 = p ∧ networkOf ent.2.1 ent.1 bits = net ∧ ent.2.2 = v := by
      have he := Option.some_inj.mp this
      simp only [Prod.mk.injEq] at he
      exact ⟨he.1.symm, he.2.1.symm, he.2.2.symm⟩
    exact ⟨ent, hmem, hQ, h1, h2, h3⟩
  · exfalso
    have : entryAt (buildTrie bits entries) Q = none := by
      apply buildTrie_entry_none
      intro ent hent hQ
      exact hex ⟨ent, hent, hQ⟩
    rw [this] at h
    cases h

theorem entPath_inj {bits : Nat} {e1 e2 : Nat × Nat × T}
    (h1p : e1.1 ≤ bits) (h1n : e1.2.1 < 2 ^ bits) (h2n : e2.2.1 < 2 ^ bits)
    (h : entPath bits e1 = entPath bits e2) :
    e1.1 = e2.1 ∧ networkOf e1.2.1 e1.1 bits = networkOf e2.2.1 e2.1 bits := by
  obtain ⟨p1, n1, v1⟩ := e1
  obtain ⟨p2, n2, v2⟩ := e2
  simp only at h1p h1n h2n ⊢
  unfold entPath at h
  simp only at h
  have hlen : p1 = p2 := by
    have hl := congrArg List.length h
    simpa [bitPath_length] using hl
  subst hlen
  refine ⟨rfl, ?_⟩
  rw [bitPath_eq_iff] at h
  have hdiv := (bitAt_eq_iff_div bits p1 h1p _ _ (networkOf_lt h1n) (networkOf_lt h2n)).mp h
  rw [networkOf_div, networkOf_div] at hdiv
  unfold networkOf
  rw [hdiv]

/-- C5: `longestMatch` on a trie built by inserting a list of valued CIDR
entries `(prefix, ip, value)` — with in-range prefixes and addresses and no
two entries denoting the same CIDR block — returns `none` exactly when no
inserted CIDR contains the queried address, and otherwise returns the stored
prefix, stored network and stored value of the containing entry of greatest
prefix length. -/
theorem trie_longestMatch_spec (bits : Nat) (entries : List (Nat × Nat × T)) (addr : Nat)
    (haddr : addr < 2 ^ bits)
    (hbound : ∀ ent ∈ entries, ent.1 ≤ bits ∧ ent.2.1 < 2 ^ bits)
    (hdist : entries.Pairwise (fun e1 e2 =>
      ¬(e1.1 = e2.1 ∧ networkOf e1.2.1 e1.1 bits = networkOf e2.2.1 e2.1 bits))) :
    (longestMatch bits (buildTrie bits entries) addr = none ↔
      ∀ ent ∈ entries, ¬ cidrContains bits ent.1 ent.2.1 addr) ∧
    (∀ p net v, longestMatch bits (buildTrie bits entries) addr = some (p, net, v) ↔
      ∃ ent ∈ entries, ent.1 = p ∧ networkOf ent.2.1 ent.1 bits = net ∧ ent.2.2 = v ∧
        cidrContains bits ent.1 ent.2.1 addr ∧
        ∀ e2 ∈ entries, cidrContains bits e2.1 e2.2.1 addr → e2.1 ≤ p) := by
  have hpath : entries.Pairwise (fun e1 e2 => entPath bits e1 ≠ entPath bits e2) :=
    List.Pairwise.imp_of_mem
      (fun h1 h2 hne heq => hne (entPath_inj (hbound _ h1).1
        (hbound _ h1).2 (hbound _ h2).2 heq)) hdist
  have char := longestMatch_char bits (buildTrie bits entries) addr (buildTrie_wft bits entries)
  constructor
  · rw [char.1]
    constructor
    · intro hall ent hmem hcont
      have hb := hbound ent hmem
      have hQ : entPath bits ent = (bitPath bits addr bits).take ent.1 := by
        unfold entPath
        exact (entPath_eq_take_iff hb.1 hb.2 haddr).mpr hcont
      have hhit := buildTrie_entry_hit bits entries hpath ent hmem
      rw [hQ, hall ent.1] at hhit
      cases hhit
    · intro hnone k
      apply buildTrie_entry_none
      intro ent hmem hQ
      have hb := hbound ent hmem
      have hk : (bitPath bits addr bits).take k = (bitPath bits addr bits).take (min k bits) := by
        rw [bitPath_take, bitPath_take]
        congr 1
        omega
      rw [hk] at hQ
      have hlen : ent.1 = min k bits := by
        have hl := congrArg List.length hQ
        simp [entPath, bitPath_length, List.length_take] at hl
        omega
      rw [← hlen] at hQ
      unfold entPath at hQ
      exact hnone ent hmem ((entPath_eq_take_iff hb.1 hb.2 haddr).mp hQ)
  · intro p net v
    rw [char.2 p net v]
    constructor
    · rintro ⟨k, hk, hentry, hmax⟩
      obtain ⟨ent, hmem, hQ, hp, hnet, hv⟩ :=
        buildTrie_entry_some bits entries hpath _ p net v hentry
      have hb := hbound ent hmem
      have hlen : ent.1 = k := by
        have hl := congrArg List.length hQ
        simp [entPath, bitPath_length, List.length_take] at hl
        omega
      refine ⟨ent, hmem, hp, hnet, hv, ?_, ?_⟩
      · rw [← hlen] at hQ
        unfold entPath at hQ
        exact (entPath_eq_take_iff hb.1 hb.2 haddr).mp hQ
      · intro e2 hmem2 hcont2
        by_contra hgt
        push_neg at hgt
        have hb2 := hbound e2 hmem2
        have hQ2 : entPath bits e2 = (bitPath bits addr bits).take e2.1 := by
          unfold entPath
          exact (entPath_eq_take_iff hb2.1 hb2.2 haddr).mpr hcont2
        have hhit := buildTrie_entry_hit bits entries hpath e2 hmem2
        rw [hQ2, hmax e2.1 (by omega) hb2.1] at hhit
        cases hhit
    · rintro ⟨ent, hmem, hp, hnet, hv, hcont, hmax⟩
      have hb := hbound ent hmem
      refine ⟨ent.1, hb.1, ?_, ?_⟩
      · have hQ : entPath bits ent = (bitPath bits addr bits).take ent.1 := by
          unfold entPath
          exact (entPath_eq_take_iff hb.1 hb.2 haddr).mpr hcont
        rw [← hQ, buildTrie_entry_hit bits entries hpath ent hmem, hnet, hp, hv]
      · intro j hj hjb
        apply buildTrie_entry_none
        intro e2 hmem2 hQ2
        have hb2 := hbound e2 hmem2
        have hlen2 : e2.1 = j := by
          have hl := congrArg List.length hQ2
          simp [entPath, bitPath_length, List.length_take] at hl
          omega
        rw [← hlen2] at hQ2
        unfold entPath at hQ2
        have hcont2 := (entPath_eq_take_iff hb2.1 hb2.2 haddr).mp hQ2
        have hle := hmax e2 hmem2 hcont2
        omega

/-! ### Valueless insert (C10) -/

theorem value_nodeAt_emptyNode : ∀ (Q : List Bool),
    ((nodeAt (emptyNode : TNode T) Q).bind TNode.value) = none := by
  intro Q
  cases Q with
  | nil => rfl
  | cons b rest =>
    rw [nodeAt_cons]
    cases b <;> rfl

theorem nodeAt_insertPath_self (vo : Option T) (sp net : Nat) :
    ∀ (P : List Bool) (t : TNode T), ∃ c0 c1,
      nodeAt (insertPath vo sp net t P) P =
        some (TNode.node c0 c1 vo (some sp) (some net)) := by
  intro P
  induction P with
  | nil =>
    intro t
    cases t with | node c0 c1 v0 sp0 net0 =>
    exact ⟨c0, c1, rfl⟩
  | cons b rest ih =>
    intro t
    cases t with | node c0 c1 v0 sp0 net0 =>
    cases b
    · obtain ⟨d0, d1, h⟩ := ih (c0.getD emptyNode)
      refine ⟨d0, d1, ?_⟩
      show nodeAt (TNode.node (some (insertPath vo sp net (c0.getD emptyNode) rest))
        c1 v0 sp0 net0) (false :: rest) = _
      rw [nodeAt_cons]
      exact h
    · obtain ⟨d0, d1, h⟩ := ih (c1.getD emptyNode)
      refine ⟨d0, d1, ?_⟩
      show nodeAt (TNode.node c0 (some (insertPath vo sp net (c1.getD emptyNode) rest))
        v0 sp0 net0) (true :: rest) = _
      rw [nodeAt_cons]
      exact h

theorem countNodes_insEmpty (sp net : Nat) :
    ∀ (P : List Bool), countNodes (insertPath (none : Option T) sp net emptyNode P) = 0 := by
  intro P
  induction P with
  | nil => rfl
  | cons b rest ih =>
    cases b
    · show countNodes (TNode.node (some (insertPath none sp net emptyNode rest))
        none none none none) = 0
      simp [countNodes, ih]
    · show countNodes (TNode.node none (some (insertPath none sp net emptyNode rest))
        none none none) = 0
      simp [countNodes, ih]

theorem collectCIDRs_insEmpty (sp net : Nat) :
    ∀ (P : List Bool), collectCIDRs (insertPath (none : Option T) sp net emptyNode P) = [] := by
  intro P
  induction P with
  | nil => rfl
  | cons b rest ih =>
    cases b
    · show collectCIDRs (TNode.node (some (insertPath none sp net emptyNode rest))
        none none none none) = []
      simp [collectCIDRs, ih]
    · show collectCIDRs (TNode.node none (some (insertPath none sp net emptyNode rest))
        none none none) = []
      simp [collectCIDRs, ih]

theorem countNodes_insertPath_none (sp net : Nat) :
    ∀ (P : List Bool) (t : TNode T), (nodeAt t P).bind TNode.value = none →
      countNodes (insertPath (none : Option T) sp net t P) = countNodes t := by
  intro P
  induction P with
  | nil =>
    intro t h
    cases t with | node c0 c1 v0 sp0 net0 =>
    have hv : v0 = none := by simpa [nodeAt, TNode.value] using h
    subst hv
    show countNodes (TNode.node c0 c1 none (some sp) (some net))
      = countNodes (TNode.node c0 c1 none sp0 net0)
    rw [countNodes.eq_def, countNodes.eq_def]
  | cons b rest ih =>
    intro t h
    cases t with | node c0 c1 v0 sp0 net0 =>
    cases b
    · cases c0 with
      | none =>
        show countNodes (TNode.node (some (insertPath none sp net emptyNode rest))
          c1 v0 sp0 net0) = countNodes (TNode.node none c1 v0 sp0 net0)
        rw [countNodes.eq_def, countNodes.eq_def]
        simp [countNodes_insEmpty]
      | some c =>
        have h2 : (nodeAt c rest).bind TNode.value = none := h
        show countNodes (TNode.node (some (insertPath none sp net c rest))
          c1 v0 sp0 net0) = countNodes (TNode.node (some c) c1 v0 sp0 net0)
        rw [countNodes.eq_def, countNodes.eq_def]
        simp [ih c h2]
    · cases c1 with
      | none =>
        show countNodes (TNode.node c0 (some (insertPath none sp net emptyNode rest))
          v0 sp0 net0) = countNodes (TNode.node c0 none v0 sp0 net0)
        rw [countNodes.eq_def, countNodes.eq_def]
        simp [countNodes_insEmpty]
      | some c =>
        have h2 : (nodeAt c rest).bind TNode.value = none := h
        show countNodes (TNode.node c0 (some (insertPath none sp net c rest))
          v0 sp0 net0) = countNodes (TNode.node c0 (some c) v0 sp0 net0)
        rw [countNodes.eq_def, countNodes.eq_def]
        simp [ih c h2]

theorem collectCIDRs_insertPath_none (sp net : Nat) :
    ∀ (P : List Bool) (t : TNode T), (nodeAt t P).bind TNode.value = none →
      collectCIDRs (insertPath (none : Option T) sp net t P) = collectCIDRs t := by
  intro P
  induction P with
  | nil =>
    intro t h
    cases t with | node c0 c1 v0 sp0 net0 =>
    have hv : v0 = none := by simpa [nodeAt, TNode.value] using h
    subst hv
    show collectCIDRs (TNode.node c0 c1 none (some sp) (some net))
      = collectCIDRs (TNode.node c0 c1 none sp0 net0)
    rw [collectCIDRs.eq_def, collectCIDRs.eq_def]
  | cons b rest ih =>
    intro t h
    cases t with | node c0 c1 v0 sp0 net0 =>
    cases b
    · cases c0 with
      | none =>
        show collectCIDRs (TNode.node (some (insertPath none sp net emptyNode rest))
          c1 v0 sp0 net0) = collectCIDRs (TNode.node none c1 v0 sp0 net0)
        rw [collectCIDRs.eq_def, collectCIDRs.eq_def]
        simp [collectCIDRs_insEmpty]
      | some c =>
        have h2 : (nodeAt c rest).bind TNode.value = none := h
        show collectCIDRs (TNode.node (some (insertPath none sp net c rest))
          c1 v0 sp0 net0) = collectCIDRs (TNode.node (some c) c1 v0 sp0 net0)
        rw [collectCIDRs.eq_def, collectCIDRs.eq_def]
        simp [ih c h2]
    · cases c1 with
      | none =>
        show collectCIDRs (TNode.node c0 (some (insertPath none sp net emptyNode rest))
          v0 sp0 net0) = collectCIDRs (TNode.node c0 none v0 sp0 net0)
        rw [collectCIDRs.eq_def, collectCIDRs.eq_def]
        simp [collectCIDRs_insEmpty]
      | some c =>
        have h2 : (nodeAt c rest).bind TNode.value = none := h
        show collectCIDRs (TNode.node c0 (some (insertPath none sp net c rest))
          v0 sp0 net0) = collectCIDRs (TNode.node c0 (some c) v0 sp0 net0)
        rw [collectCIDRs.eq_def, collectCIDRs.eq_def]
        simp [ih c h2]

theorem entryAt_none_of_valueless (t : TNode T) (P : List Bool)
    (h : (nodeAt t P).bind TNode.value = none) : entryAt t P = none := by
  unfold entryAt
  cases hn : nodeAt t P with
  | none => rfl
  | some n =>
    rw [hn] at h
    have hv : n.value = none := h
    cases n with | node c0 c1 v sp net =>
    simp only [TNode.value] at hv
    subst hv
    rfl

theorem longestMatch_congr (bits : Nat) (t1 t2 : TNode T) (h1 : WFT t1) (h2 : WFT t2)
    (h : ∀ Q, entryAt t1 Q = entryAt t2 Q) (addr : Nat) :
    longestMatch bits t1 addr = longestMatch bits t2 addr := by
  have c1 := longestMatch_char bits t1 addr h1
  have c2 := longestMatch_char bits t2 addr h2
  cases hm : longestMatch bits t2 addr with
  | none =>
    rw [c1.1]
    intro k
    rw [h]
    exact c2.1.mp hm k
  | some x =>
    obtain ⟨p, net, v⟩ := x
    rw [c1.2 p net v]
    obtain ⟨k, hk, he, hmax⟩ := (c2.2 p net v).mp hm
    exact ⟨k, hk, by rw [h]; exact he, fun j hj hjb => by rw [h]; exact hmax j hj hjb⟩

/-- C10 counterexample: inserting a CIDR without a value is not
observationally equivalent to skipping the insert — when the terminal node
already carries a value, the valueless insert overwrites it, so the earlier
valued entry disappears from `longestMatch` (and `size`, `getCIDRs`). -/
theorem trie_valueless_insert_counterexample :
    longestMatch 8 (trieInsert 8 (trieInsert 8 emptyNode 4 160 (some 7)) 4 160
        (none : Option Nat)) 160 = none ∧
    longestMatch 8 (trieInsert 8 emptyNode 4 160 (some 7)) 160 = some (4, 160, 7) ∧
    countNodes (trieInsert 8 (trieInsert 8 emptyNode 4 160 (some 7)) 4 160
        (none : Option Nat)) = 0 ∧
    countNodes (trieInsert 8 emptyNode 4 160 (some 7)) = 1 := by
  decide

/-- C10 (amended): a valueless insert stores `undefined` in the value slot of
the terminal node (together with the prefix length and network,
unconditionally overwriting previous contents), and such an entry is
invisible to `entryAt`-style lookup; when the terminal node carried no value
beforehand, the insert is observationally equivalent to not inserting:
`size` (countNodes), `getCIDRs` (collectCIDRs) and `longestMatch` on every
address are unchanged. -/
theorem trie_valueless_insert_amended (bits p ip : Nat) (t : TNode T) (hw : WFT t)
    (hfree : (nodeAt t (bitPath bits (networkOf ip p bits) p)).bind TNode.value = none) :
    (∃ c0 c1, nodeAt (trieInsert bits t p ip none) (bitPath bits (networkOf ip p bits) p)
        = some (TNode.node c0 c1 none (some p) (some (networkOf ip p bits)))) ∧
    entryAt (trieInsert bits t p ip none) (bitPath bits (networkOf ip p bits) p) = none ∧
    countNodes (trieInsert bits t p ip none) = countNodes t ∧
    collectCIDRs (trieInsert bits t p ip none) = collectCIDRs t ∧
    ∀ addr, longestMatch bits (trieInsert bits t p ip none) addr
      = longestMatch bits t addr := by
  refine ⟨nodeAt_insertPath_self none p (networkOf ip p bits) _ t, ?_, ?_, ?_, ?_⟩
  · show entryAt (insertPath none p (networkOf ip p bits) t
      (bitPath bits (networkOf ip p bits) p)) (bitPath bits (networkOf ip p bits) p) = none
    rw [entryAt_insertPath_self]
    rfl
  · exact countNodes_insertPath_none p (networkOf ip p bits) _ t hfree
  · exact collectCIDRs_insertPath_none p (networkOf ip p bits) _ t hfree
  · intro addr
    apply longestMatch_congr bits _ t
      (wft_insertPath none p (networkOf ip p bits) _ t hw) hw
    intro Q
    by_cases hq : Q = bitPath bits (networkOf ip p bits) p
    · subst hq
      show entryAt (insertPath none p (networkOf ip p bits) t
        (bitPath bits (networkOf ip p bits) p)) (bitPath bits (networkOf ip p bits) p)
        = entryAt t (bitPath bits (networkOf ip p bits) p)
      rw [entryAt_insertPath_self, entryAt_none_of_valueless t _ hfree]
      rfl
    · show entryAt (insertPath none p (networkOf ip p bits) t
        (bitPath bits (networkOf ip p bits) p)) Q = entryAt t Q
      exact entryAt_insertPath_other _ _ _ _ _ _ hq

theorem trie_valueless_insert_amended_witness :
    countNodes (trieInsert 8 (trieInsert 8 emptyNode 2 192 (some 5)) 4 160
        (none : Option Nat)) = countNodes (trieInsert 8 emptyNode 2 192 (some 5)) ∧
    ∀ addr, longestMatch 8 (trieInsert 8 (trieInsert 8 emptyNode 2 192 (some 5)) 4 160
        (none : Option Nat)) addr = longestMatch 8 (trieInsert 8 emptyNode 2 192 (some 5)) addr := by
  have h := trie_valueless_insert_amended 8 4 160 (trieInsert 8 emptyNode 2 192 (some 5))
    (wft_insertPath _ _ _ _ _ wft_empty) (by decide)
  exact ⟨h.2.2.1, h.2.2.2.2⟩

theorem trie_longestMatch_spec_witness :
    longestMatch 32 (buildTrie 32 [(8, 167772160, 0), (16, 167837696, 1)]) 167838211
      = some (16, 167837696, 1) :=
  ((trie_longestMatch_spec 32 [(8, 167772160, 0), (16, 167837696, 1)] 167838211
      (by decide) (by decide) (by decide)).2 16 167837696 1).mpr
    ⟨(16, 167837696, 1), by decide, rfl, by decide, rfl, by decide, by decide⟩

/-! ## IPv6 normalization (src/unnamed/part_003, normalize.ts) -/

/-- The inner `while (i < 8 && groups[i] === 0) i++` scan of
`findLongestZeroRun`: the length of the zero run starting at `i`. -/
def runLen (g : List Nat) (i : Nat) : Nat :=
  if h : i < 8 ∧ g.getD i 0 = 0 then runLen g (i + 1) + 1 else 0
termination_by 8 - i
decreasing_by omega

/-- The outer loop of `findLongestZeroRun`, carrying `longestStart` (as an
integer, `-1` meaning unset) and `longestLen`. -/
def flzrGo (g : List Nat) (i : Nat) (ls : Int) (ll : Nat) : Int × Nat :=
  if h : i < 8 then
    if hz : g.getD i 0 = 0 then
      if 1 < runLen g i ∧ ll < runLen g i then
        flzrGo g (i + runLen g i) (i : Int) (runLen g i)
      else
        flzrGo g (i + runLen g i) ls ll
    else
      flzrGo g (i + 1) ls ll
  else (ls, ll)
termination_by 8 - i
decreasing_by
  · have h1 : 1 ≤ runLen g i := by
      rw [runLen]
      simp only [h, hz, and_self, dite_true]
      omega
    omega
  · have h1 : 1 ≤ runLen g i := by
      rw [runLen]
      simp only [h, hz, and_self, dite_true]
      omega
    omega
  · omega

/-- `findLongestZeroRun(groups)`: `null` when no run of length `> 1` was
found, otherwise the leftmost longest `{start, len}`. -/
def findLongestZeroRun (g : List Nat) : Option (Nat × Nat) :=
  let r := flzrGo g 0 (-1) 0
  if r.1 = -1 then none else some (r.1.toNat, r.2)

/-- One lowercase hexadecimal digit, as produced by `Number.toString(16)`. -/
def hexDigitChar (d : Nat) : Char :=
  if d < 10 then Char.ofNat (48 + d) else Char.ofNat (87 + d)

/-- Hex digits of a positive number, most significant first. -/
def toHexAux (n : Nat) : List Char :=
  if n = 0 then [] else toHexAux (n / 16) ++ [hexDigitChar (n % 16)]
termination_by n
decreasing_by exact Nat.div_lt_self (by omega) (by omega)

/-- `n.toString(16)` for a natural number: minimal-length lowercase hex. -/
def toHexChars (n : Nat) : List Char :=
  if n = 0 then ['0'] else toHexAux n

/-- Decimal digits of a positive number, most significant first. -/
def decAux (n : Nat) : List Char :=
  if n = 0 then [] else decAux (n / 10) ++ [Char.ofNat (48 + n % 10)]
termination_by n
decreasing_by exact Nat.div_lt_self (by omega) (by omega)

/-- Decimal string of a natural number. -/
def decChars (n : Nat) : List Char :=
  if n = 0 then ['0'] else decAux n

/-- The dotted-decimal rendering
`` `${(v>>>24)&0xff}.${(v>>>16)&0xff}.${(v>>>8)&0xff}.${v&0xff}` ``. -/
def dqChars (v : Nat) : List Char :=
  decChars (v / 2 ^ 24 % 256) ++ '.' :: decChars (v / 2 ^ 16 % 256) ++
    '.' :: decChars (v / 2 ^ 8 % 256) ++ '.' :: decChars (v % 256)

/-- The `while (i < 8)` parts-building loop of `normalizeV6Groups`, with
explicit fuel (each iteration advances `i` by at least 1, so fuel `8`
suffices from `i = 0`; a part is a character list, `[]` being the empty
string pushed for the zero run). -/
def buildParts (g : List Nat) (zr : Option (Nat × Nat)) : Nat → Nat → List (List Char)
  | _, 0 => []
  | i, fuel + 1 =>
    if i < 8 then
      match zr with
      | some (s, l) =>
        if i = s then [] :: buildParts g zr (i + l) fuel
        else toHexChars (g.getD i 0) :: buildParts g zr (i + 1) fuel
      | none => toHexChars (g.getD i 0) :: buildParts g zr (i + 1) fuel
    else []

/-- `parts.join(':')` over character-list parts. -/
def joinColon : List (List Char) → List Char
  | [] => []
  | [x] => x
  | x :: xs => x ++ ':' :: joinColon xs

/-- `.replace(/::+/, '::')`: find the first position where two consecutive
colons occur, keep `::` and drop the remaining colons of that (greedy,
maximal) run; everything after the match is untouched (non-global replace). -/
def replaceColonRun : List Char → List Char
  | [] => []
  | c :: rest =>
    if c = ':' ∧ rest.head? = some ':' then
      c :: ':' :: rest.tail.dropWhile (· = ':')
    else c :: replaceColonRun rest

/-- The `text` assembly of `normalizeV6Groups` after the mixed-notation
branches: build parts, then join — `'::' + parts.slice(1).join(':')` when the
run is leading, `parts.slice(0,-1).join(':') + '::'` when trailing, else
`parts.join(':')` with `/::+/` collapsed; plain join when there is no run. -/
def v6text (g : List Nat) (zr : Option (Nat × Nat)) : List Char :=
  let parts := buildParts g zr 0 8
  match zr with
  | some _ =>
    if parts.getD 0 ['x'] = [] then ':' :: ':' :: joinColon (parts.drop 1)
    else if parts.getD (parts.length - 1) ['x'] = [] then
      joinColon (parts.take (parts.length - 1)) ++ [':', ':']
    else replaceColonRun (joinColon parts)
  | none => joinColon parts

/-- `normalizeV6Groups(groups)`: throws unless there are 8 groups; returns
mixed notation for IPv4-mapped (`::ffff:a.b.c.d`, also reported as
`mappedV4`) and IPv4-compatible (`::a.b.c.d`, except `::` and `::1`)
addresses, and otherwise the hex-groups text with the longest zero run
compressed. `(high << 16) | low` on JavaScript 32-bit integers is read back
with unsigned shifts, so it is modeled as `high * 2^16 + low` (with
`& 0xffff` as `% 2^16`). -/
def normalizeV6Groups (g : List Nat) : Except Err (String × Option String) :=
  if g.length ≠ 8 then .error .parse
  else
    let v4num := g.getD 6 0 % 2 ^ 16 * 2 ^ 16 + g.getD 7 0 % 2 ^ 16
    if (g.take 5).all (· = 0) ∧ g.getD 5 0 = 0xffff then
      .ok (⟨':' :: ':' :: 'f' :: 'f' :: 'f' :: 'f' :: ':' :: dqChars v4num⟩,
        some ⟨dqChars v4num⟩)
    else if (g.take 6).all (· = 0) ∧ v4num ≠ 0 ∧ v4num ≠ 1 then
      .ok (⟨':' :: ':' :: dqChars v4num⟩, none)
    else
      .ok (⟨v6text g (findLongestZeroRun g)⟩, none)

/-! ### Characterizing `findLongestZeroRun` -/

/-- Spec-side: `l` consecutive zero groups starting at index `s` (a window of
zeros, not necessarily maximal). -/
def ZeroWin (g : List Nat) (s l : Nat) : Prop :=
  s + l ≤ 8 ∧ ∀ j, s ≤ j → j < s + l → g.getD j 0 = 0

/-- Spec-side, following the spec's words: the longest run of at least 2
consecutive zero groups, leftmost on ties. -/
def LeftmostLongestRun (g : List Nat) (s l : Nat) : Prop :=
  ZeroWin g s l ∧ 2 ≤ l ∧ (∀ s2 l2, ZeroWin g s2 l2 → l2 ≤ l) ∧
    (∀ s2 l2, ZeroWin g s2 l2 → l2 = l → s ≤ s2)

theorem runLen_props (g : List Nat) : ∀ n i, 8 - i ≤ n →
    runLen g i ≤ 8 - i ∧
    (∀ j, i ≤ j → j < i + runLen g i → g.getD j 0 = 0) ∧
    (8 ≤ i + runLen g i ∨ g.getD (i + runLen g i) 0 ≠ 0) := by
  intro n
  induction n with
  | zero =>
    intro i hn
    have h0 : runLen g i = 0 := by
      rw [runLen, dif_neg]
      intro hcc
      exact absurd hcc.1 (by omega)
    rw [h0]
    refine ⟨by omega, by omega, ?_⟩
    left
    omega
  | succ n ih =>
    intro i hn
    by_cases hc : i < 8 ∧ g.getD i 0 = 0
    · have hr : runLen g i = runLen g (i + 1) + 1 := by
        rw [runLen, dif_pos hc]
      obtain ⟨ih1, ih2, ih3⟩ := ih (i + 1) (by omega)
      refine ⟨by omega, ?_, ?_⟩
      · intro j hj1 hj2
        rcases Nat.eq_or_lt_of_le hj1 with rfl | hlt
        · exact hc.2
        · exact ih2 j hlt (by omega)
      · have he : i + runLen g i = (i + 1) + runLen g (i + 1) := by omega
        rw [he]
        exact ih3
    · have h0 : runLen g i = 0 := by
        rw [runLen, dif_neg hc]
      rw [h0]
      refine ⟨by omega, by omega, ?_⟩
      rcases not_and_or.mp hc with h1 | h2
      · left; omega
      · right
        simpa using h2

/-- The loop invariant of `findLongestZeroRun`: `(ls, ll)` is the state after
having scanned all windows ending at or before `m`. -/
def BestUpTo (g : List Nat) (m : Nat) (ls : Int) (ll : Nat) : Prop :=
  (ls = -1 ∧ ll = 0 ∧ ∀ s l, ZeroWin g s l → s + l ≤ m → l ≤ 1) ∨
  (∃ s : Nat, ls = (s : Int) ∧ ZeroWin g s ll ∧ s + ll ≤ m ∧ 2 ≤ ll ∧
    (∀ s2 l2, ZeroWin g s2 l2 → s2 + l2 ≤ m → l2 ≤ ll) ∧
    (∀ s2 l2, ZeroWin g s2 l2 → s2 + l2 ≤ m → l2 = ll → s ≤ s2))

theorem flzrGo_spec (g : List Nat) : ∀ n i ls ll, 8 - i ≤ n → i ≤ 8 →
    (i = 0 ∨ g.getD (i - 1) 0 ≠ 0 ∨ g.getD i 0 ≠ 0 ∨ 8 ≤ i) →
    BestUpTo g i ls ll →
    BestUpTo g 8 (flzrGo g i ls ll).1 (flzrGo g i ls ll).2 := by
  intro n
  induction n with
  | zero =>
    intro i ls ll hn hi8 hbnd hinv
    have h8 : i = 8 := by omega
    subst h8
    rw [flzrGo, dif_neg (by omega : ¬(8 : Nat) < 8)]
    exact hinv
  | succ n ih =>
    intro i ls ll hn hi8 hbnd hinv
    by_cases h8 : i < 8
    · by_cases hz : g.getD i 0 = 0
      · obtain ⟨hr1, hr2, hr3⟩ := runLen_props g 8 i (by omega)
        have hL1 : 1 ≤ runLen g i := by
          rw [runLen, dif_pos ⟨h8, hz⟩]
          omega
        have hcross : ∀ s2 l2, ZeroWin g s2 l2 → s2 + l2 ≤ i + runLen g i →
            1 ≤ l2 → ¬(s2 + l2 ≤ i) → i ≤ s2 ∧ l2 ≤ runLen g i ∧
              (l2 = runLen g i → s2 = i) := by
          intro s2 l2 hw hle hl1 hgt
          have hs2 : i ≤ s2 := by
            by_contra hlt
            push_neg at hlt
            have hz1 : g.getD (i - 1) 0 = 0 := hw.2 (i - 1) (by omega) (by omega)
            rcases hbnd with h | h | h | h
            · omega
            · exact h hz1
            · exact h hz
            · omega
          exact ⟨hs2, by omega, by omega⟩
        have hbnd2 : i + runLen g i = 0 ∨ g.getD (i + runLen g i - 1) 0 ≠ 0 ∨
            g.getD (i + runLen g i) 0 ≠ 0 ∨ 8 ≤ i + runLen g i := by
          rcases hr3 with h | h
          · right; right; right; exact h
          · right; right; left; exact h
        rw [flzrGo, dif_pos h8, dif_pos hz]
        by_cases hup : 1 < runLen g i ∧ ll < runLen g i
        · rw [if_pos hup]
          apply ih (i + runLen g i) (i : Int) (runLen g i) (by omega) (by omega) hbnd2
          right
          refine ⟨i, rfl, ⟨by omega, fun j hj1 hj2 => hr2 j hj1 hj2⟩, by omega, by omega,
            ?_, ?_⟩
          · intro s2 l2 hw hle
            by_cases hin : s2 + l2 ≤ i
            · rcases hinv with ⟨_, hll0, hmax⟩ | ⟨s, _, _, _, hll2, hmax, _⟩
              · have := hmax s2 l2 hw hin
                omega
              · have := hmax s2 l2 hw hin
                omega
            · rcases Nat.eq_zero_or_pos l2 with rfl | hl2
              · omega
              · exact (hcross s2 l2 hw hle hl2 hin).2.1
          · intro s2 l2 hw hle heq
            by_cases hin : s2 + l2 ≤ i
            · rcases hinv with ⟨_, hll0, hmax⟩ | ⟨s, _, _, _, hll2, hmax, _⟩
              · have := hmax s2 l2 hw hin
                omega
              · have := hmax s2 l2 hw hin
                omega
            · rcases Nat.eq_zero_or_pos l2 with rfl | hl2
              · omega
              · have := (hcross s2 l2 hw hle hl2 hin).2.2 heq
                omega
        · rw [if_neg hup]
          apply ih (i + runLen g i) ls ll (by omega) (by omega) hbnd2
          by_cases hsmall : runLen g i ≤ 1
          · rcases hinv with ⟨he1, he2, hmax⟩ | ⟨s, he1, hw0, hle0, hll2, hmax, hleft⟩
            · left
              refine ⟨he1, he2, ?_⟩
              intro s2 l2 hw hle
              by_cases hin : s2 + l2 ≤ i
              · exact hmax s2 l2 hw hin
              · rcases Nat.eq_zero_or_pos l2 with rfl | hl2
                · omega
                · have := (hcross s2 l2 hw hle hl2 hin).2.1
                  omega
            · right
              refine ⟨s, he1, hw0, by omega, hll2, ?_, ?_⟩
              · intro s2 l2 hw hle
                by_cases hin : s2 + l2 ≤ i
                · exact hmax s2 l2 hw hin
                · rcases Nat.eq_zero_or_pos l2 with rfl | hl2
                  · omega
                  · have := (hcross s2 l2 hw hle hl2 hin).2.1
                    omega
              · intro s2 l2 hw hle heq
                by_cases hin : s2 + l2 ≤ i
                · exact hleft s2 l2 hw hin heq
                · rcases Nat.eq_zero_or_pos l2 with rfl | hl2
                  · omega
                  · have := (hcross s2 l2 hw hle hl2 hin).2.1
                    omega
          · have hLge : 2 ≤ runLen g i := by omega
            have hllge : runLen g i ≤ ll := by
              by_contra hcon
              push_neg at hcon
              exact hup ⟨by omega, hcon⟩
            rcases hinv with ⟨_, he2, _⟩ | ⟨s, he1, hw0, hle0, hll2, hmax, hleft⟩
            · omega
            · right
              refine ⟨s, he1, hw0, by omega, hll2, ?_, ?_⟩
              · intro s2 l2 hw hle
                by_cases hin : s2 + l2 ≤ i
                · exact hmax s2 l2 hw hin
                · rcases Nat.eq_zero_or_pos l2 with rfl | hl2
                  · omega
                  · have := (hcross s2 l2 hw hle hl2 hin).2.1
                    omega
              · intro s2 l2 hw hle heq
                by_cases hin : s2 + l2 ≤ i
                · exact hleft s2 l2 hw hin heq
                · rcases Nat.eq_zero_or_pos l2 with rfl | hl2
                  · omega
                  · have hs2 := (hcross s2 l2 hw hle hl2 hin).1
                    omega
      · rw [flzrGo, dif_pos h8, dif_neg hz]
        apply ih (i + 1) ls ll (by omega) (by omega) (by right; left; simpa using hz)
        have hnew : ∀ s2 l2, ZeroWin g s2 l2 → s2 + l2 ≤ i + 1 → 1 ≤ l2 → s2 + l2 ≤ i := by
          intro s2 l2 hw hle hl2
          by_contra hgt
          push_neg at hgt
          exact hz (hw.2 i (by omega) (by omega))
        rcases hinv with ⟨he1, he2, hmax⟩ | ⟨s, he1, hw0, hle0, hll2, hmax, hleft⟩
        · left
          refine ⟨he1, he2, ?_⟩
          intro s2 l2 hw hle
          rcases Nat.eq_zero_or_pos l2 with rfl | hl2
          · omega
          · exact hmax s2 l2 hw (hnew s2 l2 hw hle hl2)
        · right
          refine ⟨s, he1, hw0, by omega, hll2, ?_, ?_⟩
          · intro s2 l2 hw hle
            rcases Nat.eq_zero_or_pos l2 with rfl | hl2
            · omega
            · exact hmax s2 l2 hw (hnew s2 l2 hw hle hl2)
          · intro s2 l2 hw hle heq
            rcases Nat.eq_zero_or_pos l2 with rfl | hl2
            · omega
            · exact hleft s2 l2 hw (hnew s2 l2 hw hle hl2) heq
    · have h8e : i = 8 := by omega
      subst h8e
      rw [flzrGo, dif_neg (by omega : ¬(8 : Nat) < 8)]
      exact hinv

theorem findLongestZeroRun_spec (g : List Nat) :
    (findLongestZeroRun g = none ↔ ∀ s l, ZeroWin g s l → l ≤ 1) ∧
    (∀ s l, findLongestZeroRun g = some (s, l) ↔ LeftmostLongestRun g s l) := by
  have h0 : BestUpTo g 0 (-1) 0 := by
    left
    exact ⟨rfl, rfl, fun s l _ h => by omega⟩
  have hmain := flzrGo_spec g 8 0 (-1) 0 (by omega) (by omega) (by left; rfl) h0
  rcases hmain with ⟨he1, he2, hmax⟩ | ⟨s, he1, hw0, _, hll2, hmax2, hleft⟩
  · have hfz : findLongestZeroRun g = none := by
      simp only [findLongestZeroRun]
      rw [he1]
      simp
    rw [hfz]
    constructor
    · constructor
      · intro _ s l hw
        exact hmax s l hw hw.1
      · intro _
        rfl
    · intro s l
      constructor
      · intro h
        cases h
      · intro hllr
        exfalso
        have h1 := hmax s l hllr.1 hllr.1.1
        have h2 := hllr.2.1
        omega
  · have hfz : findLongestZeroRun g = some (s, (flzrGo g 0 (-1) 0).2) := by
      simp only [findLongestZeroRun]
      rw [he1, if_neg (by omega : ¬((s : Int) = -1))]
      simp
    rw [hfz]
    constructor
    · constructor
      · intro h
        cases h
      · intro hall
        exfalso
        have := hall s _ hw0
        omega
    · intro s2 l2
      simp only [Option.some.injEq, Prod.mk.injEq]
      constructor
      · rintro ⟨rfl, rfl⟩
        exact ⟨hw0, hll2, fun s3 l3 hw3 => hmax2 s3 l3 hw3 hw3.1,
          fun s3 l3 hw3 heq => hleft s3 l3 hw3 hw3.1 heq⟩
      · rintro ⟨hw2, hl2, hmax3, hleft3⟩
        have hla : (flzrGo g 0 (-1) 0).2 ≤ l2 := hmax3 s _ hw0
        have hlb : l2 ≤ (flzrGo g 0 (-1) 0).2 := hmax2 s2 l2 hw2 hw2.1
        have hleq : l2 = (flzrGo g 0 (-1) 0).2 := by omega
        have hsa : s2 ≤ s := hleft3 s _ hw0 hleq.symm
        have hsb : s ≤ s2 := hleft s2 l2 hw2 hw2.1 hleq
        exact ⟨by omega, by omega⟩

/-! ### Hex digits and parts -/

theorem hexDigitChar_ne_colon (d : Nat) (hd : d < 16) : hexDigitChar d ≠ ':' := by
  interval_cases d <;> decide

theorem toHexAux_no_colon : ∀ n, ∀ c ∈ toHexAux n, c ≠ ':' := by
  intro n
  induction n using Nat.strong_induction_on with
  | _ n ih =>
    intro c hc
    rw [toHexAux] at hc
    split_ifs at hc with h
    · cases hc
    · rcases List.mem_append.mp hc with h1 | h2
      · exact ih (n / 16) (Nat.div_lt_self (by omega) (by omega)) c h1
      · have he : c = hexDigitChar (n % 16) := by simpa using h2
        subst he
        exact hexDigitChar_ne_colon _ (Nat.mod_lt _ (by omega))

theorem toHexChars_no_colon (n : Nat) : ∀ c ∈ toHexChars n, c ≠ ':' := by
  intro c hc
  unfold toHexChars at hc
  split_ifs at hc with h
  · have : c = '0' := by simpa using hc
    subst this
    decide
  · exact toHexAux_no_colon n c hc

theorem toHexChars_ne_nil (n : Nat) : toHexChars n ≠ [] := by
  unfold toHexChars
  split_ifs with h
  · simp
  · rw [toHexAux, if_neg h]
    simp

theorem buildParts_stop (g : List Nat) (zr : Option (Nat × Nat)) :
    ∀ fuel i, 8 ≤ i → buildParts g zr i fuel = [] := by
  intro fuel i h
  cases fuel with
  | zero => rfl
  | succ fuel => rcases zr with _ | ⟨s, l⟩ <;> rw [buildParts, if_neg (by omega)]

theorem buildParts_none (g : List Nat) (hlen : g.length = 8) :
    ∀ fuel i, 8 - i ≤ fuel →
      buildParts g none i fuel = (g.drop i).map toHexChars := by
  intro fuel
  induction fuel with
  | zero =>
    intro i hi
    have hge : (8 : Nat) ≤ i := by omega
    rw [buildParts]
    rw [List.drop_eq_nil_of_le (by omega)]
    rfl
  | succ fuel ih =>
    intro i hi
    by_cases h8 : i < 8
    · rw [buildParts, if_pos h8, ih (i + 1) (by omega)]
      have hd : g.drop i = g.getD i 0 :: g.drop (i + 1) := by
        rw [List.getD_eq_getElem g 0 (by omega)]
        exact List.drop_eq_getElem_cons (by omega)
      rw [hd]
      rfl
    · rw [buildParts, if_neg h8, List.drop_eq_nil_of_le (by omega)]
      rfl

theorem buildParts_after (g : List Nat) (hlen : g.length = 8) (s l : Nat) :
    ∀ fuel i, 8 - i ≤ fuel → s < i →
      buildParts g (some (s, l)) i fuel = (g.drop i).map toHexChars := by
  intro fuel
  induction fuel with
  | zero =>
    intro i hi hs
    rw [buildParts]
    rw [List.drop_eq_nil_of_le (by omega)]
    rfl
  | succ fuel ih =>
    intro i hi hs
    by_cases h8 : i < 8
    · rw [buildParts, if_pos h8]
      have hne : ¬(i = s) := by omega
      rw [if_neg hne, ih (i + 1) (by omega) (by omega)]
      have hd : g.drop i = g.getD i 0 :: g.drop (i + 1) := by
        rw [List.getD_eq_getElem g 0 (by omega)]
        exact List.drop_eq_getElem_cons (by omega)
      rw [hd]
      rfl
    · rw [buildParts, if_neg h8, List.drop_eq_nil_of_le (by omega)]
      rfl

theorem buildParts_upTo (g : List Nat) (hlen : g.length = 8) (s l : Nat)
    (hl : 1 ≤ l) (hsl : s + l ≤ 8) :
    ∀ fuel i, 8 - i ≤ fuel → i ≤ s →
      buildParts g (some (s, l)) i fuel =
        ((g.drop i).take (s - i)).map toHexChars ++ [] ::
          (g.drop (s + l)).map toHexChars := by
  intro fuel
  induction fuel with
  | zero =>
    intro i hi hs
    omega
  | succ fuel ih =>
    intro i hi hs
    have h8 : i < 8 := by omega
    rw [buildParts, if_pos h8]
    rcases Nat.eq_or_lt_of_le hs with rfl | hlt
    · rw [if_pos rfl]
      rcases Nat.eq_or_lt_of_le hsl with he | hlt8
      · have h1 : buildParts g (some (i, l)) (i + l) fuel = [] :=
          buildParts_stop g _ fuel (i + l) (by omega)
        have h2 : g.drop (i + l) = [] := List.drop_eq_nil_of_le (by omega)
        rw [h1, h2]
        simp
      · rw [buildParts_after g hlen i l fuel (i + l) (by omega) (by omega)]
        simp
    · rw [if_neg (by omega), ih (i + 1) (by omega) (by omega)]
      have hd : g.drop i = g.getD i 0 :: g.drop (i + 1) := by
        rw [List.getD_eq_getElem g 0 (by omega)]
        exact List.drop_eq_getElem_cons (by omega)
      rw [hd]
      obtain ⟨m, hm⟩ : ∃ m, s - i = m + 1 := ⟨s - i - 1, by omega⟩
      have hm2 : s - (i + 1) = m := by omega
      rw [hm, hm2, List.take_succ_cons]
      rfl

theorem buildParts_main (g : List Nat) (hlen : g.length = 8) (s l : Nat)
    (hl : 1 ≤ l) (hsl : s + l ≤ 8) :
    buildParts g (some (s, l)) 0 8 =
      (g.take s).map toHexChars ++ [] :: (g.drop (s + l)).map toHexChars := by
  rw [buildParts_upTo g hlen s l hl hsl 8 0 (by omega) (by omega)]
  simp

/-! ### Joining with colons and the regex replacement -/

theorem joinColon_cons (x : List Char) (y : List Char) (ys : List (List Char)) :
    joinColon (x :: y :: ys) = x ++ ':' :: joinColon (y :: ys) := rfl

theorem joinColon_head (c : Char) (cs : List Char) (ps : List (List Char)) :
    ∃ t, joinColon ((c :: cs) :: ps) = c :: t := by
  cases ps with
  | nil => exact ⟨cs, rfl⟩
  | cons q qs => exact ⟨cs ++ ':' :: joinColon (q :: qs), rfl⟩

theorem joinColon_ne_nil (p : List Char) (ps : List (List Char)) (hp : p ≠ []) :
    joinColon (p :: ps) ≠ [] := by
  cases p with
  | nil => exact absurd rfl hp
  | cons c cs =>
    obtain ⟨t, ht⟩ := joinColon_head c cs ps
    rw [ht]
    simp

theorem joinColon_append (X Y : List (List Char)) (hX : X ≠ []) (hY : Y ≠ []) :
    joinColon (X ++ Y) = joinColon X ++ ':' :: joinColon Y := by
  induction X with
  | nil => exact absurd rfl hX
  | cons x X ih =>
    cases X with
    | nil =>
      cases Y with
      | nil => exact absurd rfl hY
      | cons y ys => rfl
    | cons x2 X2 =>
      show joinColon (x :: ((x2 :: X2) ++ Y)) = joinColon (x :: x2 :: X2) ++ ':' :: joinColon Y
      obtain ⟨z, zs, hz⟩ : ∃ z zs, (x2 :: X2) ++ Y = z :: zs := ⟨x2, X2 ++ Y, rfl⟩
      rw [hz, joinColon_cons, ← hz, ih (by simp), joinColon_cons, List.append_assoc]
      rfl

/-- No two adjacent colons. -/
def NoCC (l : List Char) : Prop := l.Chain' (fun a b => ¬(a = ':' ∧ b = ':'))

theorem noCC_of_noColon (A : List Char) (h : ∀ c ∈ A, c ≠ ':') : NoCC A := by
  induction A with
  | nil => exact List.chain'_nil
  | cons a A ih =>
    rw [NoCC, List.chain'_cons']
    refine ⟨?_, ih (fun c hc => h c (by simp [hc]))⟩
    intro b _ hab
    exact h a (by simp) hab.1

theorem joinColon_noCC (ps : List (List Char))
    (h : ∀ p ∈ ps, p ≠ [] ∧ ∀ c ∈ p, c ≠ ':') : NoCC (joinColon ps) := by
  induction ps with
  | nil => exact List.chain'_nil
  | cons x ps ih =>
    cases ps with
    | nil => exact noCC_of_noColon x (h x (by simp)).2
    | cons y ys =>
      rw [joinColon_cons, NoCC, List.chain'_append]
      refine ⟨noCC_of_noColon x (h x (by simp)).2, ?_, ?_⟩
      · rw [List.chain'_cons']
        refine ⟨?_, ih (fun p hp => h p (by simp [hp]))⟩
        intro b hb hab
        obtain ⟨hy, hyc⟩ := h y (by simp)
        obtain ⟨c, cs, rfl⟩ := List.exists_cons_of_ne_nil hy
        obtain ⟨t, ht⟩ := joinColon_head c cs ys
        rw [ht] at hb
        simp at hb
        subst hb
        exact hyc c (by simp) hab.2
      · intro a ha b hb hab
        have hax : a ∈ x := List.mem_of_mem_getLast? ha
        exact (h x (by simp)).2 a hax hab.1

theorem getLast?_append_right {α : Type} (A : List α) (b : α) (C : List α) :
    (A ++ b :: C).getLast? = (b :: C).getLast? := by
  rw [List.getLast?_append]
  obtain ⟨d, hd⟩ : ∃ d, (b :: C).getLast? = some d := by
    cases hbc : (b :: C).getLast? with
    | some d => exact ⟨d, rfl⟩
    | none => simp at hbc
  rw [hd]
  rfl

theorem getLast?_cons_ne_nil {α : Type} (b : α) (C : List α) (h : C ≠ []) :
    (b :: C).getLast? = C.getLast? := by
  obtain ⟨c, C2, rfl⟩ := List.exists_cons_of_ne_nil h
  exact getLast?_append_right [b] c C2

theorem joinColon_getLast (ps : List (List Char))
    (h : ∀ p ∈ ps, p ≠ [] ∧ ∀ c ∈ p, c ≠ ':') :
    ∀ c ∈ (joinColon ps).getLast?, c ≠ ':' := by
  induction ps with
  | nil => intro c hc; cases hc
  | cons x ps ih =>
    cases ps with
    | nil =>
      intro c hc
      exact (h x (by simp)).2 c (List.mem_of_mem_getLast? hc)
    | cons y ys =>
      intro c hc
      rw [joinColon_cons, getLast?_append_right,
        getLast?_cons_ne_nil _ _ (joinColon_ne_nil y ys (h y (by simp)).1)] at hc
      exact ih (fun p hp => h p (by simp [hp])) c hc

theorem dropWhile_no_colon (B : List Char) (hB : ∀ c ∈ B.head?, c ≠ ':') :
    B.dropWhile (· = ':') = B := by
  cases B with
  | nil => rfl
  | cons c B =>
    have hc : c ≠ ':' := hB c (by simp)
    simp [List.dropWhile_cons, hc]

theorem replaceColonRun_safe (B : List Char) (hB : ∀ c ∈ B.head?, c ≠ ':') :
    ∀ A : List Char, NoCC A → (∀ c ∈ A.getLast?, c ≠ ':') →
      replaceColonRun (A ++ ':' :: ':' :: B) = A ++ ':' :: ':' :: B := by
  intro A
  induction A with
  | nil =>
    intro _ _
    rw [List.nil_append, replaceColonRun, if_pos ⟨rfl, rfl⟩]
    simp [dropWhile_no_colon B hB]
  | cons a A ih =>
    intro hA hlast
    rw [List.cons_append, replaceColonRun]
    have hcond : ¬(a = ':' ∧ (A ++ ':' :: ':' :: B).head? = some ':') := by
      rintro ⟨rfl, hhd⟩
      cases A with
      | nil =>
        have : (':' : Char) ≠ ':' := hlast ':' (by simp)
        exact this rfl
      | cons b A2 =>
        simp at hhd
        have hR := (List.chain'_cons.mp hA).1
        exact hR ⟨rfl, hhd⟩
    rw [if_neg hcond]
    have hA2 : NoCC A := (List.chain'_cons'.mp hA).2
    rw [ih hA2 ?_]
    intro c hc
    cases A with
    | nil => cases hc
    | cons b A2 =>
      apply hlast
      rw [List.getLast?_cons_cons]
      exact hc

/-! ### The assembled text -/

theorem v6text_none (g : List Nat) (hlen : g.length = 8) :
    v6text g none = joinColon (g.map toHexChars) := by
  simp only [v6text]
  rw [buildParts_none g hlen 8 0 (by omega)]
  simp

theorem map_toHexChars_parts (X : List Nat) :
    ∀ p ∈ X.map toHexChars, p ≠ [] ∧ ∀ c ∈ p, c ≠ ':' := by
  intro p hp
  obtain ⟨a, _, rfl⟩ := List.mem_map.mp hp
  exact ⟨toHexChars_ne_nil a, toHexChars_no_colon a⟩

theorem v6text_run (g : List Nat) (hlen : g.length = 8) (s l : Nat)
    (hl : 1 ≤ l) (hsl : s + l ≤ 8) :
    v6text g (some (s, l)) = joinColon ((g.take s).map toHexChars) ++ ':' :: ':' ::
      joinColon ((g.drop (s + l)).map toHexChars) := by
  have hparts := buildParts_main g hlen s l hl hsl
  simp only [v6text]
  rw [hparts]
  set pre := (g.take s).map toHexChars with hpredef
  set post := (g.drop (s + l)).map toHexChars with hpostdef
  have hprefacts : ∀ p ∈ pre, p ≠ [] ∧ ∀ c ∈ p, c ≠ ':' := map_toHexChars_parts _
  have hpostfacts : ∀ p ∈ post, p ≠ [] ∧ ∀ c ∈ p, c ≠ ':' := map_toHexChars_parts _
  rcases Nat.eq_zero_or_pos s with rfl | hs
  · have hpre0 : pre = [] := by simp [hpredef]
    rw [hpre0, List.nil_append]
    rw [if_pos (by rfl)]
    rfl
  · have hgne : g ≠ [] := by
      intro h
      rw [h] at hlen
      simp at hlen
    have hpre_ne : pre ≠ [] := by
      rw [hpredef]
      simp only [ne_eq, List.map_eq_nil_iff, List.take_eq_nil_iff]
      push_neg
      exact ⟨by omega, hgne⟩
    obtain ⟨p0, pre2, hpe⟩ := List.exists_cons_of_ne_nil hpre_ne
    have hp0 : p0 ≠ [] := by
      have hmem : p0 ∈ pre := by rw [hpe]; simp
      exact (hprefacts p0 hmem).1
    have hcond1 : ¬((pre ++ [] :: post).getD 0 ['x'] = []) := by
      rw [hpe, List.cons_append, List.getD_cons_zero]
      exact hp0
    rw [if_neg hcond1]
    rcases Nat.eq_or_lt_of_le hsl with he8 | hlt8
    · have hpost0 : post = [] := by
        rw [hpostdef, List.drop_eq_nil_of_le (by omega)]
        rfl
      rw [hpost0]
      have hlen2 : (pre ++ [([] : List Char)]).length = pre.length + 1 := by simp
      have hcond2 : ((pre ++ [([] : List Char)]).getD
          ((pre ++ [([] : List Char)]).length - 1) ['x']) = [] := by
        rw [hlen2, Nat.add_sub_cancel, List.getD_append_right _ _ _ _ (Nat.le_refl _)]
        simp
      rw [if_pos hcond2, hlen2, Nat.add_sub_cancel, List.take_left]
      rfl
    · have hpost_ne : post ≠ [] := by
        rw [hpostdef]
        simp only [ne_eq, List.map_eq_nil_iff, List.drop_eq_nil_iff]
        omega
      have hcond2 : ¬((pre ++ [] :: post).getD
          ((pre ++ [] :: post).length - 1) ['x'] = []) := by
        have hlen3 : (pre ++ [] :: post).length = pre.length + post.length + 1 := by
          simp
          omega
        rw [hlen3, Nat.add_sub_cancel,
          List.getD_append_right _ _ _ _ (by omega : pre.length ≤ pre.length + post.length),
          show pre.length + post.length - pre.length = post.length from by omega]
        obtain ⟨m, hm⟩ : ∃ m, post.length = m + 1 :=
          ⟨post.length - 1, by
            have : post ≠ [] := hpost_ne
            have : 0 < post.length := List.length_pos.mpr this
            omega⟩
        rw [hm, List.getD_cons_succ]
        have hmm : post.getD m ['x'] ∈ post := by
          rw [List.getD_eq_getElem _ _ (by omega)]
          exact List.getElem_mem _
        exact (hpostfacts _ hmm).1
      rw [if_neg hcond2]
      obtain ⟨q0, post2, hq⟩ := List.exists_cons_of_ne_nil hpost_ne
      have hjoin : joinColon (pre ++ [] :: post) =
          joinColon pre ++ ':' :: ':' :: joinColon post := by
        rw [hq, joinColon_append pre ([] :: q0 :: post2) hpre_ne (by simp),
          joinColon_cons]
        rfl
      rw [hjoin]
      apply replaceColonRun_safe
      · intro c hc
        obtain ⟨hq0ne, hq0c⟩ := hpostfacts q0 (by rw [hq]; simp)
        obtain ⟨c0, cs, rfl⟩ := List.exists_cons_of_ne_nil hq0ne
        obtain ⟨t, ht⟩ := joinColon_head c0 cs post2
        rw [hq, ht] at hc
        simp at hc
        subst hc
        exact hq0c c0 (by simp)
      · exact joinColon_noCC pre hprefacts
      · exact joinColon_getLast pre hprefacts

/-- Spec-side: dotted-decimal string of a 32-bit value. -/
def dottedQuad (v : Nat) : String := ⟨dqChars v⟩

/-- Spec-side: the 8 lowercase hex groups joined with single colons. -/
def plainV6Text (g : List Nat) : String := ⟨joinColon (g.map toHexChars)⟩

/-- Spec-side: lowercase hex groups with the zero run `[s, s+l)` replaced by
`::`. -/
def compressedV6Text (g : List Nat) (s l : Nat) : String :=
  ⟨joinColon ((g.take s).map toHexChars) ++ ':' :: ':' ::
    joinColon ((g.drop (s + l)).map toHexChars)⟩

theorem data_append (a b : String) : (a ++ b).data = a.data ++ b.data := by
  cases a
  cases b
  rfl

theorem mapped_text (v : Nat) :
    ("::ffff:" : String) ++ dottedQuad v =
      ⟨':' :: ':' :: 'f' :: 'f' :: 'f' :: 'f' :: ':' :: dqChars v⟩ := by
  apply String.ext
  rw [data_append]
  rfl

theorem compat_text (v : Nat) :
    ("::" : String) ++ dottedQuad v = ⟨':' :: ':' :: dqChars v⟩ := by
  apply String.ext
  rw [data_append]
  rfl

/-- C3: `normalizeV6Groups` on the 8 decoded 16-bit groups yields
`::ffff:` + dotted-decimal of the low 32 bits when groups 0-4 are zero and
group 5 is `0xffff`; else `::` + dotted-decimal when groups 0-5 are zero and
the low 32 bits are neither 0 nor 1; otherwise lowercase hex groups with the
longest run of at least 2 consecutive zero groups (leftmost on ties) replaced
by `::`, a lone zero group never being compressed (no run of length ≥ 2
means a plain join). -/
theorem v6_normalize_spec (g : List Nat) (hlen : g.length = 8)
    (hb : ∀ x ∈ g, x < 2 ^ 16) :
    ((g.take 5).all (· = 0) = true ∧ g.getD 5 0 = 0xffff →
      normalizeV6Groups g =
        .ok ("::ffff:" ++ dottedQuad (g.getD 6 0 * 2 ^ 16 + g.getD 7 0),
          some (dottedQuad (g.getD 6 0 * 2 ^ 16 + g.getD 7 0)))) ∧
    (¬((g.take 5).all (· = 0) = true ∧ g.getD 5 0 = 0xffff) →
      (g.take 6).all (· = 0) = true →
      g.getD 6 0 * 2 ^ 16 + g.getD 7 0 ≠ 0 →
      g.getD 6 0 * 2 ^ 16 + g.getD 7 0 ≠ 1 →
      normalizeV6Groups g =
        .ok ("::" ++ dottedQuad (g.getD 6 0 * 2 ^ 16 + g.getD 7 0), none)) ∧
    (¬((g.take 5).all (· = 0) = true ∧ g.getD 5 0 = 0xffff) →
      ¬((g.take 6).all (· = 0) = true ∧
        g.getD 6 0 * 2 ^ 16 + g.getD 7 0 ≠ 0 ∧
        g.getD 6 0 * 2 ^ 16 + g.getD 7 0 ≠ 1) →
      ((∀ s l, ZeroWin g s l → l ≤ 1) →
        normalizeV6Groups g = .ok (plainV6Text g, none)) ∧
      (∀ s l, LeftmostLongestRun g s l →
        normalizeV6Groups g = .ok (compressedV6Text g s l, none))) := by
  have hb6 : g.getD 6 0 < 2 ^ 16 := by
    rw [List.getD_eq_getElem g 0 (by omega)]
    exact hb _ (List.getElem_mem _)
  have hb7 : g.getD 7 0 < 2 ^ 16 := by
    rw [List.getD_eq_getElem g 0 (by omega)]
    exact hb _ (List.getElem_mem _)
  have hm6 : g.getD 6 0 % 2 ^ 16 = g.getD 6 0 := Nat.mod_eq_of_lt hb6
  have hm7 : g.getD 7 0 % 2 ^ 16 = g.getD 7 0 := Nat.mod_eq_of_lt hb7
  have hne : ¬(g.length ≠ 8) := by omega
  refine ⟨?_, ?_, ?_⟩
  · rintro ⟨h5, hff⟩
    simp only [normalizeV6Groups]
    rw [if_neg hne, if_pos ⟨h5, hff⟩, hm6, hm7, mapped_text]
    rfl
  · intro hn5 h6 hv0 hv1
    simp only [normalizeV6Groups]
    rw [if_neg hne, if_neg hn5,
      if_pos ⟨h6, by rw [hm6, hm7]; exact hv0, by rw [hm6, hm7]; exact hv1⟩,
      hm6, hm7, compat_text]
  · intro hn5 hn6
    have hn6m : ¬((g.take 6).all (· = 0) = true ∧
        g.getD 6 0 % 2 ^ 16 * 2 ^ 16 + g.getD 7 0 % 2 ^ 16 ≠ 0 ∧
        g.getD 6 0 % 2 ^ 16 * 2 ^ 16 + g.getD 7 0 % 2 ^ 16 ≠ 1) := by
      rw [hm6, hm7]
      exact hn6
    constructor
    · intro hnorun
      have hfz : findLongestZeroRun g = none :=
        (findLongestZeroRun_spec g).1.mpr hnorun
      simp only [normalizeV6Groups]
      rw [if_neg hne, if_neg hn5, if_neg hn6m, hfz, v6text_none g hlen]
      rfl
    · intro s l hllr
      have hfz : findLongestZeroRun g = some (s, l) :=
        ((findLongestZeroRun_spec g).2 s l).mpr hllr
      have hl2 : 2 ≤ l := hllr.2.1
      have hsl : s + l ≤ 8 := hllr.1.1
      simp only [normalizeV6Groups]
      rw [if_neg hne, if_neg hn5, if_neg hn6m, hfz,
        v6text_run g hlen s l (by omega) hsl]
      rfl

theorem v6_normalize_spec_witness :
    normalizeV6Groups [8193, 3512, 0, 0, 0, 0, 0, 1] =
      .ok (compressedV6Text [8193, 3512, 0, 0, 0, 0, 0, 1] 2 5, none) := by
  have hllr : LeftmostLongestRun [8193, 3512, 0, 0, 0, 0, 0, 1] 2 5 := by
    refine ⟨⟨by omega, ?_⟩, by omega, ?_, ?_⟩
    · intro j h1 h2
      interval_cases j <;> rfl
    · intro s2 l2 hw
      by_contra hc
      push_neg at hc
      obtain ⟨hle, hz⟩ := hw
      rcases Nat.lt_or_ge s2 2 with h2 | h2
      · exact absurd (hz 1 (by omega) (by omega)) (by decide)
      · exact absurd (hz 7 (by omega) (by omega)) (by decide)
    · intro s2 l2 hw heq
      by_contra hc
      push_neg at hc
      exact absurd (hw.2 1 (by omega) (by omega)) (by decide)
  exact ((v6_normalize_spec [8193, 3512, 0, 0, 0, 0, 0, 1] (by decide)
    (by decide)).2.2 (by decide) (by decide)).2 2 5 hllr

/-! ## IPv6 string parsing (src/domain/ip.ts, `IPv6.parse` / `expandGroups` /
`validateSingleCompression`) — strings modeled as character lists -/

/-- `s.split(sep)`: JavaScript split on a single-character separator
(`"".split` gives `[""]`, separators at the ends give empty parts). -/
def splitOn (sep : Char) : List Char → List (List Char)
  | [] => [[]]
  | c :: rest =>
    if c = sep then [] :: splitOn sep rest
    else
      match splitOn sep rest with
      | [] => [[c]]
      | x :: xs => (c :: x) :: xs

/-- The regex test `/:{3,}/.test(s)`: some position starts three consecutive
colons. -/
def hasTripleColon : List Char → Bool
  | c1 :: c2 :: c3 :: rest =>
    if c1 = ':' ∧ c2 = ':' ∧ c3 = ':' then true
    else hasTripleColon (c2 :: c3 :: rest)
  | _ => false

/-- The regex match `^(.*):([^:]+)$`: split at the last colon, provided a
nonempty colon-free tail follows it. -/
def splitLastColon : List Char → Option (List Char × List Char)
  | [] => none
  | c :: rest =>
    match splitLastColon rest with
    | some (a, b) => some (c :: a, b)
    | none => if c = ':' ∧ rest ≠ [] ∧ ¬rest.contains ':' then some ([], rest) else none

/-- `validateSingleCompression` as a single structural loop. The JavaScript
version walks the parts with a `compressionFound` flag and an inner
`while` that skips consecutive empties; `skipping` models being inside that
inner while. Returns `false` where the source throws. -/
def validateSC : List (List Char) → Bool → Bool → Bool
  | [], _, _ => true
  | p :: rest, found, skipping =>
    if skipping then
      if p = [] then validateSC rest found true
      else validateSC rest found false
    else if p = [] then
      if found then false else validateSC rest true true
    else validateSC rest found false

/-- `parts.indexOf('')` (`none` for `-1`). -/
def idxOfEmpty : List (List Char) → Option Nat
  | [] => none
  | p :: rest => if p = [] then some 0 else (idxOfEmpty rest).map (· + 1)

def isDigitCh (c : Char) : Bool := '0' ≤ c ∧ c ≤ '9'

def isHexDigitCh (c : Char) : Bool :=
  ('0' ≤ c ∧ c ≤ '9') ∨ ('a' ≤ c ∧ c ≤ 'f') ∨ ('A' ≤ c ∧ c ≤ 'F')

/-- Value of one hex digit. -/
def hexDigitVal (c : Char) : Nat :=
  if c ≤ '9' then c.toNat - 48 else if c ≤ 'F' then c.toNat - 55 else c.toNat - 87

/-- Decimal value of an all-digit string. -/
def decValOf (p : List Char) : Nat := p.foldl (fun acc c => acc * 10 + (c.toNat - 48)) 0

/-- Hex value of an all-hex-digit string. -/
def hexValOf (p : List Char) : Nat := p.foldl (fun acc c => acc * 16 + hexDigitVal c) 0

def isJsWs (c : Char) : Bool :=
  c = ' ' ∨ c = '\t' ∨ c = '\n' ∨ c = '\r' ∨ c = '\x0b' ∨ c = '\x0c'

/-- `parseInt(p, 16)`: skip leading whitespace, optional sign, optional
`0x`/`0X`, then the longest prefix of hex digits; `none` for `NaN`. -/
def parseIntHex (p : List Char) : Option Int :=
  let t := p.dropWhile isJsWs
  let sgn : Int := match t with | '-' :: _ => -1 | _ => 1
  let t2 := match t with | '-' :: r => r | '+' :: r => r | _ => t
  let t3 := match t2 with
    | '0' :: 'x' :: r => r
    | '0' :: 'X' :: r => r
    | _ => t2
  let digits := t3.takeWhile isHexDigitCh
  if digits = [] then none else some (sgn * (hexValOf digits : Int))

/-- Infinite two's-complement bitwise OR on JavaScript BigInts. -/
def intLor : Int → Int → Int
  | .ofNat m, .ofNat n => .ofNat (m.lor n)
  | .ofNat m, .negSucc n => .negSucc (n - n.land m)
  | .negSucc m, .ofNat n => .negSucc (m - m.land n)
  | .negSucc m, .negSucc n => .negSucc (m.land n)

/-- One octet of the mixed-notation IPv4 tail: nonempty all-digits without a
leading zero (except `"0"` itself), value at most 255. -/
def parseOctet (octet : List Char) : Except Err Nat :=
  if octet = [] ∨ ¬octet.all isDigitCh ∨ (1 < octet.length ∧ octet.headD 'x' = '0') then
    .error .parse
  else
    let num := decValOf octet
    if 255 < num then .error .parse else .ok num

def parseOctets : List (List Char) → Except Err (List Nat)
  | [] => .ok []
  | o :: rest =>
    match parseOctet o with
    | .error e => .error e
    | .ok n =>
      match parseOctets rest with
      | .error e => .error e
      | .ok ns => .ok (n :: ns)

/-- One group of the mixed-notation IPv6 head: `''` is read as `'0'`, then
the format must be 1-4 hex digits (`/^[0-9a-fA-F]{1,4}$/`). -/
def parseV6GroupStrict (p : List Char) : Except Err Nat :=
  let q := if p = [] then ['0'] else p
  if q.all isHexDigitCh ∧ 1 ≤ q.length ∧ q.length ≤ 4 then .ok (hexValOf q)
  else .error .parse

def parseV6Groups : List (List Char) → Except Err (List Nat)
  | [] => .ok []
  | p :: rest =>
    match parseV6GroupStrict p with
    | .error e => .error e
    | .ok n =>
      match parseV6Groups rest with
      | .error e => .error e
      | .ok ns => .ok (n :: ns)

/-- The `::` expansion `parts.splice(doubleColonIndex, 1, ...Array(missing).fill('0'))`. -/
def spliceZeros (parts : List (List Char)) (idx missing : Nat) : List (List Char) :=
  parts.take idx ++ List.replicate missing ['0'] ++ parts.drop (idx + 1)

/-- The standard-notation tail of `expandGroups`: split on `:`, validate the
single compression, expand `::`, require 8 parts, and read each part with
`parseInt(p || '0', 16)` (`none` = `NaN`). `Array(missing)` with a negative
length throws a `RangeError`, not a `ParseError`. -/
def standardV6 (s : List Char) : Except Err (List (Option Int)) :=
  let parts := splitOn ':' s
  if validateSC parts false false = false then .error .parse
  else
    match idxOfEmpty parts with
    | some idx =>
      if (8 : Int) - ((parts.length : Int) - 1) < 0 then .error .jsRange
      else
        let parts2 := spliceZeros parts idx (8 - (parts.length - 1))
        if parts2.length ≠ 8 then .error .parse
        else .ok (parts2.map (fun p => parseIntHex (if p = [] then ['0'] else p)))
    | none =>
      if parts.length ≠ 8 then .error .parse
      else .ok (parts.map (fun p => parseIntHex (if p = [] then ['0'] else p)))

/-- The mixed-notation branch of `expandGroups` for `ipv6Part:lastPart` where
`lastPart` contains a dot. Every failure in this branch is a `ParseError`
(including the explicit `missing < 0` check that the standard path lacks). -/
def mixedV6 (ipv6Part lastPart : List Char) : Except Err (List (Option Int)) :=
  let octets := splitOn '.' lastPart
  if octets.length ≠ 4 then .error .parse
  else
    match parseOctets octets with
    | .error e => .error e
    | .ok os =>
      let ipv4High := os.getD 0 0 * 256 + os.getD 1 0
      let ipv4Low := os.getD 2 0 * 256 + os.getD 3 0
      let ipv6Parts := splitOn ':' ipv6Part
      if validateSC ipv6Parts false false = false then .error .parse
      else
        match idxOfEmpty ipv6Parts with
        | some idx =>
          if (6 : Int) - ((ipv6Parts.length : Int) - 1) < 0 then .error .parse
          else
            let parts2 := spliceZeros ipv6Parts idx (6 - (ipv6Parts.length - 1))
            if parts2.length ≠ 6 then .error .parse
            else
              match parseV6Groups parts2 with
              | .error e => .error e
              | .ok gs =>
                .ok (gs.map (fun (n : Nat) => some (n : Int)) ++
                  [some (ipv4High : Int), some (ipv4Low : Int)])
        | none =>
          if ipv6Parts.length ≠ 6 then .error .parse
          else
            match parseV6Groups ipv6Parts with
            | .error e => .error e
            | .ok gs =>
              .ok (gs.map (fun (n : Nat) => some (n : Int)) ++
                [some (ipv4High : Int), some (ipv4Low : Int)])

/-- `IPv6.expandGroups(s)`: reject 3+ consecutive colons, detect mixed
notation via `^(.*):([^:]+)$` with a dotted tail, otherwise standard
notation. -/
def expandGroupsM (s : List Char) : Except Err (List (Option Int)) :=
  if hasTripleColon s then .error .parse
  else
    match splitLastColon s with
    | some (a, b) => if b.contains '.' then mixedV6 a b else standardV6 s
    | none => standardV6 s

/-- The `groups.reduce((acc, g, i) => acc | (BigInt(g) << BigInt(112 - i*16)), 0n)`
fold of `IPv6.parse`; `BigInt(NaN)` throws a `RangeError`. -/
def combineGo : List (Option Int) → Nat → Int → Except Err Int
  | [], _, acc => .ok acc
  | none :: _, _, _ => .error .jsRange
  | some gv :: rest, i, acc => combineGo rest (i + 1) (intLor acc (gv * 2 ^ (112 - 16 * i)))

/-- `IPv6.parse` on a string. -/
def parseV6 (s : List Char) : Except Err Int :=
  match expandGroupsM s with
  | .error e => .error e
  | .ok gs => combineGo gs 0 0

/-- Spec-side: the MSB-first place-value combination of the groups. -/
def sumGroups : List (Option Int) → Nat → Int
  | [], _ => 0
  | g :: rest, i => g.getD 0 * 2 ^ (112 - 16 * i) + sumGroups rest (i + 1)

/-! ### Structure of `split`, triple colons, and the compression check -/

theorem splitOn_ne_nil (sep : Char) : ∀ s, splitOn sep s ≠ [] := by
  intro s
  induction s with
  | nil => simp [splitOn]
  | cons c rest ih =>
    rw [splitOn]
    split_ifs with h
    · simp
    · cases hs : splitOn sep rest with
      | nil => simp
      | cons x xs => simp

theorem splitOn_append (sep : Char) : ∀ A B,
    splitOn sep (A ++ sep :: B) = splitOn sep A ++ splitOn sep B := by
  intro A B
  induction A with
  | nil =>
    rw [List.nil_append]
    simp [splitOn]
  | cons c A ih =>
    rw [List.cons_append, splitOn, splitOn]
    split_ifs with h
    · rw [ih]
      rfl
    · rw [ih]
      cases hs : splitOn sep A with
      | nil => exact absurd hs (splitOn_ne_nil sep A)
      | cons x xs => simp

theorem splitOn_no_sep (sep : Char) : ∀ A, (∀ c ∈ A, c ≠ sep) → splitOn sep A = [A] := by
  intro A
  induction A with
  | nil => intro _; rfl
  | cons c A ih =>
    intro h
    rw [splitOn, if_neg (h c (by simp)), ih (fun c hc => h c (by simp [hc]))]

theorem splitOn_exists_nonempty (B : List Char) (h : ∃ c ∈ B, c ≠ ':') :
    ∃ y ∈ splitOn ':' B, y ≠ [] := by
  induction B with
  | nil =>
    obtain ⟨c, hc, _⟩ := h
    cases hc
  | cons c B ih =>
    by_cases hcc : c = ':'
    · subst hcc
      rw [splitOn, if_pos rfl]
      have h2 : ∃ c ∈ B, c ≠ ':' := by
        obtain ⟨d, hd, hdne⟩ := h
        rcases List.mem_cons.mp hd with rfl | hd2
        · exact absurd rfl hdne
        · exact ⟨d, hd2, hdne⟩
      obtain ⟨y, hy, hyne⟩ := ih h2
      exact ⟨y, by simp [hy], hyne⟩
    · rw [splitOn, if_neg hcc]
      cases hs : splitOn ':' B with
      | nil => exact absurd hs (splitOn_ne_nil ':' B)
      | cons x xs => exact ⟨c :: x, by simp, by simp⟩

theorem hasTriple_decomp : ∀ n s A B, s.length ≤ n →
    s = A ++ ':' :: ':' :: ':' :: B → hasTripleColon s = true := by
  intro n
  induction n with
  | zero =>
    intro s A B hn hs
    subst hs
    simp at hn
  | succ n ih =>
    intro s A B hn hs
    cases A with
    | nil =>
      subst hs
      rw [List.nil_append]
      simp [hasTripleColon]
    | cons a A2 =>
      subst hs
      obtain ⟨d1, t1, h1⟩ := List.exists_cons_of_ne_nil
        (by simp : A2 ++ ':' :: ':' :: ':' :: B ≠ [])
      have hl1 : 2 ≤ t1.length := by
        have := congrArg List.length h1
        simp at this
        omega
      obtain ⟨d2, t2, h2⟩ := List.exists_cons_of_ne_nil
        (by intro he; rw [he] at hl1; simp at hl1 : t1 ≠ [])
      have hl2 : 1 ≤ t2.length := by
        have hh := congrArg List.length h2
        simp at hh
        omega
      obtain ⟨d3, t3, h3⟩ := List.exists_cons_of_ne_nil
        (by intro he; rw [he] at hl2; simp at hl2 : t2 ≠ [])
      rw [List.cons_append, h1, h2, h3, hasTripleColon]
      split_ifs with h
      · rfl
      · rw [← h3, ← h2, ← h1]
        refine ih _ A2 B ?_ rfl
        simp at hn ⊢
        omega

theorem splitLastColon_sound : ∀ s a b, splitLastColon s = some (a, b) →
    s = a ++ ':' :: b ∧ b ≠ [] ∧ ∀ c ∈ b, c ≠ ':' := by
  intro s
  induction s with
  | nil =>
    intro a b h
    cases h
  | cons c rest ih =>
    intro a b h
    rw [splitLastColon] at h
    cases hr : splitLastColon rest with
    | some ab =>
      obtain ⟨a2, b2⟩ := ab
      rw [hr] at h
      simp only [Option.some.injEq, Prod.mk.injEq] at h
      obtain ⟨ha, hb⟩ := h
      obtain ⟨hs2, hb1, hb2⟩ := ih a2 b2 hr
      subst ha
      subst hb
      refine ⟨by rw [List.cons_append, ← hs2], hb1, hb2⟩
    | none =>
      rw [hr] at h
      split_ifs at h with hc
      · simp only [Option.some.injEq, Prod.mk.injEq] at h
        obtain ⟨ha, hb⟩ := h
        obtain ⟨h1, h2, h3⟩ := hc
        subst ha
        subst hb
        refine ⟨by rw [h1]; rfl, h2, ?_⟩
        intro d hd hde
        subst hde
        exact h3 (List.elem_iff.mpr hd)

theorem validateSC_cons_skip (p : List Char) (rest : List (List Char)) (f : Bool) :
    validateSC (p :: rest) f true =
      if p = [] then validateSC rest f true else validateSC rest f false := rfl

theorem validateSC_cons_found (p : List Char) (rest : List (List Char)) :
    validateSC (p :: rest) true false =
      if p = [] then false else validateSC rest true false := rfl

theorem validateSC_cons_fresh (p : List Char) (rest : List (List Char)) :
    validateSC (p :: rest) false false =
      if p = [] then validateSC rest true true else validateSC rest false false := rfl

theorem vsc_found_then_empty : ∀ (W V : List (List Char)),
    validateSC (W ++ [] :: V) true false = false := by
  intro W
  induction W with
  | nil =>
    intro V
    rw [List.nil_append, validateSC_cons_found]
    simp
  | cons w W ih =>
    intro V
    rw [List.cons_append, validateSC_cons_found]
    by_cases hw : w = [] <;> simp [hw, ih]

theorem vsc_skip_then_empty : ∀ (Y V : List (List Char)), (∃ y ∈ Y, y ≠ []) →
    validateSC (Y ++ [] :: V) true true = false := by
  intro Y
  induction Y with
  | nil =>
    intro V hy
    obtain ⟨y, hy2, _⟩ := hy
    cases hy2
  | cons y Y ih =>
    intro V hy
    rw [List.cons_append, validateSC_cons_skip]
    by_cases hyy : y = []
    · rw [if_pos hyy]
      apply ih
      obtain ⟨z, hz, hzne⟩ := hy
      rcases List.mem_cons.mp hz with rfl | hz2
      · exact absurd hyy hzne
      · exact ⟨z, hz2, hzne⟩
    · rw [if_neg hyy]
      exact vsc_found_then_empty Y V

theorem vsc_skip_two_runs : ∀ (X Y V : List (List Char)), (∃ y ∈ Y, y ≠ []) →
    validateSC (X ++ [] :: (Y ++ [] :: V)) true true = false := by
  intro X
  induction X with
  | nil =>
    intro Y V hy
    rw [List.nil_append, validateSC_cons_skip, if_pos rfl]
    exact vsc_skip_then_empty Y V hy
  | cons x X ih =>
    intro Y V hy
    rw [List.cons_append, validateSC_cons_skip]
    by_cases hx : x = []
    · rw [if_pos hx]
      exact ih Y V hy
    · rw [if_neg hx]
      exact vsc_found_then_empty X (Y ++ [] :: V)

theorem vsc_two_runs : ∀ (X Y V : List (List Char)), (∃ y ∈ Y, y ≠ []) →
    validateSC (X ++ [] :: (Y ++ [] :: V)) false false = false := by
  intro X
  induction X with
  | nil =>
    intro Y V hy
    rw [List.nil_append, validateSC_cons_fresh, if_pos rfl]
    exact vsc_skip_then_empty Y V hy
  | cons x X ih =>
    intro Y V hy
    rw [List.cons_append, validateSC_cons_fresh]
    by_cases hx : x = []
    · rw [if_pos hx]
      exact vsc_skip_two_runs X Y V hy
    · rw [if_neg hx]
      exact ih Y V hy

/-! ### Path lemmas for `parseV6` -/

theorem parseV6_triple (s : List Char) (h : hasTripleColon s = true) :
    parseV6 s = .error .parse := by
  rw [parseV6, expandGroupsM, if_pos h]

theorem standardV6_invalid (s : List Char)
    (h : validateSC (splitOn ':' s) false false = false) :
    standardV6 s = .error .parse := by
  rw [standardV6, if_pos h]

theorem parseOctet_error (o : List Char) (e : Err) (h : parseOctet o = .error e) :
    e = .parse := by
  simp only [parseOctet] at h
  split_ifs at h
  · injection h with he
    exact he.symm
  · injection h with he
    exact he.symm

theorem parseOctets_error (l : List (List Char)) : ∀ e, parseOctets l = .error e →
    e = .parse := by
  induction l with
  | nil => intro e h; cases h
  | cons o rest ih =>
    intro e h
    rw [parseOctets] at h
    cases ho : parseOctet o with
    | error e2 =>
      rw [ho] at h
      injection h with he
      exact he ▸ parseOctet_error o e2 ho
    | ok n =>
      rw [ho] at h
      cases hr : parseOctets rest with
      | error e3 =>
        rw [hr] at h
        injection h with he
        exact he ▸ ih e3 hr
      | ok ns =>
        rw [hr] at h
        cases h

theorem mixedV6_invalid (a b : List Char)
    (h : validateSC (splitOn ':' a) false false = false) :
    mixedV6 a b = .error .parse := by
  simp only [mixedV6]
  split_ifs with h1
  · rfl
  · cases hpo : parseOctets (splitOn '.' b) with
    | error e => simp [parseOctets_error _ _ hpo]
    | ok os => rfl

theorem parseV6Groups_length (l : List (List Char)) : ∀ ns, parseV6Groups l = .ok ns →
    ns.length = l.length := by
  induction l with
  | nil =>
    intro ns h
    cases h
    rfl
  | cons p rest ih =>
    intro ns h
    rw [parseV6Groups] at h
    cases hp : parseV6GroupStrict p with
    | error e =>
      rw [hp] at h
      cases h
    | ok n =>
      rw [hp] at h
      cases hr : parseV6Groups rest with
      | error e =>
        rw [hr] at h
        cases h
      | ok ms =>
        rw [hr] at h
        injection h with he
        subst he
        simp [ih ms hr]

theorem standardV6_ok_length (s : List Char) (gs : List (Option Int))
    (h : standardV6 s = .ok gs) : gs.length = 8 := by
  simp only [standardV6] at h
  split at h
  · cases h
  · split at h
    · split at h
      · cases h
      · split at h
        · cases h
        · next h2 =>
          injection h with he
          subst he
          simp at h2 ⊢
          omega
    · split at h
      · cases h
      · next h2 =>
        injection h with he
        subst he
        simp at h2 ⊢
        omega

theorem mixedV6_ok_length (a b : List Char) (gs : List (Option Int))
    (h : mixedV6 a b = .ok gs) : gs.length = 8 := by
  simp only [mixedV6] at h
  split at h
  · cases h
  · split at h
    · cases h
    · split at h
      · cases h
      · split at h
        · next idx hidx =>
          split at h
          · cases h
          · split at h
            · cases h
            · split at h
              · cases h
              · next g6 heq =>
                injection h with he
                subst he
                have := parseV6Groups_length _ _ heq
                simp
                omega
        · split at h
          · cases h
          · split at h
            · cases h
            · next g6 heq =>
              injection h with he
              subst he
              have := parseV6Groups_length _ _ heq
              simp
              omega


theorem splitOn_colon_cons (C : List Char) : splitOn ':' (':' :: C) = [] :: splitOn ':' C := by
  rw [splitOn, if_pos rfl]

theorem parseV6_double_compression (s A B C : List Char)
    (hs : s = A ++ (':' :: ':' :: (B ++ (':' :: ':' :: C)))) :
    parseV6 s = .error .parse := by
  by_cases h3 : hasTripleColon s = true
  · exact parseV6_triple s h3
  · have hBnc : ∃ c ∈ B, c ≠ ':' := by
      by_contra hall
      push_neg at hall
      apply h3
      subst hs
      rcases B with _ | ⟨b, B2⟩
      · exact hasTriple_decomp _ _ A (':' :: C) (le_refl _) (by simp)
      · have hbc : b = ':' := hall b (by simp)
        subst hbc
        exact hasTriple_decomp _ _ A (B2 ++ (':' :: ':' :: C)) (le_refl _) (by simp)
    have hsplit : splitOn ':' s =
        splitOn ':' A ++ ([] :: (splitOn ':' B ++ ([] :: splitOn ':' C))) := by
      rw [hs, splitOn_append ':' A (':' :: (B ++ (':' :: ':' :: C))), splitOn_colon_cons,
        splitOn_append ':' B (':' :: C), splitOn_colon_cons]
    have hY := splitOn_exists_nonempty B hBnc
    have hval : validateSC (splitOn ':' s) false false = false := by
      rw [hsplit]
      exact vsc_two_runs _ _ _ hY
    have hexp : expandGroupsM s = .error .parse := by
      rw [expandGroupsM, if_neg h3]
      cases hsl : splitLastColon s with
      | none => exact standardV6_invalid s hval
      | some ab =>
        obtain ⟨a, b⟩ := ab
        obtain ⟨hsab, hbne, hbnc2⟩ := splitLastColon_sound s a b hsl
        show (if b.contains '.' = true then mixedV6 a b else standardV6 s) = .error .parse
        by_cases hdot : b.contains '.' = true
        · rw [if_pos hdot]
          have hsa : splitOn ':' s = splitOn ':' a ++ [b] := by
            rw [hsab, splitOn_append ':' a b, splitOn_no_sep ':' b hbnc2]
          obtain ⟨Z1, zl, hZ⟩ : ∃ Z1 zl, splitOn ':' C = Z1 ++ [zl] := by
            rcases (splitOn ':' C).eq_nil_or_concat with h0 | ⟨Z1, zl, h1⟩
            · exact absurd h0 (splitOn_ne_nil ':' C)
            · exact ⟨Z1, zl, by simpa [List.concat_eq_append] using h1⟩
          have hcomb : splitOn ':' a ++ [b] =
              (splitOn ':' A ++ ([] :: (splitOn ':' B ++ ([] :: Z1)))) ++ [zl] := by
            rw [← hsa, hsplit, hZ]
            simp
          have hlen : (splitOn ':' a).length =
              (splitOn ':' A ++ ([] :: (splitOn ':' B ++ ([] :: Z1)))).length := by
            have hl := congrArg List.length hcomb
            simp at hl ⊢
            omega
          obtain ⟨hpre, _⟩ := List.append_inj hcomb hlen
          have hvala : validateSC (splitOn ':' a) false false = false := by
            rw [hpre]
            exact vsc_two_runs _ _ _ hY
          exact mixedV6_invalid a b hvala
        · rw [if_neg hdot]
          exact standardV6_invalid s hval
    rw [parseV6, hexp]


theorem intLor_ofNat (m n : Nat) : intLor (m : Int) (n : Int) = ((m.lor n : Nat) : Int) := rfl

theorem lor_aligned (k a b : Nat) (ha : 2 ^ k ∣ a) (hb : b < 2 ^ k) :
    a.lor b = a + b := by
  obtain ⟨c, rfl⟩ := ha
  exact (Nat.mul_add_lt_is_or hb c).symm

theorem combineGo_sum : ∀ (gs : List (Option Int)) (i acc : Nat),
    (∀ og ∈ gs, ∃ n : Nat, og = some (n : Int) ∧ n < 2 ^ 16) →
    gs.length + i = 8 → 2 ^ (128 - 16 * i) ∣ acc → acc < 2 ^ 128 →
    combineGo gs i (acc : Int) = .ok ((acc : Int) + sumGroups gs i) ∧
      0 ≤ (acc : Int) + sumGroups gs i ∧ (acc : Int) + sumGroups gs i < 2 ^ 128 := by
  intro gs
  induction gs with
  | nil =>
    intro i acc hb hlen hdvd hlt
    refine ⟨by simp [combineGo, sumGroups], by simp [sumGroups], ?_⟩
    simp [sumGroups]
    exact_mod_cast hlt
  | cons og gs ih =>
    intro i acc hb hlen hdvd hlt
    obtain ⟨n, rfl, hn16⟩ := hb og (by simp)
    have hi7 : i ≤ 7 := by
      simp at hlen
      omega
    have hb2 : n * 2 ^ (112 - 16 * i) < 2 ^ (128 - 16 * i) := by
      have h1 := Nat.mul_lt_mul_of_pos_right hn16 (Nat.two_pow_pos (112 - 16 * i))
      calc n * 2 ^ (112 - 16 * i) < 2 ^ 16 * 2 ^ (112 - 16 * i) := h1
        _ = 2 ^ (128 - 16 * i) := by
            rw [← pow_add]
            congr 1
            omega
    have hstep : acc.lor (n * 2 ^ (112 - 16 * i)) = acc + n * 2 ^ (112 - 16 * i) :=
      lor_aligned (128 - 16 * i) acc _ hdvd hb2
    have hcg : combineGo (some (n : Int) :: gs) i (acc : Int) =
        combineGo gs (i + 1) ((acc + n * 2 ^ (112 - 16 * i) : Nat) : Int) := by
      rw [combineGo]
      congr 1
      rw [show ((n : Int) * 2 ^ (112 - 16 * i)) = ((n * 2 ^ (112 - 16 * i) : Nat) : Int) from
        by push_cast; ring]
      rw [intLor_ofNat, hstep]
    have he : 128 - 16 * (i + 1) = 112 - 16 * i := by omega
    have hdvd2 : 2 ^ (128 - 16 * (i + 1)) ∣ acc + n * 2 ^ (112 - 16 * i) := by
      rw [he]
      apply Nat.dvd_add
      · exact dvd_trans (pow_dvd_pow 2 (by omega)) hdvd
      · exact dvd_mul_left _ n
    have hlt2 : acc + n * 2 ^ (112 - 16 * i) < 2 ^ 128 := by
      obtain ⟨m, hm⟩ := hdvd
      have hml : m < 2 ^ (16 * i) := by
        by_contra hmge
        push_neg at hmge
        have hge : 2 ^ 128 ≤ acc := by
          rw [hm]
          calc 2 ^ 128 = 2 ^ (128 - 16 * i) * 2 ^ (16 * i) := by
                rw [← pow_add]
                congr 1
                omega
            _ ≤ 2 ^ (128 - 16 * i) * m := Nat.mul_le_mul_left _ hmge
        omega
      have hle : acc + 2 ^ (128 - 16 * i) ≤ 2 ^ 128 := by
        rw [hm]
        calc 2 ^ (128 - 16 * i) * m + 2 ^ (128 - 16 * i) =
            2 ^ (128 - 16 * i) * (m + 1) := by ring
          _ ≤ 2 ^ (128 - 16 * i) * 2 ^ (16 * i) := Nat.mul_le_mul_left _ (by omega)
          _ = 2 ^ 128 := by
              rw [← pow_add]
              congr 1
              omega
      omega
    have hlen2 : gs.length + (i + 1) = 8 := by
      simp at hlen
      omega
    have hbnd2 : ∀ og ∈ gs, ∃ n : Nat, og = some (n : Int) ∧ n < 2 ^ 16 :=
      fun og hog => hb og (by simp [hog])
    obtain ⟨ih1, ih2, ih3⟩ := ih (i + 1) (acc + n * 2 ^ (112 - 16 * i)) hbnd2 hlen2 hdvd2 hlt2
    have hsum : (acc : Int) + sumGroups (some (n : Int) :: gs) i =
        ((acc + n * 2 ^ (112 - 16 * i) : Nat) : Int) + sumGroups gs (i + 1) := by
      rw [sumGroups]
      push_cast
      simp only [Option.getD_some]
      ring
    refine ⟨?_, ?_, ?_⟩
    · rw [hcg, ih1, ← hsum]
    · rw [hsum]
      exact ih2
    · rw [hsum]
      exact ih3

/-- C4 (amended): `IPv6.parse` on a string rejects every run of 3 or more
consecutive colons and every second `::` compression with a `ParseError`;
every accepted string yields exactly 8 expanded groups, combined MSB-first by
bitwise OR of each group shifted to `112 - 16*i`. The standard path does not
validate that a group has at most 4 hex digits, so a group may be `2^16` or
larger and the combined value may exceed `2^128 - 1`; when every group is
below `2^16` the value is the 128-bit place-value sum. -/
theorem v6_parse_spec (s : List Char) :
    (∀ A B, s = A ++ (':' :: ':' :: ':' :: B) → parseV6 s = .error .parse) ∧
    (∀ A B C, s = A ++ (':' :: ':' :: (B ++ (':' :: ':' :: C))) →
      parseV6 s = .error .parse) ∧
    (∀ gs, expandGroupsM s = .ok gs → gs.length = 8 ∧ parseV6 s = combineGo gs 0 0 ∧
      ((∀ og ∈ gs, ∃ n : Nat, og = some (n : Int) ∧ n < 2 ^ 16) →
        parseV6 s = .ok (sumGroups gs 0) ∧ 0 ≤ sumGroups gs 0 ∧
          sumGroups gs 0 < 2 ^ 128)) := by
  refine ⟨?_, ?_, ?_⟩
  · intro A B hdec
    exact parseV6_triple s (hasTriple_decomp s.length s A B (le_refl _) hdec)
  · intro A B C hdec
    exact parseV6_double_compression s A B C hdec
  · intro gs hok
    have hlen : gs.length = 8 := by
      rw [expandGroupsM] at hok
      by_cases h3 : hasTripleColon s = true
      · rw [if_pos h3] at hok
        cases hok
      · rw [if_neg h3] at hok
        cases hsl : splitLastColon s with
        | none =>
          rw [hsl] at hok
          exact standardV6_ok_length s gs hok
        | some ab =>
          rw [hsl] at hok
          obtain ⟨a, b⟩ := ab
          have hok2 : (if b.contains '.' = true then mixedV6 a b else standardV6 s) =
              .ok gs := hok
          by_cases hdot : b.contains '.' = true
          · rw [if_pos hdot] at hok2
            exact mixedV6_ok_length a b gs hok2
          · rw [if_neg hdot] at hok2
            exact standardV6_ok_length s gs hok2
    refine ⟨hlen, by rw [parseV6, hok], ?_⟩
    intro hbnd
    obtain ⟨h1, h2, h3⟩ := combineGo_sum gs 0 0 hbnd (by omega) (dvd_zero _)
      (Nat.two_pow_pos 128)
    rw [Nat.cast_zero, zero_add] at h1 h2 h3
    exact ⟨by rw [parseV6, hok]; exact h1, h2, h3⟩

instance {ε α : Type} [DecidableEq ε] [DecidableEq α] : DecidableEq (Except ε α) :=
  fun a b =>
    match a, b with
    | .ok x, .ok y =>
      if h : x = y then .isTrue (by rw [h]) else .isFalse (by simp [h])
    | .error e, .error f =>
      if h : e = f then .isTrue (by rw [h]) else .isFalse (by simp [h])
    | .ok _, .error _ => .isFalse (by simp)
    | .error _, .ok _ => .isFalse (by simp)

set_option maxRecDepth 100000

/-- C4 counterexample: the standard parse path does not validate hex-group
width, so `"fffff::"` is accepted with first group `0xfffff ≥ 2^16` and a
value of at least `2^128` — the accepted groups are not 16-bit and the result
is not a 128-bit value. -/
theorem v6_parse_claim_counterexample :
    parseV6 ("fffff::".data) = .ok (1048575 * 2 ^ 112) ∧
    expandGroupsM ("fffff::".data) =
      .ok [some 1048575, some 0, some 0, some 0, some 0, some 0, some 0, some 0] ∧
    2 ^ 16 ≤ 1048575 ∧ (2 : Int) ^ 128 ≤ 1048575 * 2 ^ 112 := by
  refine ⟨by decide, by decide, by norm_num, by norm_num⟩

theorem v6_parse_spec_witness :
    parseV6 (":::".data) = .error .parse ∧
    parseV6 ("1::2::3".data) = .error .parse ∧
    parseV6 ("1::8".data) = .ok (sumGroups
      [some 1, some 0, some 0, some 0, some 0, some 0, some 0, some 8] 0) := by
  refine ⟨?_, ?_, ?_⟩
  · exact (v6_parse_spec (":::".data)).1 [] [] (by decide)
  · exact (v6_parse_spec ("1::2::3".data)).2.1 ['1'] ['2'] ['3'] (by decide)
  · have h := (v6_parse_spec ("1::8".data)).2.2
      [some 1, some 0, some 0, some 0, some 0, some 0, some 0, some 8] (by decide)
    refine (h.2.2 ?_).1
    intro og hog
    fin_cases hog
    · exact ⟨1, rfl, by norm_num⟩
    · exact ⟨0, rfl, by norm_num⟩
    · exact ⟨0, rfl, by norm_num⟩
    · exact ⟨0, rfl, by norm_num⟩
    · exact ⟨0, rfl, by norm_num⟩
    · exact ⟨0, rfl, by norm_num⟩
    · exact ⟨0, rfl, by norm_num⟩
    · exact ⟨8, rfl, by norm_num⟩


end IpKit
